import Mathlib

/-! # A verification development for the in-memory filesystem of `main.c`

The C program keeps a tree of `node` records.  Every node owns an array of
`MAX_DIRS` child pointers that is used as an open-addressed hash table with
linear probing and tombstones.  The definitions below are a shallow embedding of
the functions of `main.c`:

* a C string is the list of its bytes before the terminating NUL;
* the array `nodes[MAX_DIRS]` is a list of optional children (`none` is `NULL`);
* a pointer to a node of the tree is the list of slot indices leading to it from
  the root, so a store through a pointer rebuilds the tree along that list;
* `free` changes no field of any record; the blocks that have been released are
  read off the tombstones: `delete` releases the name and the data of a node
  when, and only when, it sets its tombstone to `DEAD`, and every other `free`
  is on a block that leaves the tree, so the released blocks of the tree are the
  names and data of its dead nodes;
* a command that has no defined behaviour (it dereferences `NULL`, releases a
  block twice or reads a released block) has the result `none`, and no state
  follows it;
* the `parent` link of a node is the directory whose slot holds it, so climbing
  the `parent` links from a directory visits the names of the directories that
  were entered to reach it, nearest first;
* every command prints its answer; the printed lines are values of `reply`.
-/

set_option autoImplicit false
set_option maxRecDepth 100000

namespace ApiProject

/-! ## Data model -/

/-- A C string: the bytes (as `unsigned char` values) before the terminator. -/
abbrev cstring := List Nat

/-- The `type` field of a node: `#define FILE 1`, `#define DIR 0`. -/
inductive kind where
  | DIR
  | FILE
  deriving DecidableEq, Repr

/-- The `tombstone` field of a node: `#define ALIVE 1`, `#define DEAD 0`. -/
inductive mark where
  | DEAD
  | ALIVE
  deriving DecidableEq, Repr

/-- Maximum number of children of a node (`#define MAX_DIRS 1024`). -/
def MAX_DIRS : Nat := 1024

/-- The constant `(unsigned int)(0.618033989 * 1024.0)`: the product is
632.866..., and the conversion to `unsigned int` truncates it. -/
def HASH_CONST : Nat := (618033989 * 1024) / 1000000000

/-- The record `struct node_s`; the `parent` field is implicit in the position
of the node in the tree. -/
inductive node where
  | mk (type : kind) (tombstone : mark) (name : cstring) (data : Option cstring)
      (nodes : List (Option node))

namespace node

/-- Field `type`. -/
def type : node → kind
  | mk t _ _ _ _ => t

/-- Field `tombstone`. -/
def tombstone : node → mark
  | mk _ t _ _ _ => t

/-- Field `name`. -/
def name : node → cstring
  | mk _ _ n _ _ => n

/-- Field `data` (`none` is the `NULL` pointer). -/
def data : node → Option cstring
  | mk _ _ _ d _ => d

/-- Field `nodes`, the array of child pointers. -/
def nodes : node → List (Option node)
  | mk _ _ _ _ ns => ns

end node

/-- The record `struct bt_s`, with `nil` for the `NULL` pointer. -/
inductive bt where
  | nil
  | mk (l : bt) (key : cstring) (r : bt)

/-- One printed line. -/
inductive reply where
  | ok
  | no
  | ok_len (n : Nat)
  | contenuto (data : cstring)
  | ok_path (path : cstring)
  deriving DecidableEq, Repr

/-! ## Strings -/

/-- The byte of the path separator `'/'`. -/
def SLASH : Nat := 47

/-- The bytes of an ASCII literal. -/
def cstr (s : String) : cstring := s.toList.map Char.toNat

/-- The value of a byte read through a (signed) `char`. -/
def schar (c : Nat) : Int := if c < 128 then (c : Int) else (c : Int) - 256

/-- The function `strcmp`, as the sign of its result: the strings are compared
byte by byte as `unsigned char`, and a string that ends first is the smaller. -/
def strcmp : cstring → cstring → Int
  | [], [] => 0
  | [], _ :: _ => -1
  | _ :: _, [] => 1
  | a :: as, b :: bs => if a = b then strcmp as bs else if a < b then -1 else 1

/-- The three statements `last = strrchr(parameters, '/')`,
`name = my_strdup(last + 1)` and `*last = 0` that open every command: the
result is the pair of what is left in `parameters` and `name`.  When there is no
`'/'` the pointer `last` is `NULL` and the program does not survive `last + 1`;
that is `none`. -/
def split_last : cstring → Option (cstring × cstring)
  | [] => none
  | c :: cs =>
    match split_last cs with
    | some (pre, name) => some (c :: pre, name)
    | none => if c = SLASH then some ([], cs) else none

/-- The successive results of `strtok(parameters, "/")`, `strtok(NULL, "/")`, ...
up to the first `NULL`; `tok` is the token being read. -/
def strtok_from : cstring → cstring → List cstring
  | [], tok => if tok = [] then [] else [tok]
  | c :: cs, tok =>
    if c = SLASH then
      (if tok = [] then strtok_from cs [] else tok :: strtok_from cs [])
    else strtok_from cs (tok ++ [c])

/-- All the tokens of a path. -/
def strtok (parameters : cstring) : List cstring := strtok_from parameters []

/-! ## The hash function -/

/-- Wrap-around of the 32 bit `int`. -/
def wrap_int (x : Int) : Int := (x + 2147483648) % 4294967296 - 2147483648

/-- The loop `while ((c = *str++)) hash += c;` started with `hash = h`. -/
def hash_sum : cstring → Int → Int
  | [], h => h
  | c :: cs, h => hash_sum cs (wrap_int (h + schar c))

/-- The function `hash`: in `hash * HASH_CONST % MAX_DIRS` the `int` is
converted to `unsigned int` and the product is taken modulo `2 ^ 32`. -/
def hash (str : cstring) : Nat :=
  ((hash_sum str 0 % 4294967296).toNat * HASH_CONST % 4294967296) % MAX_DIRS

/-! ## Nodes and slots -/

/-- The function `init_node`. -/
def init_node (type : kind) (name : cstring) : node :=
  node.mk type mark.ALIVE name
    (match type with
     | kind.DIR => none
     | kind.FILE => some [])
    (List.replicate MAX_DIRS none)

/-- The pointer `cur->nodes[i]`. -/
def slot (cur : node) (i : Nat) : Option node := (cur.nodes[i]?).join

/-- The assignment `cur->nodes[i] = v`. -/
def set_slot (cur : node) (i : Nat) (v : Option node) : node :=
  node.mk cur.type cur.tombstone cur.name cur.data (cur.nodes.set i v)

/-- The statements `free(cur->name); free(cur->data); cur->tombstone = DEAD` of
`delete`: the two pointers keep their values, and the tombstone records that
their blocks are released. -/
def set_dead (cur : node) : node :=
  node.mk cur.type mark.DEAD cur.name cur.data cur.nodes

/-- The assignment `cur->data = data`. -/
def set_data (cur : node) (data : cstring) : node :=
  node.mk cur.type cur.tombstone cur.name (some data) cur.nodes

/-- The node a pointer points to. -/
def deref : List Nat → node → Option node
  | [], n => some n
  | i :: is, n =>
    match slot n i with
    | some c => deref is c
    | none => none

/-- The tree after the node a pointer points to has been changed by `f`. -/
def store (f : node → node) : List Nat → node → node
  | [], n => f n
  | i :: is, n =>
    match slot n i with
    | some c => set_slot n i (some (store f is c))
    | none => n

/-! ## The directory table -/

/-- The test of `pick_free_index` on a slot: `NULL`, or a node that is `DEAD`. -/
def is_free : Option node → Bool
  | none => true
  | some n => decide (n.tombstone = mark.DEAD)

/-- One loop `for(...; i < bound; i++) if(free) return i;` of `pick_free_index`,
from index `i` with `fuel` iterations left. -/
def free_loop (cur : node) : Nat → Nat → Option Nat
  | 0, _ => none
  | fuel + 1, i => if is_free (slot cur i) then some i else free_loop cur fuel (i + 1)

/-- The function `pick_free_index`; `none` is the result `-1`. -/
def pick_free_index (cur : node) (directory : cstring) : Option Nat :=
  match free_loop cur (MAX_DIRS - hash directory) (hash directory) with
  | some i => some i
  | none => free_loop cur (hash directory) 0

/-- One loop of a lookup, from index `i` with `fuel` iterations left:
`if(cur->nodes[i] != NULL && hit) return i; else if(cur->nodes[i] == NULL) return -1;`.
The result is `some r` when the loop executes a `return` of `r`, and `none` when
the loop reaches its bound. -/
def lookup_loop (hit : node → Bool) (cur : node) : Nat → Nat → Option (Option Nat)
  | 0, _ => none
  | fuel + 1, i =>
    match slot cur i with
    | none => some none
    | some n => if hit n then some (some i) else lookup_loop hit cur fuel (i + 1)

/-- The two loops of a lookup, one after the other, and the final `return -1`. -/
def lookup (hit : node → Bool) (cur : node) (directory : cstring) : Option Nat :=
  match lookup_loop hit cur (MAX_DIRS - hash directory) (hash directory) with
  | some r => r
  | none =>
    match lookup_loop hit cur (hash directory) 0 with
    | some r => r
    | none => none

/-- The condition of `enter_node`: alive, a directory, and the same name. -/
def hit_dir (directory : cstring) (n : node) : Bool :=
  decide (n.tombstone = mark.ALIVE) && decide (n.type = kind.DIR) &&
    decide (strcmp n.name directory = 0)

/-- The condition of `pick_file`: alive, a file, and the same name. -/
def hit_file (directory : cstring) (n : node) : Bool :=
  decide (n.tombstone = mark.ALIVE) && decide (n.type = kind.FILE) &&
    decide (strcmp n.name directory = 0)

/-- The condition of `pick_node`: alive and the same name. -/
def hit_node (directory : cstring) (n : node) : Bool :=
  decide (n.tombstone = mark.ALIVE) && decide (strcmp n.name directory = 0)

/-- The function `enter_node`; the pointer `cur->nodes[i]` it returns is given by
the index `i`, and `none` is `NULL`. -/
def enter_node (cur : node) (directory : cstring) : Option Nat :=
  lookup (hit_dir directory) cur directory

/-- The function `pick_file`; `none` is the result `-1`. -/
def pick_file (cur : node) (directory : cstring) : Option Nat :=
  lookup (hit_file directory) cur directory

/-- The function `pick_node`; `none` is the result `-1`. -/
def pick_node (cur : node) (directory : cstring) : Option Nat :=
  lookup (hit_node directory) cur directory

/-! ## Path resolution -/

/-- The loop of `reach_node` from the node `cur` with the tokens that are left;
the result is the pointer to the node reached, relative to `cur`, and the node. -/
def reach_loop : List cstring → node → Option (List Nat × node)
  | [], cur => some ([], cur)
  | target :: rest, cur =>
    match enter_node cur target with
    | none => none
    | some i =>
      match slot cur i with
      | none => none
      | some c =>
        match reach_loop rest c with
        | none => none
        | some (ptr, d) => some (i :: ptr, d)

/-- The function `reach_node`, with the global `root` as an argument. -/
def reach_node (root : node) (parameters : cstring) : Option (List Nat × node) :=
  reach_loop (strtok parameters) root

/-! ## The commands -/

/-- The function `create`: the new tree and the line printed; `none` when the
path has no separator. -/
def create (type : kind) (parameters : cstring) (root : node) : Option (node × reply) :=
  match split_last parameters with
  | none => none
  | some (pre, name) =>
    match reach_node root pre with
    | none => some (root, reply.no)
    | some (ptr, cur) =>
      match (match type with
             | kind.DIR => enter_node cur name
             | kind.FILE => pick_file cur name) with
      | some _ => some (root, reply.no)
      | none =>
        match pick_free_index cur name with
        | none => some (root, reply.no)
        | some i =>
          some (store (fun c => set_slot c i (some (init_node type name))) ptr root, reply.ok)

/-- The function `write`. -/
def write (parameters : cstring) (data : cstring) (root : node) : Option (node × reply) :=
  match split_last parameters with
  | none => none
  | some (pre, name) =>
    match reach_node root pre with
    | none => some (root, reply.no)
    | some (ptr, cur) =>
      match pick_file cur name with
      | none => some (root, reply.no)
      | some i =>
        some (store (fun c => set_slot c i ((slot c i).map (fun f => set_data f data))) ptr root,
          reply.ok_len data.length)

/-- The function `read`. -/
def read (parameters : cstring) (root : node) : Option reply :=
  match split_last parameters with
  | none => none
  | some (pre, name) =>
    match reach_node root pre with
    | none => some reply.no
    | some (_, cur) =>
      match pick_file cur name with
      | none => some reply.no
      | some i =>
        match (slot cur i).bind node.data with
        | none => some reply.no
        | some d => some (reply.contenuto d)

/-- The first loop of `delete` on a directory, over the slots that are left:
the final values of `success` and `tombstone`, from their current values. -/
def count_loop : List (Option node) → Bool → Nat → Bool × Nat
  | [], success, tombstone => (success, tombstone)
  | s :: rest, success, tombstone =>
    if success then
      match s with
      | none => count_loop rest success tombstone
      | some c =>
        if c.tombstone = mark.ALIVE then count_loop rest false tombstone
        else count_loop rest success (tombstone + 1)
    else (success, tombstone)

/-- The function `delete`.  On a file, the name and the data are released and the
tombstone is set.  On a directory, the first loop counts the dead children in
`tombstone` and clears `success` at an alive child; with `success` and
`tombstone = 0` the name is released and the tombstone is set.  With `success`
and `tombstone > 0` the second loop runs, and its first step calls `free` on the
name of a dead child, a block that was released when the tombstone of that child
was set: the block is released twice, and the result is `none`. -/
def delete (parameters : cstring) (root : node) : Option (node × reply) :=
  match split_last parameters with
  | none => none
  | some (pre, name) =>
    match reach_node root pre with
    | none => some (root, reply.no)
    | some (ptr, cur) =>
      match pick_node cur name with
      | none => some (root, reply.no)
      | some i =>
        match slot cur i with
        | none => some (root, reply.no)
        | some t =>
          match t.type with
          | kind.FILE =>
            some (store (fun c => set_slot c i ((slot c i).map set_dead)) ptr root, reply.ok)
          | kind.DIR =>
            if (count_loop t.nodes true 0).1 then
              (if (count_loop t.nodes true 0).2 = 0 then
                some (store (fun c => set_slot c i ((slot c i).map set_dead)) ptr root, reply.ok)
              else none)
            else some (root, reply.no)

mutual
/-- The function `delete_recursive`, which changes nothing but releases the data
(of a file), the name and the record of every child, after the same on the
children of a child that is a directory.  The result tells whether every block
is released for the first time: `false` when a child is dead, since its name and
data were released when its tombstone was set. -/
def delete_recursive : node → Bool
  | node.mk _ _ _ _ ns => delete_recursive_slots ns
/-- The loop of `delete_recursive` over the slots that are left. -/
def delete_recursive_slots : List (Option node) → Bool
  | [] => true
  | none :: rest => delete_recursive_slots rest
  | some c :: rest =>
    (match c.type with
     | kind.DIR => delete_recursive c
     | kind.FILE => true) && decide (c.tombstone = mark.ALIVE) && delete_recursive_slots rest
end

/-- The function `delete_r`.  The node found is alive; when its `data` is not
`NULL` the data is released, otherwise `delete_recursive` runs on it; then its
name and its record are released and the slot is set to `NULL`.  The result is
`none` when `delete_recursive` releases a block twice. -/
def delete_r (parameters : cstring) (root : node) : Option (node × reply) :=
  match split_last parameters with
  | none => none
  | some (pre, name) =>
    match reach_node root pre with
    | none => some (root, reply.no)
    | some (ptr, cur) =>
      match pick_node cur name with
      | none => some (root, reply.no)
      | some i =>
        match slot cur i with
        | none => some (root, reply.no)
        | some t =>
          match t.data with
          | some _ => some (store (fun c => set_slot c i none) ptr root, reply.ok)
          | none =>
            if delete_recursive t then
              some (store (fun c => set_slot c i none) ptr root, reply.ok)
            else none

/-! ## The command `find` -/

/-- The function `insert_bt` applied to a new node with key `key`. -/
def insert_bt (key : cstring) : bt → bt
  | bt.nil => bt.mk bt.nil key bt.nil
  | bt.mk l k r =>
    if strcmp key k < 0 then bt.mk (insert_bt key l) k r else bt.mk l k (insert_bt key r)

/-- The function `print_bt`: the lines printed, in order. -/
def print_bt : bt → List reply
  | bt.nil => []
  | bt.mk l k r => print_bt l ++ reply.ok_path k :: print_bt r

/-- The loop `while(prec != root)` of `find_recursive`: `chain` holds the names of
`prec`, `prec->parent`, ... up to the child of the root. -/
def climb : List cstring → cstring → cstring
  | [], path => path
  | n :: chain, path => climb chain (SLASH :: (n ++ path))

mutual
/-- The function `find_recursive` on the node `cur`, whose chain of names up to
the root is `chain`; the global `bt_root` is an argument and the result.  The
result is `none` when a released block is read. -/
def find_recursive (name : cstring) : node → List cstring → bt → Option bt
  | node.mk _ _ _ _ ns, chain, t => find_slots name ns chain t
/-- The loop of `find_recursive` over the slots that are left.  The name of every
child is passed to `strcmp`, with no test of its tombstone; the name of a dead
child has been released, and reading it gives no defined result. -/
def find_slots (name : cstring) : List (Option node) → List cstring → bt → Option bt
  | [], _, t => some t
  | none :: rest, chain, t => find_slots name rest chain t
  | some c :: rest, chain, t =>
    match c.tombstone with
    | mark.DEAD => none
    | mark.ALIVE =>
      match c.type with
      | kind.DIR =>
        match find_recursive name c (c.name :: chain)
            (if strcmp name c.name = 0 then insert_bt (climb chain (SLASH :: name)) t
             else t) with
        | none => none
        | some t1 => find_slots name rest chain t1
      | kind.FILE =>
        find_slots name rest chain
          (if strcmp name c.name = 0 then insert_bt (climb chain (SLASH :: name)) t else t)
end

/-- The function `find`: the lines printed. -/
def find (parameters : cstring) (root : node) : Option (List reply) :=
  match find_recursive parameters root [] bt.nil with
  | none => none
  | some bt.nil => some [reply.no]
  | some (bt.mk l k r) => some (print_bt (bt.mk l k r))

/-- The tree built by `main` before the first command. -/
def root0 : node := init_node kind.DIR []

/-! ## Auxiliary notions used in the statements and proofs -/

/-- The order in which the slots are visited from the start index `b`:
`b, ..., MAX_DIRS - 1, 0, ..., b - 1`. -/
def probe (b : Nat) : List Nat := List.range' b (MAX_DIRS - b) ++ List.range' 0 b

/-- A lookup loop over an explicit list of indices. -/
def scan_list (hit : node → Bool) (cur : node) : List Nat → Option (Option Nat)
  | [] => none
  | i :: is =>
    match slot cur i with
    | none => some none
    | some n => if hit n then some (some i) else scan_list hit cur is

/-- A free-slot loop over an explicit list of indices. -/
def free_list (cur : node) : List Nat → Option Nat
  | [] => none
  | i :: is => if is_free (slot cur i) then some i else free_list cur is

/-- The condition of the lookup that `create` makes for a node of type `t`. -/
def hit_kind (t : kind) (name : cstring) : node → Bool :=
  match t with
  | kind.DIR => hit_dir name
  | kind.FILE => hit_file name

/-- Two nodes with the same `type`, `tombstone` and `name`. -/
def head_eq (a b : node) : Prop :=
  a.type = b.type ∧ a.tombstone = b.tombstone ∧ a.name = b.name

mutual
/-- Shape invariant of a tree: every array has `MAX_DIRS` entries, and a file
has no child. -/
def wf : node → Prop
  | node.mk t _ _ _ ns =>
    ns.length = MAX_DIRS ∧ (t = kind.FILE → ∀ s ∈ ns, s = none) ∧ wf_slots ns
/-- The invariant `wf` for every child in a list of slots. -/
def wf_slots : List (Option node) → Prop
  | [] => True
  | none :: rest => wf_slots rest
  | some c :: rest => wf c ∧ wf_slots rest
end

/-- The states of the tree that the program can be in: `main` starts from
`root0`, and each command that returns leads from a state to the next. -/
inductive Reachable : node → Prop
  | init : Reachable root0
  | create (type : kind) (p : cstring) (s s' : node) (r : reply) :
      Reachable s → create type p s = some (s', r) → Reachable s'
  | write (p data : cstring) (s s' : node) (r : reply) :
      Reachable s → write p data s = some (s', r) → Reachable s'
  | delete (p : cstring) (s s' : node) (r : reply) :
      Reachable s → delete p s = some (s', r) → Reachable s'
  | delete_r (p : cstring) (s s' : node) (r : reply) :
      Reachable s → delete_r p s = some (s', r) → Reachable s'

/-- One command line of the loop of `main`, after tokenisation. -/
inductive command where
  | create (p : cstring)
  | create_dir (p : cstring)
  | read (p : cstring)
  | write (p data : cstring)
  | delete (p : cstring)
  | delete_r (p : cstring)
  | find (name : cstring)

/-- The dispatch of `main` on one command: the next tree and the lines printed. -/
def step : command → node → Option (node × List reply)
  | command.create p, s => (create kind.FILE p s).map (fun x => (x.1, [x.2]))
  | command.create_dir p, s => (create kind.DIR p s).map (fun x => (x.1, [x.2]))
  | command.read p, s => (read p s).map (fun r => (s, [r]))
  | command.write p data, s => (write p data s).map (fun x => (x.1, [x.2]))
  | command.delete p, s => (delete p s).map (fun x => (x.1, [x.2]))
  | command.delete_r p, s => (delete_r p s).map (fun x => (x.1, [x.2]))
  | command.find name, s => (find name s).map (fun out => (s, out))

/-- The loop of `main` on a list of commands. -/
def run : List command → node → Option (node × List reply)
  | [], s => some (s, [])
  | c :: cs, s =>
    match step c s with
    | none => none
    | some (s1, out) =>
      match run cs s1 with
      | none => none
      | some (s2, outs) => some (s2, out ++ outs)

/-! ## Sample trees -/

/-- The directory `a` holding the file `f` (slot 976 is the hash of `f`). -/
def sample_dir_a : node :=
  set_slot (init_node kind.DIR (cstr "a")) 976 (some (init_node kind.FILE (cstr "f")))

/-- The tree after `create_dir /a` and `create /a/f` on the initial tree
(slot 888 is the hash of `a`). -/
def sample_a_f : node := set_slot root0 888 (some sample_dir_a)

/-- The tree after `create /x` and `create /` on the initial tree: the root holds
the file `x` (slot 64 is the hash of `x`) and a file with the empty name
(slot 0 is the hash of the empty name). -/
def sample_x_empty : node :=
  set_slot (set_slot root0 64 (some (init_node kind.FILE (cstr "x")))) 0
    (some (init_node kind.FILE []))

/-! ## Notions for the command `find` -/

/-- The keys of a binary tree, from left to right. -/
def keys_bt : bt → List cstring
  | bt.nil => []
  | bt.mk l k r => keys_bt l ++ k :: keys_bt r

/-- The paths in the lines `ok <path>` of an output. -/
def paths_of : List reply → List cstring
  | [] => []
  | reply.ok_path p :: rest => p :: paths_of rest
  | _ :: rest => paths_of rest

/-- Search-tree order: the keys on the left are smaller than the key of the
root, the keys on the right are not smaller. -/
def ordered_bt : bt → Prop
  | bt.nil => True
  | bt.mk l k r =>
    (∀ x ∈ keys_bt l, strcmp x k < 0) ∧ (∀ x ∈ keys_bt r, strcmp k x ≤ 0) ∧
      ordered_bt l ∧ ordered_bt r

/-- The tree after the keys of a list have been inserted one after the other. -/
def insert_all : List cstring → bt → bt
  | [], t => t
  | k :: ks, t => insert_all ks (insert_bt k t)

mutual
/-- The paths that `find_recursive` inserts, in the order of the insertions. -/
def found_node (name : cstring) : node → List cstring → List cstring
  | node.mk _ _ _ _ ns, chain => found_slots name ns chain
/-- The paths inserted from a list of slots. -/
def found_slots (name : cstring) : List (Option node) → List cstring → List cstring
  | [], _ => []
  | none :: rest, chain => found_slots name rest chain
  | some c :: rest, chain =>
    (if strcmp name c.name = 0 then [climb chain (SLASH :: name)] else []) ++
      ((match c.type with
        | kind.DIR => found_node name c (c.name :: chain)
        | kind.FILE => []) ++ found_slots name rest chain)
end

/-- The path `/n1/n2/.../nk` of a list of names (used to specify `find`). -/
def full_path : List cstring → cstring
  | [] => []
  | n :: rest => SLASH :: (n ++ full_path rest)

mutual
/-- Specification side of `find`: every node strictly below a node, in the order
of the slots and parents first; for each one, the names of its ancestors from the child of the given
node down to its parent, and its own name. -/
def below : node → List (List cstring × cstring)
  | node.mk _ _ _ _ ns => below_slots ns
/-- The nodes held by a list of slots, and the nodes below them. -/
def below_slots : List (Option node) → List (List cstring × cstring)
  | [] => []
  | none :: rest => below_slots rest
  | some c :: rest =>
    (([], c.name) :: (below c).map (fun e => (c.name :: e.1, e.2))) ++ below_slots rest
end

/-- Specification side of `find`: the full paths of the nodes named `name` below
the root: `/`, the names of
the ancestors from just below the root, and the name, joined by `/`. -/
def paths_named (name : cstring) (root : node) : List cstring :=
  ((below root).filter (fun e => decide (e.2 = name))).map (fun e => full_path (e.1 ++ [e.2]))

mutual
/-- A tree without a dead node. -/
def all_alive : node → Prop
  | node.mk _ tb _ _ ns => tb = mark.ALIVE ∧ all_alive_slots ns
/-- No dead node in or below a list of slots. -/
def all_alive_slots : List (Option node) → Prop
  | [] => True
  | none :: rest => all_alive_slots rest
  | some c :: rest => all_alive c ∧ all_alive_slots rest
end

/-- The states that the program reaches with `create`, `write` and `delete_r`
only. -/
inductive ReachableNoDelete : node → Prop
  | init : ReachableNoDelete root0
  | create (type : kind) (p : cstring) (s s' : node) (r : reply) :
      ReachableNoDelete s → create type p s = some (s', r) → ReachableNoDelete s'
  | write (p data : cstring) (s s' : node) (r : reply) :
      ReachableNoDelete s → write p data s = some (s', r) → ReachableNoDelete s'
  | delete_r (p : cstring) (s s' : node) (r : reply) :
      ReachableNoDelete s → delete_r p s = some (s', r) → ReachableNoDelete s'

/-! ## Notions for the capacity of a directory -/

/-- The number of slots of an array that are not `NULL`. -/
def occupied : List (Option node) → Nat
  | [] => 0
  | none :: rest => occupied rest
  | some _ :: rest => occupied rest + 1

/-- A directory that holds exactly one alive node for each name of a list, and
nothing else. -/
def filled (cur : node) (names : List cstring) : Prop :=
  cur.nodes.length = MAX_DIRS ∧
  (∀ j n, slot cur j = some n → n.tombstone = mark.ALIVE ∧ n.name ∈ names) ∧
  occupied cur.nodes = names.length

/-- The command that creates a node of kind `c.1` named `c.2` in the directory of
path `pre`. -/
def create_in (pre : cstring) (c : kind × cstring) : command :=
  match c.1 with
  | kind.FILE => command.create (pre ++ SLASH :: c.2)
  | kind.DIR => command.create_dir (pre ++ SLASH :: c.2)

/-- The `MAX_DIRS` file names of two bytes `[65 + i / 32, 65 + i % 32]`. -/
def sample_names : List (kind × cstring) :=
  (List.range MAX_DIRS).map (fun i => (kind.FILE, [65 + i / 32, 65 + i % 32]))

/-- The tree after `create /ab`, `create_dir /ba` and `delete_r /ab` on the initial
tree: both names have the hash 360, so the directory `ba` is in slot 361, behind
the slot 360 that `delete_r` has set to `NULL`. -/
def sample_hidden : node := set_slot root0 361 (some (init_node kind.DIR (cstr "ba")))

/-! ## Notions for the hash function -/

/-- The sum of the characters of a name, as a mathematical integer. -/
def char_sum : cstring → Int
  | [] => 0
  | c :: cs => schar c + char_sum cs

/-- The formula of the specification for `hash`: the sum of the characters times
`0.618033989 × 1024`, truncated, modulo 1024. -/
def hash_formula_spec (name : cstring) : Int :=
  (char_sum name * 618033989 * 1024 / 1000000000) % 1024

/-! ## The scan policies of the directory table, as the specification words them -/

/-- First fit: `r` is the first index of `order` whose slot is empty or holds a
dead node, and `none` when there is no such index. -/
def first_fit (cur : node) (order : List Nat) : Option Nat → Prop
  | some i =>
    i ∈ order ∧ is_free (slot cur i) = true ∧
      ∀ k ∈ order.takeWhile (fun k => decide (k ≠ i)), is_free (slot cur k) = false
  | none => ∀ k ∈ order, is_free (slot cur k) = false

/-- The policy of the lookups: `r` is the first index of `order` whose slot holds
a node that satisfies `hit`, when no empty slot comes before it; the nodes before
it are skipped; and `r` is `none` when an empty slot comes first or when no slot
of `order` holds a node that satisfies `hit`. -/
def scan_policy (hit : node → Bool) (cur : node) (order : List Nat) : Option Nat → Prop
  | some i =>
    i ∈ order ∧ (∃ n, slot cur i = some n ∧ hit n = true) ∧
      ∀ k ∈ order.takeWhile (fun k => decide (k ≠ i)), ∃ m, slot cur k = some m ∧ hit m = false
  | none =>
    (∃ z, z ∈ order ∧ slot cur z = none ∧
      ∀ k ∈ order.takeWhile (fun k => decide (k ≠ z)), ∃ m, slot cur k = some m ∧ hit m = false) ∨
    (∀ k ∈ order, ∃ m, slot cur k = some m ∧ hit m = false)

/-! ## Path resolution, as the specification words it -/

/-- The pieces of a path between its separators, the empty ones included. -/
def split_slash : cstring → List cstring
  | [] => [[]]
  | c :: cs =>
    if c = SLASH then [] :: split_slash cs
    else
      match split_slash cs with
      | seg :: rest => (c :: seg) :: rest
      | [] => [[c]]

/-- The non-empty segments of a path. -/
def segments (p : cstring) : List cstring :=
  (split_slash p).filter (fun seg => decide (seg ≠ []))

/-- The directory obtained by entering the segments one after the other, and
`none` as soon as a segment is not the name of an alive directory. -/
def resolve : List cstring → node → Option node
  | [], cur => some cur
  | seg :: rest, cur =>
    match enter_node cur seg with
    | none => none
    | some i =>
      match slot cur i with
      | none => none
      | some c => resolve rest c

/-! ## Notions for dead nodes -/

/-- The tree after `create /f` and `delete /f` on the initial tree: the dead file
`f` is still in slot 976. -/
def sample_dead_f : node :=
  set_slot root0 976 (some (set_dead (init_node kind.FILE (cstr "f"))))

/-- The tree after `create /ab`, `create /ba` and `delete_r /ab` on the initial
tree: both names have the hash 360, the file `ba` is in slot 361 and slot 360 is
`NULL`. -/
def sample_cut : node := set_slot root0 361 (some (init_node kind.FILE (cstr "ba")))

/-! ## Invariants of the directory table -/

/-- Before an alive child, in the probe order of its name, no slot is empty. -/
def chain_ok (m : node) : Prop :=
  ∀ s c, slot m s = some c → c.tombstone = mark.ALIVE →
    ∀ k ∈ (probe (hash c.name)).takeWhile (fun k => decide (k ≠ s)), slot m k ≠ none

/-- No two slots hold alive children of the same kind with the same name. -/
def unique_ok (m : node) : Prop :=
  ∀ i j a b, slot m i = some a → slot m j = some b →
    a.tombstone = mark.ALIVE → b.tombstone = mark.ALIVE →
    a.type = b.type → a.name = b.name → i = j

/-- Both invariants of one array. -/
def table_ok (m : node) : Prop := chain_ok m ∧ unique_ok m

mutual
/-- A property of nodes that holds for a node and for every node below it. -/
def every (Q : node → Prop) : node → Prop
  | node.mk t tb nm d ns => Q (node.mk t tb nm d ns) ∧ every_slots Q ns
/-- A property of nodes that holds in and below every slot of a list. -/
def every_slots (Q : node → Prop) : List (Option node) → Prop
  | [] => True
  | none :: rest => every_slots Q rest
  | some c :: rest => every Q c ∧ every_slots Q rest
end

/-- The states that the program reaches with `create`, `write` and `delete`
only. -/
inductive ReachableNoDeleteR : node → Prop
  | init : ReachableNoDeleteR root0
  | create (type : kind) (p : cstring) (s s' : node) (r : reply) :
      ReachableNoDeleteR s → create type p s = some (s', r) → ReachableNoDeleteR s'
  | write (p data : cstring) (s s' : node) (r : reply) :
      ReachableNoDeleteR s → write p data s = some (s', r) → ReachableNoDeleteR s'
  | delete (p : cstring) (s s' : node) (r : reply) :
      ReachableNoDeleteR s → delete p s = some (s', r) → ReachableNoDeleteR s'

/-- The tree after `create /a` and `create_dir /a` on the initial tree: the file
`a` is in slot 888 and the directory `a` in slot 889. -/
def sample_file_dir : node :=
  set_slot (set_slot root0 888 (some (init_node kind.FILE (cstr "a")))) 889
    (some (init_node kind.DIR (cstr "a")))

/-- The tree after `create /ab`, `create_dir /ba`, `delete_r /ab` and
`create_dir /ba` on the initial tree: two directories `ba`, in the slots 360 and
361. -/
def sample_twice : node :=
  set_slot (set_slot root0 361 (some (init_node kind.DIR (cstr "ba")))) 360
    (some (init_node kind.DIR (cstr "ba")))

/-! # Theorems -/

/-! ## The hash function -/

theorem HASH_CONST_eq : HASH_CONST = 632 := by decide

theorem hash_lt (str : cstring) : hash str < MAX_DIRS := by
  unfold hash MAX_DIRS
  exact Nat.mod_lt _ (by decide)

/-! ## Fields of the nodes built by the assignments -/

@[simp] theorem node_mk_eta (n : node) :
    node.mk n.type n.tombstone n.name n.data n.nodes = n := by
  cases n; rfl

@[simp] theorem set_slot_type (c : node) (i : Nat) (v : Option node) :
    (set_slot c i v).type = c.type := rfl
@[simp] theorem set_slot_tombstone (c : node) (i : Nat) (v : Option node) :
    (set_slot c i v).tombstone = c.tombstone := rfl
@[simp] theorem set_slot_name (c : node) (i : Nat) (v : Option node) :
    (set_slot c i v).name = c.name := rfl
@[simp] theorem set_slot_data (c : node) (i : Nat) (v : Option node) :
    (set_slot c i v).data = c.data := rfl
@[simp] theorem set_slot_nodes (c : node) (i : Nat) (v : Option node) :
    (set_slot c i v).nodes = c.nodes.set i v := rfl

theorem slot_set_slot_ne (c : node) (i k : Nat) (v : Option node) (h : k ≠ i) :
    slot (set_slot c i v) k = slot c k := by
  simp [slot, List.getElem?_set_ne (Ne.symm h)]

theorem slot_set_slot_eq (c : node) (i : Nat) (v : Option node) (h : i < c.nodes.length) :
    slot (set_slot c i v) i = v := by
  simp [slot, List.getElem?_set_self, h]

theorem slot_lt (c : node) (i : Nat) (n : node) (h : slot c i = some n) :
    i < c.nodes.length := by
  by_contra hlt
  have : c.nodes[i]? = none := List.getElem?_eq_none (Nat.le_of_not_lt hlt)
  simp [slot, this] at h

theorem head_eq_refl (a : node) : head_eq a a := ⟨rfl, rfl, rfl⟩

theorem head_eq_set_slot (c : node) (i : Nat) (v : Option node) : head_eq (set_slot c i v) c :=
  ⟨rfl, rfl, rfl⟩

theorem head_eq_set_data (c : node) (d : cstring) : head_eq (set_data c d) c :=
  ⟨rfl, rfl, rfl⟩

/-! ## The loops as scans of the probe order -/

theorem lookup_loop_eq (hit : node → Bool) (cur : node) (fuel i : Nat) :
    lookup_loop hit cur fuel i = scan_list hit cur (List.range' i fuel) := by
  induction fuel generalizing i with
  | zero => rfl
  | succ fuel ih =>
    simp only [lookup_loop, List.range'_succ, scan_list]
    cases slot cur i with
    | none => rfl
    | some n => simp only [ih]

theorem free_loop_eq (cur : node) (fuel i : Nat) :
    free_loop cur fuel i = free_list cur (List.range' i fuel) := by
  induction fuel generalizing i with
  | zero => rfl
  | succ fuel ih => simp only [free_loop, List.range'_succ, free_list, ih]

theorem scan_list_append (hit : node → Bool) (cur : node) (xs ys : List Nat) :
    scan_list hit cur (xs ++ ys) =
      match scan_list hit cur xs with
      | some r => some r
      | none => scan_list hit cur ys := by
  induction xs with
  | nil => rfl
  | cons x xs ih =>
    simp only [List.cons_append, scan_list]
    cases slot cur x with
    | none => rfl
    | some n =>
      by_cases h : hit n = true
      · simp [h]
      · simp [h, ih]

theorem free_list_append (cur : node) (xs ys : List Nat) :
    free_list cur (xs ++ ys) =
      match free_list cur xs with
      | some r => some r
      | none => free_list cur ys := by
  induction xs with
  | nil => rfl
  | cons x xs ih =>
    simp only [List.cons_append, free_list]
    by_cases h : is_free (slot cur x) = true
    · simp [h]
    · simp [h, ih]

theorem lookup_eq (hit : node → Bool) (cur : node) (d : cstring) :
    lookup hit cur d = (scan_list hit cur (probe (hash d))).getD none := by
  unfold lookup probe
  rw [scan_list_append, lookup_loop_eq, lookup_loop_eq]
  cases scan_list hit cur (List.range' (hash d) (MAX_DIRS - hash d)) with
  | some r => rfl
  | none =>
    cases scan_list hit cur (List.range' 0 (hash d)) with
    | some r => rfl
    | none => rfl

theorem pick_free_index_eq (cur : node) (d : cstring) :
    pick_free_index cur d = free_list cur (probe (hash d)) := by
  unfold pick_free_index probe
  rw [free_list_append, free_loop_eq, free_loop_eq]

theorem mem_probe (b k : Nat) (hb : b < MAX_DIRS) : k ∈ probe b ↔ k < MAX_DIRS := by
  unfold probe
  simp only [List.mem_append, List.mem_range'_1]
  omega

/-! ## Scans and single-slot updates -/

theorem scan_list_congr (hit : node → Bool) (cur cur' : node) (xs : List Nat)
    (h : ∀ k ∈ xs, (slot cur' k).map hit = (slot cur k).map hit) :
    scan_list hit cur' xs = scan_list hit cur xs := by
  induction xs with
  | nil => rfl
  | cons x xs ih =>
    have hx := h x (List.mem_cons_self x xs)
    have ih' := ih (fun k hk => h k (List.mem_cons_of_mem x hk))
    simp only [scan_list]
    cases h1 : slot cur x with
    | none =>
      rw [h1] at hx
      cases h2 : slot cur' x with
      | none => rfl
      | some m => rw [h2] at hx; simp at hx
    | some n =>
      rw [h1] at hx
      cases h2 : slot cur' x with
      | none => rw [h2] at hx; simp at hx
      | some m =>
        rw [h2] at hx
        simp only [Option.map_some', Option.some.injEq] at hx
        simp only [hx, ih']

theorem free_list_congr (cur cur' : node) (xs : List Nat)
    (h : ∀ k ∈ xs, is_free (slot cur' k) = is_free (slot cur k)) :
    free_list cur' xs = free_list cur xs := by
  induction xs with
  | nil => rfl
  | cons x xs ih =>
    simp only [free_list, h x (List.mem_cons_self x xs),
      ih (fun k hk => h k (List.mem_cons_of_mem x hk))]

theorem free_list_some (cur : node) (xs : List Nat) (i : Nat)
    (h : free_list cur xs = some i) : i ∈ xs ∧ is_free (slot cur i) = true := by
  induction xs with
  | nil => simp [free_list] at h
  | cons x xs ih =>
    simp only [free_list] at h
    by_cases hx : is_free (slot cur x) = true
    · simp only [hx, if_true, Option.some.injEq] at h
      subst h
      exact ⟨List.mem_cons_self _ _, hx⟩
    · simp only [hx] at h
      exact ⟨List.mem_cons_of_mem _ (ih h).1, (ih h).2⟩

theorem free_list_none (cur : node) (xs : List Nat) (h : free_list cur xs = none) :
    ∀ k ∈ xs, is_free (slot cur k) = false := by
  induction xs with
  | nil => intro k hk; simp at hk
  | cons x xs ih =>
    simp only [free_list] at h
    by_cases hx : is_free (slot cur x) = true
    · simp [hx] at h
    · simp only [hx] at h
      intro k hk
      rcases List.mem_cons.mp hk with rfl | hk
      · simpa using hx
      · exact ih h k hk

theorem free_list_of_mem (cur : node) (xs : List Nat) (k : Nat) (hk : k ∈ xs)
    (hf : is_free (slot cur k) = true) : ∃ i, free_list cur xs = some i := by
  cases h : free_list cur xs with
  | some i => exact ⟨i, rfl⟩
  | none => rw [free_list_none cur xs h k hk] at hf; cases hf

theorem scan_list_some (hit : node → Bool) (cur : node) (xs : List Nat) (i : Nat)
    (h : scan_list hit cur xs = some (some i)) :
    i ∈ xs ∧ ∃ n, slot cur i = some n ∧ hit n = true := by
  induction xs with
  | nil => simp [scan_list] at h
  | cons x xs ih =>
    simp only [scan_list] at h
    cases h1 : slot cur x with
    | none => simp [h1] at h
    | some n =>
      simp only [h1] at h
      by_cases hx : hit n = true
      · simp only [hx, if_true, Option.some.injEq] at h
        subst h
        exact ⟨List.mem_cons_self _ _, n, h1, hx⟩
      · simp only [hx] at h
        exact ⟨List.mem_cons_of_mem _ (ih h).1, (ih h).2⟩

/-- No hit anywhere: the scan finds nothing. -/
theorem scan_list_no_hit (hit : node → Bool) (cur : node) (xs : List Nat)
    (h : ∀ k ∈ xs, ∀ n, slot cur k = some n → hit n = false) :
    (scan_list hit cur xs).getD none = none := by
  cases h1 : scan_list hit cur xs with
  | none => rfl
  | some r =>
    cases r with
    | none => rfl
    | some i =>
      obtain ⟨hi, n, hn, hh⟩ := scan_list_some hit cur xs i h1
      rw [h i hi n hn] at hh
      cases hh

/-- A node installed in the first free slot is what the next scan returns, when
the scan found nothing before. -/
theorem scan_list_install (hit : node → Bool) (cur : node) (xs : List Nat) (i : Nat)
    (new : node) (hfree : free_list cur xs = some i) (hlen : i < cur.nodes.length)
    (hnone : (scan_list hit cur xs).getD none = none) (hnew : hit new = true) :
    scan_list hit (set_slot cur i (some new)) xs = some (some i) := by
  induction xs with
  | nil => simp [free_list] at hfree
  | cons x xs ih =>
    simp only [free_list] at hfree
    by_cases hx : is_free (slot cur x) = true
    · simp only [hx, if_true, Option.some.injEq] at hfree
      subst hfree
      simp only [scan_list, slot_set_slot_eq cur x _ hlen, hnew, if_true]
    · simp only [hx] at hfree
      have hi := (free_list_some cur xs i hfree).2
      have hne : x ≠ i := by
        intro e
        rw [e] at hx
        exact hx hi
      simp only [scan_list, slot_set_slot_ne cur i x _ hne]
      simp only [scan_list] at hnone
      cases h1 : slot cur x with
      | none => rw [h1] at hx; simp [is_free] at hx
      | some n =>
        simp only [h1] at hnone ⊢
        by_cases hh : hit n = true
        · simp [hh] at hnone
        · simp only [hh] at hnone ⊢
          exact ih hfree hnone

/-- Once the slot a scan returned is set to `NULL`, every scan for a condition
that is at least as strong stops there with no result. -/
theorem scan_list_remove (hit hit' : node → Bool) (cur : node) (xs : List Nat) (i : Nat)
    (hfound : (scan_list hit cur xs).getD none = some i)
    (himp : ∀ n, hit' n = true → hit n = true) :
    scan_list hit' (set_slot cur i none) xs = some none := by
  induction xs with
  | nil => simp [scan_list] at hfound
  | cons x xs ih =>
    simp only [scan_list] at hfound
    cases h1 : slot cur x with
    | none => simp [h1] at hfound
    | some n =>
      simp only [h1] at hfound
      cases hh : hit n with
      | true =>
        simp only [hh, if_true, Option.getD_some, Option.some.injEq] at hfound
        subst hfound
        simp only [scan_list, slot_set_slot_eq cur x _ (slot_lt cur x n h1)]
      | false =>
        simp only [hh, Bool.false_eq_true, if_false] at hfound
        have hfound' : scan_list hit cur xs = some (some i) := by
          cases h2 : scan_list hit cur xs with
          | none => simp [h2] at hfound
          | some r => simp only [h2, Option.getD_some] at hfound; rw [hfound]
        obtain ⟨_, m, hm, hhm⟩ := scan_list_some hit cur xs i hfound'
        have hne : x ≠ i := by
          intro e
          rw [e, hm] at h1
          cases h1
          rw [hh] at hhm
          cases hhm
        have hh' : hit' n = false := by
          cases h3 : hit' n with
          | false => rfl
          | true => rw [himp n h3] at hh; cases hh
        simp only [scan_list, slot_set_slot_ne cur i x _ hne, h1, hh']
        exact ih hfound

/-- The first free slot stays the first free slot when a free value is stored in it. -/
theorem free_list_again (cur : node) (xs : List Nat) (i : Nat) (v : Option node)
    (hfree : free_list cur xs = some i) (hlen : i < cur.nodes.length)
    (hv : is_free v = true) :
    free_list (set_slot cur i v) xs = some i := by
  induction xs with
  | nil => simp [free_list] at hfree
  | cons x xs ih =>
    simp only [free_list] at hfree
    by_cases hx : is_free (slot cur x) = true
    · simp only [hx, if_true, Option.some.injEq] at hfree
      subst hfree
      simp only [free_list, slot_set_slot_eq cur x _ hlen, hv, if_true]
    · simp only [hx] at hfree
      have hi := (free_list_some cur xs i hfree).2
      have hne : x ≠ i := by
        intro e
        rw [e] at hx
        exact hx hi
      simp only [free_list, slot_set_slot_ne cur i x _ hne, hx]
      exact ih hfree

/-! ## The shape invariant -/

theorem wf_slots_iff (ns : List (Option node)) :
    wf_slots ns ↔ ∀ c, some c ∈ ns → wf c := by
  induction ns with
  | nil => simp [wf_slots]
  | cons s ns ih =>
    cases s with
    | none => simp [wf_slots, ih]
    | some d =>
      simp only [wf_slots, ih, List.mem_cons, Option.some.injEq]
      constructor
      · rintro ⟨h1, h2⟩ c (rfl | hc)
        · exact h1
        · exact h2 c hc
      · intro h
        exact ⟨h d (Or.inl rfl), fun c hc => h c (Or.inr hc)⟩

theorem wf_iff (n : node) :
    wf n ↔ n.nodes.length = MAX_DIRS ∧ (n.type = kind.FILE → ∀ s ∈ n.nodes, s = none) ∧
      ∀ c, some c ∈ n.nodes → wf c := by
  cases n with
  | mk t tb nm d ns => simp only [wf, wf_slots_iff, node.nodes, node.type]

theorem slot_mem (n : node) (i : Nat) (c : node) (h : slot n i = some c) : some c ∈ n.nodes := by
  unfold slot at h
  cases h1 : n.nodes[i]? with
  | none => simp [h1] at h
  | some s =>
    rw [h1] at h
    simp only [Option.join] at h
    subst h
    exact List.getElem?_mem h1

theorem wf_slot (n : node) (i : Nat) (c : node) (hn : wf n) (h : slot n i = some c) : wf c :=
  ((wf_iff n).mp hn).2.2 c (slot_mem n i c h)

theorem wf_length (n : node) (hn : wf n) : n.nodes.length = MAX_DIRS := ((wf_iff n).mp hn).1

theorem wf_dir_of_slot (n : node) (i : Nat) (c : node) (hn : wf n) (h : slot n i = some c) :
    n.type = kind.DIR := by
  cases ht : n.type with
  | DIR => rfl
  | FILE =>
    have := ((wf_iff n).mp hn).2.1 ht (some c) (slot_mem n i c h)
    cases this

theorem wf_set_slot (n : node) (i : Nat) (v : Option node) (hn : wf n)
    (hd : n.type = kind.DIR) (hv : ∀ c, v = some c → wf c) : wf (set_slot n i v) := by
  rw [wf_iff]
  obtain ⟨h1, _, h3⟩ := (wf_iff n).mp hn
  refine ⟨by simp [h1], ?_, ?_⟩
  · intro hf
    rw [set_slot_type, hd] at hf
    cases hf
  · intro c hc
    rw [set_slot_nodes] at hc
    rcases List.mem_or_eq_of_mem_set hc with hc | hc
    · exact h3 c hc
    · exact hv c hc.symm

theorem wf_init_node (t : kind) (name : cstring) : wf (init_node t name) := by
  rw [wf_iff]
  refine ⟨by simp [init_node, node.nodes], ?_, ?_⟩
  · intro _ s hs
    simp only [init_node, node.nodes] at hs
    exact (List.eq_of_mem_replicate hs)
  · intro c hc
    simp only [init_node, node.nodes] at hc
    cases List.eq_of_mem_replicate hc

theorem wf_set_dead (n : node) (hn : wf n) : wf (set_dead n) := by
  rw [wf_iff] at hn ⊢
  exact hn

theorem wf_set_data (n : node) (d : cstring) (hn : wf n) : wf (set_data n d) := by
  rw [wf_iff] at hn ⊢
  exact hn

/-! ## Pointers: `deref` and `store` -/

theorem head_eq_store (f : node → node) (hf : ∀ n, head_eq (f n) n) (ptr : List Nat) (n : node) :
    head_eq (store f ptr n) n := by
  cases ptr with
  | nil => exact hf n
  | cons i is =>
    simp only [store]
    cases slot n i with
    | none => exact head_eq_refl n
    | some c => exact head_eq_set_slot n i _

theorem wf_deref (ptr : List Nat) (n c : node) (hn : wf n) (h : deref ptr n = some c) : wf c := by
  induction ptr generalizing n with
  | nil =>
    simp only [deref, Option.some.injEq] at h
    subst h
    exact hn
  | cons i is ih =>
    simp only [deref] at h
    cases h1 : slot n i with
    | none => simp [h1] at h
    | some d =>
      simp only [h1] at h
      exact ih d (wf_slot n i d hn h1) h

theorem wf_store (f : node → node) (ptr : List Nat) (n c : node) (hn : wf n)
    (h : deref ptr n = some c) (hf : wf (f c)) : wf (store f ptr n) := by
  induction ptr generalizing n with
  | nil =>
    simp only [deref, Option.some.injEq] at h
    subst h
    exact hf
  | cons i is ih =>
    simp only [deref] at h
    simp only [store]
    cases h1 : slot n i with
    | none => simp [h1] at h
    | some d =>
      simp only [h1] at h ⊢
      refine wf_set_slot n i _ hn (wf_dir_of_slot n i d hn h1) ?_
      intro c' hc'
      simp only [Option.some.injEq] at hc'
      subst hc'
      exact ih d (wf_slot n i d hn h1) h

/-! ## Lookups see only the heads of the children -/

theorem hit_dir_head (d : cstring) (a b : node) (h : head_eq a b) : hit_dir d a = hit_dir d b := by
  obtain ⟨h1, h2, h3⟩ := h
  simp only [hit_dir, h1, h2, h3]

theorem hit_file_head (d : cstring) (a b : node) (h : head_eq a b) :
    hit_file d a = hit_file d b := by
  obtain ⟨h1, h2, h3⟩ := h
  simp only [hit_file, h1, h2, h3]

theorem hit_node_head (d : cstring) (a b : node) (h : head_eq a b) :
    hit_node d a = hit_node d b := by
  obtain ⟨h1, h2, h3⟩ := h
  simp only [hit_node, h2, h3]

theorem hit_dir_node (d : cstring) (n : node) (h : hit_dir d n = true) : hit_node d n = true := by
  simp only [hit_dir, hit_node, Bool.and_eq_true] at h ⊢
  exact ⟨h.1.1, h.2⟩

theorem hit_file_node (d : cstring) (n : node) (h : hit_file d n = true) :
    hit_node d n = true := by
  simp only [hit_file, hit_node, Bool.and_eq_true] at h ⊢
  exact ⟨h.1.1, h.2⟩

theorem lookup_set_slot_head (hit : node → Bool) (hhit : ∀ a b, head_eq a b → hit a = hit b)
    (cur : node) (i : Nat) (c c' : node) (d : cstring)
    (hc : slot cur i = some c) (hh : head_eq c' c) :
    lookup hit (set_slot cur i (some c')) d = lookup hit cur d := by
  rw [lookup_eq, lookup_eq, scan_list_congr]
  intro k _
  by_cases hk : k = i
  · subst hk
    rw [slot_set_slot_eq cur k _ (slot_lt cur k c hc), hc]
    simp only [Option.map_some', hhit c' c hh]
  · rw [slot_set_slot_ne cur i k _ hk]

theorem pick_free_index_lt (cur : node) (d : cstring) (i : Nat)
    (h : pick_free_index cur d = some i) : i < MAX_DIRS := by
  rw [pick_free_index_eq] at h
  exact (mem_probe (hash d) i (hash_lt d)).mp (free_list_some cur _ i h).1

theorem lookup_some (hit : node → Bool) (cur : node) (d : cstring) (i : Nat)
    (h : lookup hit cur d = some i) : ∃ n, slot cur i = some n ∧ hit n = true := by
  rw [lookup_eq] at h
  cases h1 : scan_list hit cur (probe (hash d)) with
  | none => simp [h1] at h
  | some r =>
    simp only [h1, Option.getD_some] at h
    subst h
    exact (scan_list_some hit cur _ i h1).2

/-! ## Path resolution -/

theorem reach_loop_deref (toks : List cstring) (root : node) (ptr : List Nat) (cur : node)
    (h : reach_loop toks root = some (ptr, cur)) : deref ptr root = some cur := by
  induction toks generalizing root ptr with
  | nil =>
    simp only [reach_loop, Option.some.injEq, Prod.mk.injEq] at h
    obtain ⟨rfl, rfl⟩ := h
    rfl
  | cons t rest ih =>
    simp only [reach_loop] at h
    cases h1 : enter_node root t with
    | none => simp [h1] at h
    | some i =>
      simp only [h1] at h
      cases h2 : slot root i with
      | none => simp [h2] at h
      | some c =>
        simp only [h2] at h
        cases h3 : reach_loop rest c with
        | none => simp [h3] at h
        | some pd =>
          obtain ⟨p, d⟩ := pd
          simp only [h3, Option.some.injEq, Prod.mk.injEq] at h
          obtain ⟨rfl, rfl⟩ := h
          simp only [deref, h2]
          exact ih c p h3

theorem reach_loop_dir (toks : List cstring) (root : node) (ptr : List Nat) (cur : node)
    (hr : root.type = kind.DIR) (h : reach_loop toks root = some (ptr, cur)) :
    cur.type = kind.DIR := by
  induction toks generalizing root ptr with
  | nil =>
    simp only [reach_loop, Option.some.injEq, Prod.mk.injEq] at h
    obtain ⟨_, rfl⟩ := h
    exact hr
  | cons t rest ih =>
    simp only [reach_loop] at h
    cases h1 : enter_node root t with
    | none => simp [h1] at h
    | some i =>
      simp only [h1] at h
      cases h2 : slot root i with
      | none => simp [h2] at h
      | some c =>
        simp only [h2] at h
        cases h3 : reach_loop rest c with
        | none => simp [h3] at h
        | some pd =>
          obtain ⟨p, d⟩ := pd
          simp only [h3, Option.some.injEq, Prod.mk.injEq] at h
          obtain ⟨_, rfl⟩ := h
          obtain ⟨n, hn, hh⟩ := lookup_some _ root t i h1
          rw [h2] at hn
          cases hn
          refine ih c p ?_ h3
          simp only [hit_dir, Bool.and_eq_true, decide_eq_true_eq] at hh
          exact hh.1.2

/-- A store through the pointer that `reach_node` returned, which keeps the head
of the node it changes, does not change what `reach_node` returns. -/
theorem reach_loop_store (f : node → node) (hf : ∀ n, head_eq (f n) n)
    (toks : List cstring) (root : node) (ptr : List Nat) (cur : node)
    (h : reach_loop toks root = some (ptr, cur)) :
    reach_loop toks (store f ptr root) = some (ptr, f cur) := by
  induction toks generalizing root ptr with
  | nil =>
    simp only [reach_loop, Option.some.injEq, Prod.mk.injEq] at h
    obtain ⟨rfl, rfl⟩ := h
    rfl
  | cons t rest ih =>
    simp only [reach_loop] at h
    cases h1 : enter_node root t with
    | none => simp [h1] at h
    | some i =>
      simp only [h1] at h
      cases h2 : slot root i with
      | none => simp [h2] at h
      | some c =>
        simp only [h2] at h
        cases h3 : reach_loop rest c with
        | none => simp [h3] at h
        | some pd =>
          obtain ⟨p, d⟩ := pd
          simp only [h3, Option.some.injEq, Prod.mk.injEq] at h
          obtain ⟨rfl, rfl⟩ := h
          have he : enter_node (set_slot root i (some (store f p c))) t = some i := by
            unfold enter_node at h1 ⊢
            rw [lookup_set_slot_head _ (hit_dir_head t) root i c _ t h2 (head_eq_store f hf p c)]
            exact h1
          simp only [store, h2, reach_loop, he,
            slot_set_slot_eq root i _ (slot_lt root i c h2), ih c p h3]

/-! ## What each command does, case by case -/

theorem create_lookup (t : kind) (cur : node) (name : cstring) :
    (match t with
      | kind.DIR => enter_node cur name
      | kind.FILE => pick_file cur name) = lookup (hit_kind t name) cur name := by
  cases t <;> rfl

theorem create_cases (t : kind) (p : cstring) (s s' : node) (r : reply)
    (h : create t p s = some (s', r)) :
    (s' = s ∧ r = reply.no) ∨
    ∃ pre name ptr cur i, split_last p = some (pre, name) ∧
      reach_node s pre = some (ptr, cur) ∧
      lookup (hit_kind t name) cur name = none ∧
      pick_free_index cur name = some i ∧
      s' = store (fun c => set_slot c i (some (init_node t name))) ptr s ∧ r = reply.ok := by
  unfold create at h
  cases h1 : split_last p with
  | none => simp [h1] at h
  | some pn =>
    obtain ⟨pre, name⟩ := pn
    simp only [h1] at h
    cases h2 : reach_node s pre with
    | none =>
      simp only [h2, Option.some.injEq, Prod.mk.injEq] at h
      exact Or.inl ⟨h.1.symm, h.2.symm⟩
    | some pc =>
      obtain ⟨ptr, cur⟩ := pc
      simp only [h2] at h
      rw [create_lookup] at h
      cases h3 : lookup (hit_kind t name) cur name with
      | some j =>
        simp only [h3, Option.some.injEq, Prod.mk.injEq] at h
        exact Or.inl ⟨h.1.symm, h.2.symm⟩
      | none =>
        simp only [h3] at h
        cases h4 : pick_free_index cur name with
        | none =>
          simp only [h4, Option.some.injEq, Prod.mk.injEq] at h
          exact Or.inl ⟨h.1.symm, h.2.symm⟩
        | some i =>
          simp only [h4, Option.some.injEq, Prod.mk.injEq] at h
          exact Or.inr ⟨pre, name, ptr, cur, i, rfl, h2, h3, h4, h.1.symm, h.2.symm⟩

theorem write_cases (p data : cstring) (s s' : node) (r : reply)
    (h : write p data s = some (s', r)) :
    (s' = s ∧ r = reply.no) ∨
    ∃ pre name ptr cur i, split_last p = some (pre, name) ∧
      reach_node s pre = some (ptr, cur) ∧ pick_file cur name = some i ∧
      s' = store (fun c => set_slot c i ((slot c i).map (fun f => set_data f data))) ptr s ∧
      r = reply.ok_len data.length := by
  unfold write at h
  cases h1 : split_last p with
  | none => simp [h1] at h
  | some pn =>
    obtain ⟨pre, name⟩ := pn
    simp only [h1] at h
    cases h2 : reach_node s pre with
    | none =>
      simp only [h2, Option.some.injEq, Prod.mk.injEq] at h
      exact Or.inl ⟨h.1.symm, h.2.symm⟩
    | some pc =>
      obtain ⟨ptr, cur⟩ := pc
      simp only [h2] at h
      cases h3 : pick_file cur name with
      | none =>
        simp only [h3, Option.some.injEq, Prod.mk.injEq] at h
        exact Or.inl ⟨h.1.symm, h.2.symm⟩
      | some i =>
        simp only [h3, Option.some.injEq, Prod.mk.injEq] at h
        exact Or.inr ⟨pre, name, ptr, cur, i, rfl, h2, h3, h.1.symm, h.2.symm⟩

theorem delete_cases (p : cstring) (s s' : node) (r : reply)
    (h : delete p s = some (s', r)) :
    (s' = s ∧ r = reply.no) ∨
    ∃ pre name ptr cur i t, split_last p = some (pre, name) ∧
      reach_node s pre = some (ptr, cur) ∧ pick_node cur name = some i ∧
      slot cur i = some t ∧
      (t.type = kind.DIR →
        (count_loop t.nodes true 0).1 = true ∧ (count_loop t.nodes true 0).2 = 0) ∧
      s' = store (fun c => set_slot c i ((slot c i).map set_dead)) ptr s ∧ r = reply.ok := by
  unfold delete at h
  cases h1 : split_last p with
  | none => simp [h1] at h
  | some pn =>
    obtain ⟨pre, name⟩ := pn
    simp only [h1] at h
    cases h2 : reach_node s pre with
    | none =>
      simp only [h2, Option.some.injEq, Prod.mk.injEq] at h
      exact Or.inl ⟨h.1.symm, h.2.symm⟩
    | some pc =>
      obtain ⟨ptr, cur⟩ := pc
      simp only [h2] at h
      cases h3 : pick_node cur name with
      | none =>
        simp only [h3, Option.some.injEq, Prod.mk.injEq] at h
        exact Or.inl ⟨h.1.symm, h.2.symm⟩
      | some i =>
        simp only [h3] at h
        cases h4 : slot cur i with
        | none =>
          simp only [h4, Option.some.injEq, Prod.mk.injEq] at h
          exact Or.inl ⟨h.1.symm, h.2.symm⟩
        | some t =>
          simp only [h4] at h
          cases h5 : t.type with
          | FILE =>
            simp only [h5, Option.some.injEq, Prod.mk.injEq] at h
            have hd : t.type = kind.DIR →
                (count_loop t.nodes true 0).1 = true ∧ (count_loop t.nodes true 0).2 = 0 := by
              intro e
              rw [h5] at e
              cases e
            exact Or.inr ⟨pre, name, ptr, cur, i, t, rfl, h2, h3, h4, hd, h.1.symm, h.2.symm⟩
          | DIR =>
            simp only [h5] at h
            cases h6 : (count_loop t.nodes true 0).1 with
            | false =>
              simp only [h6, Bool.false_eq_true, if_false, Option.some.injEq,
                Prod.mk.injEq] at h
              exact Or.inl ⟨h.1.symm, h.2.symm⟩
            | true =>
              simp only [h6, if_true] at h
              by_cases h7 : (count_loop t.nodes true 0).2 = 0
              · simp only [h7, if_true, Option.some.injEq, Prod.mk.injEq] at h
                exact Or.inr ⟨pre, name, ptr, cur, i, t, rfl, h2, h3, h4, fun _ => ⟨h6, h7⟩,
                  h.1.symm, h.2.symm⟩
              · simp [h7] at h

theorem delete_r_cases (p : cstring) (s s' : node) (r : reply)
    (h : delete_r p s = some (s', r)) :
    (s' = s ∧ r = reply.no) ∨
    ∃ pre name ptr cur i, split_last p = some (pre, name) ∧
      reach_node s pre = some (ptr, cur) ∧ pick_node cur name = some i ∧
      s' = store (fun c => set_slot c i none) ptr s ∧ r = reply.ok := by
  unfold delete_r at h
  cases h1 : split_last p with
  | none => simp [h1] at h
  | some pn =>
    obtain ⟨pre, name⟩ := pn
    simp only [h1] at h
    cases h2 : reach_node s pre with
    | none =>
      simp only [h2, Option.some.injEq, Prod.mk.injEq] at h
      exact Or.inl ⟨h.1.symm, h.2.symm⟩
    | some pc =>
      obtain ⟨ptr, cur⟩ := pc
      simp only [h2] at h
      cases h3 : pick_node cur name with
      | none =>
        simp only [h3, Option.some.injEq, Prod.mk.injEq] at h
        exact Or.inl ⟨h.1.symm, h.2.symm⟩
      | some i =>
        simp only [h3] at h
        cases h4 : slot cur i with
        | none =>
          simp only [h4, Option.some.injEq, Prod.mk.injEq] at h
          exact Or.inl ⟨h.1.symm, h.2.symm⟩
        | some t =>
          simp only [h4] at h
          cases h5 : t.data with
          | some d =>
            simp only [h5, Option.some.injEq, Prod.mk.injEq] at h
            exact Or.inr ⟨pre, name, ptr, cur, i, rfl, h2, h3, h.1.symm, h.2.symm⟩
          | none =>
            simp only [h5] at h
            cases h6 : delete_recursive t with
            | false => simp [h6] at h
            | true =>
              simp only [h6, if_true, Option.some.injEq, Prod.mk.injEq] at h
              exact Or.inr ⟨pre, name, ptr, cur, i, rfl, h2, h3, h.1.symm, h.2.symm⟩

/-! ## Every reachable state has the shape invariant -/

theorem wf_store_slot (s : node) (ptr : List Nat) (cur : node) (i : Nat) (v : node → Option node)
    (hs : wf s) (hd : s.type = kind.DIR) (toks : List cstring)
    (hr : reach_loop toks s = some (ptr, cur))
    (hv : ∀ c, v cur = some c → wf c) :
    wf (store (fun c => set_slot c i (v c)) ptr s) ∧
      (store (fun c => set_slot c i (v c)) ptr s).type = kind.DIR := by
  have hderef := reach_loop_deref toks s ptr cur hr
  refine ⟨wf_store _ ptr s cur hs hderef ?_, ?_⟩
  · exact wf_set_slot cur i _ (wf_deref ptr s cur hs hderef) (reach_loop_dir toks s ptr cur hd hr) hv
  · rw [(head_eq_store _ (fun n => head_eq_set_slot n i _) ptr s).1]
    exact hd

theorem reachable_inv (s : node) (h : Reachable s) : wf s ∧ s.type = kind.DIR := by
  induction h with
  | init => exact ⟨wf_init_node _ _, rfl⟩
  | create t p s s' r _ hc ih =>
    rcases create_cases t p s s' r hc with ⟨rfl, _⟩ | ⟨pre, name, ptr, cur, i, _, hr, _, _, rfl, _⟩
    · exact ih
    · refine wf_store_slot s ptr cur i (fun _ => some (init_node t name)) ih.1 ih.2 _ hr ?_
      intro c hc
      simp only [Option.some.injEq] at hc
      subst hc
      exact wf_init_node _ _
  | write p d s s' r _ hc ih =>
    rcases write_cases p d s s' r hc with ⟨rfl, _⟩ | ⟨pre, name, ptr, cur, i, _, hr, _, rfl, _⟩
    · exact ih
    · refine wf_store_slot s ptr cur i (fun c => (slot c i).map (fun f => set_data f d))
        ih.1 ih.2 _ hr ?_
      intro c hc
      have hcur := wf_deref ptr s cur ih.1 (reach_loop_deref _ s ptr cur hr)
      cases h1 : slot cur i with
      | none => simp [h1] at hc
      | some f =>
        simp only [h1, Option.map_some', Option.some.injEq] at hc
        subst hc
        exact wf_set_data f d (wf_slot cur i f hcur h1)
  | delete p s s' r _ hc ih =>
    rcases delete_cases p s s' r hc with
      ⟨rfl, _⟩ | ⟨pre, name, ptr, cur, i, t, _, hr, _, _, _, rfl, _⟩
    · exact ih
    · refine wf_store_slot s ptr cur i (fun c => (slot c i).map set_dead) ih.1 ih.2 _ hr ?_
      intro c hc
      have hcur := wf_deref ptr s cur ih.1 (reach_loop_deref _ s ptr cur hr)
      cases h1 : slot cur i with
      | none => simp [h1] at hc
      | some f =>
        simp only [h1, Option.map_some', Option.some.injEq] at hc
        subst hc
        exact wf_set_dead f (wf_slot cur i f hcur h1)
  | delete_r p s s' r _ hc ih =>
    rcases delete_r_cases p s s' r hc with ⟨rfl, _⟩ | ⟨pre, name, ptr, cur, i, _, hr, _, rfl, _⟩
    · exact ih
    · refine wf_store_slot s ptr cur i (fun _ => none) ih.1 ih.2 _ hr ?_
      intro c hc
      cases hc

theorem reach_node_wf (s : node) (pre : cstring) (ptr : List Nat) (cur : node)
    (hs : wf s) (h : reach_node s pre = some (ptr, cur)) : wf cur :=
  wf_deref ptr s cur hs (reach_loop_deref _ s ptr cur h)

/-! ## Strings -/

theorem strcmp_eq_zero (a b : cstring) : strcmp a b = 0 ↔ a = b := by
  induction a generalizing b with
  | nil =>
    cases b with
    | nil => simp [strcmp]
    | cons y ys => simp [strcmp]
  | cons x xs ih =>
    cases b with
    | nil => simp [strcmp]
    | cons y ys =>
      simp only [strcmp]
      by_cases hxy : x = y
      · simp [hxy, ih]
      · by_cases hlt : x < y <;> simp [hxy, hlt]

theorem strcmp_self (a : cstring) : strcmp a a = 0 := (strcmp_eq_zero a a).mpr rfl

/-! ## Lookups after a single-slot update -/

theorem lookup_install (hit : node → Bool) (cur : node) (name : cstring) (i : Nat) (new : node)
    (hw : wf cur) (hfree : pick_free_index cur name = some i)
    (hnone : lookup hit cur name = none) (hnew : hit new = true) :
    lookup hit (set_slot cur i (some new)) name = some i := by
  have hlt : i < cur.nodes.length := by
    rw [wf_length cur hw]
    exact pick_free_index_lt cur name i hfree
  rw [pick_free_index_eq] at hfree
  rw [lookup_eq] at hnone ⊢
  rw [scan_list_install hit cur _ i new hfree hlt hnone hnew]
  rfl

theorem lookup_remove (hit hit' : node → Bool) (cur : node) (name : cstring) (i : Nat)
    (hfound : lookup hit cur name = some i)
    (himp : ∀ n, hit' n = true → hit n = true) :
    lookup hit' (set_slot cur i none) name = none := by
  rw [lookup_eq] at hfound ⊢
  rw [scan_list_remove hit hit' cur _ i hfound himp]
  rfl

theorem hit_kind_init (t : kind) (name : cstring) : hit_kind t name (init_node t name) = true := by
  cases t <;>
    simp [hit_kind, hit_dir, hit_file, init_node, node.tombstone, node.type, node.name, strcmp_self]

theorem hit_kind_head (t : kind) (d : cstring) (a b : node) (h : head_eq a b) :
    hit_kind t d a = hit_kind t d b := by
  cases t
  · exact hit_dir_head d a b h
  · exact hit_file_head d a b h

theorem reach_node_store (f : node → node) (hf : ∀ n, head_eq (f n) n)
    (s : node) (pre : cstring) (ptr : List Nat) (cur : node)
    (h : reach_node s pre = some (ptr, cur)) :
    reach_node (store f ptr s) pre = some (ptr, f cur) :=
  reach_loop_store f hf _ s ptr cur h

/-! ## Round trips -/

/-- After `create` has answered `ok`, the same path resolves to the changed
directory, and the lookup of the same kind finds the new node. -/
theorem create_ok_lookup (t : kind) (p : cstring) (s s' : node) (hs : wf s)
    (h : create t p s = some (s', reply.ok)) :
    ∃ pre name ptr cur i, split_last p = some (pre, name) ∧
      reach_node s pre = some (ptr, cur) ∧
      lookup (hit_kind t name) cur name = none ∧
      pick_free_index cur name = some i ∧
      s' = store (fun c => set_slot c i (some (init_node t name))) ptr s ∧
      reach_node s' pre = some (ptr, set_slot cur i (some (init_node t name))) ∧
      lookup (hit_kind t name) (set_slot cur i (some (init_node t name))) name = some i := by
  rcases create_cases t p s s' reply.ok h with
    ⟨_, hr⟩ | ⟨pre, name, ptr, cur, i, h1, h2, h3, h4, h5, _⟩
  · cases hr
  · refine ⟨pre, name, ptr, cur, i, h1, h2, h3, h4, h5, ?_, ?_⟩
    · rw [h5]
      exact reach_node_store _ (fun n => head_eq_set_slot n i _) s pre ptr cur h2
    · exact lookup_install _ cur name i _ (reach_node_wf s pre ptr cur hs h2) h4 h3
        (hit_kind_init t name)

/-- Whenever `write` succeeds, the next `read` of the same path prints the data. -/
theorem write_then_read (p X : cstring) (s s2 : node)
    (h : write p X s = some (s2, reply.ok_len X.length)) :
    read p s2 = some (reply.contenuto X) := by
  rcases write_cases p X s s2 _ h with ⟨_, hr⟩ | ⟨pre, name, ptr, cur, i, h1, h2, h3, h4, _⟩
  · cases hr
  · obtain ⟨f, hf, _⟩ := lookup_some _ cur name i h3
    have hreach := reach_node_store
      (fun c => set_slot c i ((slot c i).map (fun f => set_data f X)))
      (fun n => head_eq_set_slot n i _) s pre ptr cur h2
    rw [← h4] at hreach
    have hpick : pick_file (set_slot cur i ((slot cur i).map (fun f => set_data f X))) name
        = some i := by
      rw [hf]
      unfold pick_file at h3 ⊢
      rw [Option.map_some',
        lookup_set_slot_head _ (hit_file_head name) cur i f _ name hf (head_eq_set_data f X)]
      exact h3
    unfold read
    simp only [h1, hreach, hpick]
    rw [slot_set_slot_eq cur i _ (slot_lt cur i f hf), hf]
    rfl

/-- Claim C1.  In every reachable state, for every path `p` and payload `X`: if
`create` of a file at `p` answers `ok`, then the `write` of `X` to `p` that follows
answers `ok` with the length of `X`, and the `read` of `p` that follows prints
`X`; and whenever a `write` succeeds, in any state, the next `read` of the same
path prints what was written. -/
theorem C1_write_read_round_trip (s s1 : node) (p X : cstring) (hs : Reachable s)
    (hc : create kind.FILE p s = some (s1, reply.ok)) :
    (∃ s2, write p X s1 = some (s2, reply.ok_len X.length) ∧
      read p s2 = some (reply.contenuto X)) ∧
    (∀ (q Y : cstring) (u u2 : node), write q Y u = some (u2, reply.ok_len Y.length) →
      read q u2 = some (reply.contenuto Y)) := by
  refine ⟨?_, fun q Y u u2 h => write_then_read q Y u u2 h⟩
  obtain ⟨pre, name, ptr, cur, i, h1, _, _, _, _, h6, h7⟩ :=
    create_ok_lookup kind.FILE p s s1 (reachable_inv s hs).1 hc
  have hw : write p X s1 = some
      (store (fun c => set_slot c i ((slot c i).map (fun f => set_data f X))) ptr s1,
        reply.ok_len X.length) := by
    unfold write
    have h8 : pick_file (set_slot cur i (some (init_node kind.FILE name))) name = some i := h7
    simp only [h1, h6, h8]
  exact ⟨_, hw, write_then_read p X s1 _ hw⟩

/-- A concrete instance of C1: on the initial tree, `create /a` answers `ok` and
installs the file in slot 888; then the payload `hi` is written and read back. -/
theorem C1_write_read_round_trip_witness :
    Reachable root0 ∧
    create kind.FILE (cstr "/a") root0 =
      some (set_slot root0 888 (some (init_node kind.FILE (cstr "a"))), reply.ok) ∧
    ((∃ s2, write (cstr "/a") (cstr "hi")
          (set_slot root0 888 (some (init_node kind.FILE (cstr "a")))) =
        some (s2, reply.ok_len (cstr "hi").length) ∧
      read (cstr "/a") s2 = some (reply.contenuto (cstr "hi"))) ∧
    (∀ (q Y : cstring) (u u2 : node), write q Y u = some (u2, reply.ok_len Y.length) →
      read q u2 = some (reply.contenuto Y))) :=
  ⟨Reachable.init, by rfl,
    C1_write_read_round_trip root0 _ (cstr "/a") (cstr "hi") Reachable.init (by rfl)⟩

/-- Claim C2.  In every reachable state, for every kind and path `p`: if `create`
answers `ok`, the same `create` repeated at once answers `no` (and changes
nothing), because the lookup of that kind finds the node that was just
installed in the slot chosen by `pick_free_index`. -/
theorem C2_create_twice (s s1 : node) (t : kind) (p : cstring) (hs : Reachable s)
    (hc : create t p s = some (s1, reply.ok)) :
    create t p s1 = some (s1, reply.no) ∧
    ∃ pre name ptr cur i, split_last p = some (pre, name) ∧
      reach_node s pre = some (ptr, cur) ∧ pick_free_index cur name = some i ∧
      ∃ cur1, reach_node s1 pre = some (ptr, cur1) ∧
        slot cur1 i = some (init_node t name) ∧
        lookup (hit_kind t name) cur1 name = some i := by
  obtain ⟨pre, name, ptr, cur, i, h1, h2, _, h4, _, h6, h7⟩ :=
    create_ok_lookup t p s s1 (reachable_inv s hs).1 hc
  refine ⟨?_, pre, name, ptr, cur, i, h1, h2, h4, _, h6, ?_, h7⟩
  · unfold create
    simp only [h1, h6, create_lookup, h7]
  · refine slot_set_slot_eq cur i _ ?_
    rw [wf_length cur (reach_node_wf s pre ptr cur (reachable_inv s hs).1 h2)]
    exact pick_free_index_lt cur name i h4

/-- A concrete instance of C2: the directory `/a` on the initial tree. -/
theorem C2_create_twice_witness :
    Reachable root0 ∧
    create kind.DIR (cstr "/a") root0 =
      some (set_slot root0 888 (some (init_node kind.DIR (cstr "a"))), reply.ok) ∧
    create kind.DIR (cstr "/a") (set_slot root0 888 (some (init_node kind.DIR (cstr "a")))) =
      some (set_slot root0 888 (some (init_node kind.DIR (cstr "a"))), reply.no) :=
  ⟨Reachable.init, by rfl,
    (C2_create_twice root0 _ kind.DIR (cstr "/a") Reachable.init (by rfl)).1⟩

/-! ## Runs of commands -/

theorem reachable_step (c : command) (s s' : node) (out : List reply) (hs : Reachable s)
    (h : step c s = some (s', out)) : Reachable s' := by
  cases c with
  | create p =>
    simp only [step, Option.map_eq_some', Prod.mk.injEq] at h
    obtain ⟨⟨s1, r⟩, h1, rfl, _⟩ := h
    exact Reachable.create kind.FILE p s s1 r hs h1
  | create_dir p =>
    simp only [step, Option.map_eq_some', Prod.mk.injEq] at h
    obtain ⟨⟨s1, r⟩, h1, rfl, _⟩ := h
    exact Reachable.create kind.DIR p s s1 r hs h1
  | read p =>
    simp only [step, Option.map_eq_some', Prod.mk.injEq] at h
    obtain ⟨_, _, rfl, _⟩ := h
    exact hs
  | write p d =>
    simp only [step, Option.map_eq_some', Prod.mk.injEq] at h
    obtain ⟨⟨s1, r⟩, h1, rfl, _⟩ := h
    exact Reachable.write p d s s1 r hs h1
  | delete p =>
    simp only [step, Option.map_eq_some', Prod.mk.injEq] at h
    obtain ⟨⟨s1, r⟩, h1, rfl, _⟩ := h
    exact Reachable.delete p s s1 r hs h1
  | delete_r p =>
    simp only [step, Option.map_eq_some', Prod.mk.injEq] at h
    obtain ⟨⟨s1, r⟩, h1, rfl, _⟩ := h
    exact Reachable.delete_r p s s1 r hs h1
  | find n =>
    simp only [step, Option.map_eq_some', Prod.mk.injEq] at h
    obtain ⟨_, _, rfl, _⟩ := h
    exact hs

theorem reachable_run (cs : List command) (s s' : node) (out : List reply) (hs : Reachable s)
    (h : run cs s = some (s', out)) : Reachable s' := by
  induction cs generalizing s out with
  | nil =>
    simp only [run, Option.some.injEq, Prod.mk.injEq] at h
    obtain ⟨rfl, _⟩ := h
    exact hs
  | cons c cs ih =>
    simp only [run] at h
    cases h1 : step c s with
    | none => simp [h1] at h
    | some x =>
      obtain ⟨s1, o1⟩ := x
      simp only [h1] at h
      cases h2 : run cs s1 with
      | none => simp [h2] at h
      | some y =>
        obtain ⟨s2, o2⟩ := y
        simp only [h2, Option.some.injEq, Prod.mk.injEq] at h
        obtain ⟨rfl, _⟩ := h
        exact ih s1 o2 (reachable_step c s s1 o1 hs h1) h2

/-! ## The hash function is an index -/

/-- Claim C10.  For every name (the empty one, one whose sum of characters
overflows, one with bytes that are negative as `char`), `hash` is a function of
the name alone with a value below `MAX_DIRS = 1024`, hence an index into the
array of every node. -/
theorem C10_hash_range (name : cstring) :
    hash name < MAX_DIRS ∧ MAX_DIRS = 1024 ∧
      (∀ (t : kind) (n : cstring), hash name < (init_node t n).nodes.length) ∧
      hash [] = 0 := by
  refine ⟨hash_lt name, rfl, ?_, by decide⟩
  intro t n
  have : (init_node t n).nodes.length = MAX_DIRS := by simp [init_node, node.nodes]
  rw [this]
  exact hash_lt name

/-! ## Shallow delete -/

theorem mark_not_alive (m : mark) : ¬ m = mark.ALIVE ↔ m = mark.DEAD := by
  cases m <;> simp

theorem count_loop_true (ns : List (Option node)) (k : Nat) :
    (count_loop ns true k).1 = true ↔ ∀ c, some c ∈ ns → c.tombstone = mark.DEAD := by
  induction ns generalizing k with
  | nil => simp [count_loop]
  | cons x xs ih =>
    cases x with
    | none =>
      simp only [count_loop, if_true, ih, List.mem_cons]
      constructor
      · rintro h c (hc | hc)
        · cases hc
        · exact h c hc
      · intro h c hc
        exact h c (Or.inr hc)
    | some d =>
      simp only [count_loop, if_true, List.mem_cons, Option.some.injEq]
      by_cases ha : d.tombstone = mark.ALIVE
      · simp only [ha, if_true]
        have hf : (count_loop xs false k).1 = false := by
          cases xs <;> simp [count_loop]
        rw [hf]
        simp only [Bool.false_eq_true, false_iff, not_forall]
        refine ⟨d, Or.inl rfl, ?_⟩
        rw [ha]
        intro e
        cases e
      · simp only [ha, if_false, ih]
        constructor
        · rintro h c (rfl | hc)
          · exact (mark_not_alive _).mp ha
          · exact h c hc
        · intro h c hc
          exact h c (Or.inr hc)

theorem mem_nodes_iff_slot (t : node) (ht : t.nodes.length = MAX_DIRS) (c : node) :
    some c ∈ t.nodes ↔ ∃ j, j < MAX_DIRS ∧ slot t j = some c := by
  constructor
  · intro h
    obtain ⟨j, hj⟩ := List.mem_iff_getElem?.mp h
    refine ⟨j, ?_, ?_⟩
    · rw [← ht]
      by_contra hlt
      rw [List.getElem?_eq_none (Nat.le_of_not_lt hlt)] at hj
      cases hj
    · simp [slot, hj]
  · rintro ⟨j, _, hj⟩
    exact slot_mem t j c hj

/-- The result of `delete` when the name is found as a directory. -/
theorem delete_dir (p pre name : cstring) (s : node) (ptr : List Nat) (cur t : node) (i : Nat)
    (h1 : split_last p = some (pre, name)) (h2 : reach_node s pre = some (ptr, cur))
    (h3 : pick_node cur name = some i) (h4 : slot cur i = some t) (h5 : t.type = kind.DIR) :
    delete p s =
      if (count_loop t.nodes true 0).1 then
        (if (count_loop t.nodes true 0).2 = 0 then
          some (store (fun c => set_slot c i ((slot c i).map set_dead)) ptr s, reply.ok)
        else none)
      else some (s, reply.no) := by
  unfold delete
  simp only [h1, h2, h3, h4, h5]

/-- While `success` holds, `tombstone` counts the slots that are not `NULL`. -/
theorem count_loop_snd (ns : List (Option node)) (k : Nat)
    (h : (count_loop ns true k).1 = true) : (count_loop ns true k).2 = k + occupied ns := by
  induction ns generalizing k with
  | nil => simp [count_loop, occupied]
  | cons x xs ih =>
    cases x with
    | none =>
      simp only [count_loop, if_true] at h ⊢
      rw [ih k h]
      rfl
    | some d =>
      simp only [count_loop, if_true] at h ⊢
      by_cases ha : d.tombstone = mark.ALIVE
      · simp only [ha, if_true] at h
        have hf : (count_loop xs false k).1 = false := by
          cases xs <;> simp [count_loop]
        rw [hf] at h
        cases h
      · simp only [ha, if_false] at h ⊢
        rw [ih (k + 1) h]
        simp only [occupied]
        omega

theorem sample_a_f_run :
    run [command.create_dir (cstr "/a"), command.create (cstr "/a/f")] root0 =
      some (sample_a_f, [reply.ok, reply.ok]) := by rfl

/-! ## Splitting and tokenising paths -/

theorem split_last_append (a b : cstring) :
    split_last (a ++ SLASH :: b) =
      match split_last b with
      | some (pb, nb) => some (a ++ SLASH :: pb, nb)
      | none => some (a, b) := by
  induction a with
  | nil =>
    simp only [List.nil_append, split_last]
    cases split_last b with
    | none => simp
    | some x => rfl
  | cons c a ih =>
    have hstep : split_last (c :: (a ++ SLASH :: b)) =
        match split_last (a ++ SLASH :: b) with
        | some (pre, name) => some (c :: pre, name)
        | none => if c = SLASH then some ([], a ++ SLASH :: b) else none := rfl
    rw [List.cons_append, hstep, ih]
    cases split_last b with
    | none => rfl
    | some x => rfl

theorem split_last_some (p pre name : cstring) (h : split_last p = some (pre, name)) :
    p = pre ++ SLASH :: name ∧ split_last name = none := by
  induction p generalizing pre with
  | nil => simp [split_last] at h
  | cons c cs ih =>
    simp only [split_last] at h
    cases h1 : split_last cs with
    | some x =>
      obtain ⟨q, n⟩ := x
      simp only [h1, Option.some.injEq, Prod.mk.injEq] at h
      obtain ⟨rfl, rfl⟩ := h
      obtain ⟨h2, h3⟩ := ih q h1
      exact ⟨by rw [h2]; rfl, h3⟩
    | none =>
      simp only [h1] at h
      by_cases hc : c = SLASH
      · simp only [hc, if_true, Option.some.injEq, Prod.mk.injEq] at h
        obtain ⟨rfl, rfl⟩ := h
        exact ⟨by rw [hc]; rfl, h1⟩
      · simp [hc] at h

theorem split_last_none (name : cstring) (h : split_last name = none) : SLASH ∉ name := by
  induction name with
  | nil => simp
  | cons c cs ih =>
    simp only [split_last] at h
    cases h1 : split_last cs with
    | some x => simp [h1] at h
    | none =>
      simp only [h1] at h
      by_cases hc : c = SLASH
      · simp [hc] at h
      · simp only [List.mem_cons, not_or]
        exact ⟨fun e => hc e.symm, ih h1⟩

theorem split_last_cons (c : Nat) (cs : cstring) :
    split_last (c :: cs) =
      match split_last cs with
      | some (pre, name) => some (c :: pre, name)
      | none => if c = SLASH then some ([], cs) else none := rfl

theorem split_last_of_not_mem (name : cstring) (h : SLASH ∉ name) : split_last name = none := by
  induction name with
  | nil => rfl
  | cons c cs ih =>
    simp only [List.mem_cons, not_or] at h
    have hc : ¬ c = SLASH := fun e => h.1 e.symm
    rw [split_last_cons, ih h.2]
    simp [hc]

theorem strtok_from_cons (c : Nat) (cs tok : cstring) :
    strtok_from (c :: cs) tok =
      if c = SLASH then
        (if tok = [] then strtok_from cs [] else tok :: strtok_from cs [])
      else strtok_from cs (tok ++ [c]) := rfl

theorem strtok_from_word (w rest tok : cstring) (h : SLASH ∉ w) :
    strtok_from (w ++ rest) tok = strtok_from rest (tok ++ w) := by
  induction w generalizing tok with
  | nil => simp
  | cons c cs ih =>
    simp only [List.mem_cons, not_or] at h
    have hc : ¬ c = SLASH := fun e => h.1 e.symm
    rw [List.cons_append, strtok_from_cons, if_neg hc, ih (tok ++ [c]) h.2]
    simp

theorem strtok_from_append (a b tok : cstring) :
    strtok_from (a ++ SLASH :: b) tok = strtok_from a tok ++ strtok_from b [] := by
  induction a generalizing tok with
  | nil =>
    rw [List.nil_append, strtok_from_cons, if_pos rfl]
    by_cases ht : tok = [] <;> simp [strtok_from, ht]
  | cons c cs ih =>
    rw [List.cons_append, strtok_from_cons, strtok_from_cons]
    by_cases hc : c = SLASH
    · rw [if_pos hc, if_pos hc, ih]
      by_cases ht : tok = [] <;> simp [ht]
    · rw [if_neg hc, if_neg hc, ih]

/-- The tokens of a path that continues after a non-empty final name. -/
theorem strtok_extend (pre name rest : cstring) (h : SLASH ∉ name) (hne : name ≠ [])
    (hrest : rest = [] ∨ ∃ r, rest = SLASH :: r) :
    ∃ more, strtok (pre ++ SLASH :: name ++ rest) = strtok pre ++ name :: more := by
  unfold strtok
  rw [List.append_assoc, List.cons_append, strtok_from_append]
  rcases hrest with rfl | ⟨r, rfl⟩
  · refine ⟨[], ?_⟩
    rw [strtok_from_word name [] [] h]
    simp [strtok_from, hne]
  · refine ⟨strtok_from r [], ?_⟩
    rw [strtok_from_append, ← List.append_nil name, strtok_from_word name [] [] h]
    simp [strtok_from, hne]

theorem reach_loop_cons (t : cstring) (rest : List cstring) (cur : node) :
    reach_loop (t :: rest) cur =
      match enter_node cur t with
      | none => none
      | some i =>
        match slot cur i with
        | none => none
        | some c =>
          match reach_loop rest c with
          | none => none
          | some (ptr, d) => some (i :: ptr, d) := rfl

theorem reach_loop_append (xs ys : List cstring) (root : node) :
    reach_loop (xs ++ ys) root =
      match reach_loop xs root with
      | none => none
      | some (ptr, c) =>
        match reach_loop ys c with
        | none => none
        | some (q, d) => some (ptr ++ q, d) := by
  induction xs generalizing root with
  | nil =>
    rw [List.nil_append]
    simp only [reach_loop]
    cases reach_loop ys root with
    | none => rfl
    | some x => rfl
  | cons t rest ih =>
    rw [List.cons_append, reach_loop_cons, reach_loop_cons]
    cases enter_node root t with
    | none => rfl
    | some i =>
      simp only
      cases slot root i with
      | none => rfl
      | some c =>
        simp only [ih c]
        cases reach_loop rest c with
        | none => rfl
        | some x =>
          obtain ⟨ptr, d⟩ := x
          simp only
          cases reach_loop ys d with
          | none => rfl
          | some y => rfl

/-- Resolution fails on a path that goes through a name `enter_node` does not find. -/
theorem reach_loop_blocked (xs more : List cstring) (name : cstring) (root : node)
    (ptr : List Nat) (cur : node) (h : reach_loop xs root = some (ptr, cur))
    (hn : enter_node cur name = none) : reach_loop (xs ++ name :: more) root = none := by
  rw [reach_loop_append, h]
  simp only [reach_loop, hn]

/-! ## Recursive delete -/

/-- The result of `delete_r` on a node that is found, when no block is released
twice. -/
theorem delete_r_ok (p pre name : cstring) (s : node) (ptr : List Nat) (cur t : node) (i : Nat)
    (h1 : split_last p = some (pre, name)) (h2 : reach_node s pre = some (ptr, cur))
    (h3 : pick_node cur name = some i) (h4 : slot cur i = some t)
    (h5 : delete_recursive t = true) :
    delete_r p s = some (store (fun c => set_slot c i none) ptr s, reply.ok) := by
  unfold delete_r
  simp only [h1, h2, h3, h4]
  cases t.data with
  | some d => rfl
  | none => simp only [h5, if_true]

/-- The state after `delete_r` has answered `ok`: the slot is `NULL`, the prefix
resolves as before, and no lookup of the name succeeds in the parent. -/
theorem delete_r_found (p pre name : cstring) (s : node) (ptr : List Nat) (cur t : node)
    (i : Nat)
    (h1 : split_last p = some (pre, name)) (h2 : reach_node s pre = some (ptr, cur))
    (h3 : pick_node cur name = some i) (h4 : slot cur i = some t)
    (h5 : delete_recursive t = true) :
    delete_r p s = some (store (fun c => set_slot c i none) ptr s, reply.ok) ∧
    reach_node (store (fun c => set_slot c i none) ptr s) pre = some (ptr, set_slot cur i none) ∧
    slot (set_slot cur i none) i = none ∧
    enter_node (set_slot cur i none) name = none ∧
    pick_file (set_slot cur i none) name = none ∧
    pick_node (set_slot cur i none) name = none := by
  refine ⟨delete_r_ok p pre name s ptr cur t i h1 h2 h3 h4 h5, ?_, ?_, ?_, ?_, ?_⟩
  · exact reach_node_store _ (fun n => head_eq_set_slot n i _) s pre ptr cur h2
  · exact slot_set_slot_eq cur i none (slot_lt cur i t h4)
  · exact lookup_remove (hit_node name) (hit_dir name) cur name i h3 (hit_dir_node name)
  · exact lookup_remove (hit_node name) (hit_file name) cur name i h3 (hit_file_node name)
  · exact lookup_remove (hit_node name) (hit_node name) cur name i h3 (fun _ h => h)

/-! ## The search tree of `find` -/

theorem insert_all_append (xs ys : List cstring) (t : bt) :
    insert_all (xs ++ ys) t = insert_all ys (insert_all xs t) := by
  induction xs generalizing t with
  | nil => rfl
  | cons x xs ih => exact ih (insert_bt x t)

mutual
theorem find_recursive_some (name : cstring) :
    ∀ (cur : node) (chain : List cstring) (t t' : bt),
      find_recursive name cur chain t = some t' →
      t' = insert_all (found_node name cur chain) t
  | node.mk _ _ _ _ ns, chain, t, t', h => by
    rw [find_recursive] at h
    rw [found_node]
    exact find_slots_some name ns chain t t' h
theorem find_slots_some (name : cstring) :
    ∀ (ns : List (Option node)) (chain : List cstring) (t t' : bt),
      find_slots name ns chain t = some t' →
      t' = insert_all (found_slots name ns chain) t
  | [], chain, t, t', h => by
    rw [find_slots] at h
    rw [found_slots]
    cases h
    rfl
  | none :: rest, chain, t, t', h => by
    rw [find_slots] at h
    rw [found_slots]
    exact find_slots_some name rest chain t t' h
  | some c :: rest, chain, t, t', h => by
    rw [find_slots] at h
    rw [found_slots, insert_all_append, insert_all_append]
    have hkey : insert_all
        (if strcmp name c.name = 0 then [climb chain (SLASH :: name)] else []) t =
        (if strcmp name c.name = 0 then insert_bt (climb chain (SLASH :: name)) t else t) := by
      by_cases hn : strcmp name c.name = 0
      · simp only [hn, if_true]; rfl
      · simp only [hn, if_false]; rfl
    rw [hkey]
    cases htb : c.tombstone with
    | DEAD =>
      rw [htb] at h
      cases h
    | ALIVE =>
      rw [htb] at h
      cases hc : c.type with
      | FILE =>
        rw [hc] at h
        exact find_slots_some name rest chain _ t' h
      | DIR =>
        rw [hc] at h
        simp only at h ⊢
        cases hr : find_recursive name c (c.name :: chain)
            (if strcmp name c.name = 0 then insert_bt (climb chain (SLASH :: name)) t
             else t) with
        | none =>
          rw [hr] at h
          cases h
        | some t1 =>
          rw [hr] at h
          rw [← find_recursive_some name c (c.name :: chain) _ t1 hr]
          exact find_slots_some name rest chain t1 t' h
end

mutual
theorem find_recursive_alive (name : cstring) :
    ∀ (cur : node) (chain : List cstring) (t : bt), all_alive cur →
      ∃ t', find_recursive name cur chain t = some t'
  | node.mk _ _ _ _ ns, chain, t, h => by
    rw [find_recursive]
    exact find_slots_alive name ns chain t h.2
theorem find_slots_alive (name : cstring) :
    ∀ (ns : List (Option node)) (chain : List cstring) (t : bt), all_alive_slots ns →
      ∃ t', find_slots name ns chain t = some t'
  | [], chain, t, _ => by
    rw [find_slots]
    exact ⟨t, rfl⟩
  | none :: rest, chain, t, h => by
    rw [find_slots]
    exact find_slots_alive name rest chain t h
  | some c :: rest, chain, t, h => by
    rw [find_slots]
    have hc : all_alive c := h.1
    have htb : c.tombstone = mark.ALIVE := by
      cases c with
      | mk ty tb nm d cs => exact hc.1
    rw [htb]
    cases hty : c.type with
    | FILE =>
      simp only
      exact find_slots_alive name rest chain _ h.2
    | DIR =>
      simp only
      obtain ⟨t1, ht1⟩ := find_recursive_alive name c (c.name :: chain)
        (if strcmp name c.name = 0 then insert_bt (climb chain (SLASH :: name)) t else t) hc
      rw [ht1]
      exact find_slots_alive name rest chain t1 h.2
end

theorem strcmp_swap (a b : cstring) : strcmp b a = - strcmp a b := by
  induction a generalizing b with
  | nil => cases b <;> simp [strcmp]
  | cons x xs ih =>
    cases b with
    | nil => simp [strcmp]
    | cons y ys =>
      simp only [strcmp]
      by_cases hxy : x = y
      · subst hxy
        simp [ih]
      · have hyx : ¬ y = x := fun e => hxy e.symm
        simp only [hxy, hyx, if_false]
        by_cases hlt : x < y
        · have : ¬ y < x := by omega
          simp [hlt, this]
        · have : y < x := by omega
          simp [hlt, this]

theorem strcmp_lt_le_trans (a b c : cstring) (h1 : strcmp a b < 0) (h2 : strcmp b c ≤ 0) :
    strcmp a c < 0 := by
  induction a generalizing b c with
  | nil =>
    cases b with
    | nil => simp [strcmp] at h1
    | cons y ys =>
      cases c with
      | nil => simp [strcmp] at h2
      | cons z zs => simp [strcmp]
  | cons x xs ih =>
    cases b with
    | nil => simp [strcmp] at h1
    | cons y ys =>
      cases c with
      | nil => simp [strcmp] at h2
      | cons z zs =>
        simp only [strcmp] at h1 h2 ⊢
        by_cases hxy : x = y
        · subst hxy
          simp only [if_true] at h1
          by_cases hxz : x = z
          · subst hxz
            simp only [if_true] at h2 ⊢
            exact ih ys zs h1 h2
          · simp only [hxz, if_false] at h2 ⊢
            exact lt_of_le_of_ne h2 (by split <;> decide)
        · simp only [hxy, if_false] at h1
          have hlt : x < y := by
            by_contra hn
            simp [hn] at h1
          by_cases hyz : y = z
          · subst hyz
            simp [hxy, hlt]
          · simp only [hyz, if_false] at h2
            have hlt2 : y < z := by
              by_contra hn
              simp [hn] at h2
            have hxz : ¬ x = z := by omega
            have hlt3 : x < z := by omega
            simp [hxz, hlt3]

theorem keys_insert_bt (k : cstring) (t : bt) (x : cstring) :
    x ∈ keys_bt (insert_bt k t) ↔ x = k ∨ x ∈ keys_bt t := by
  induction t with
  | nil => simp [insert_bt, keys_bt]
  | mk l key r ihl ihr =>
    simp only [insert_bt]
    by_cases h : strcmp k key < 0
    · simp only [h, if_true, keys_bt, List.mem_append, List.mem_cons, ihl]
      tauto
    · simp only [h, if_false, keys_bt, List.mem_append, List.mem_cons, ihr]
      tauto

theorem ordered_insert_bt (k : cstring) (t : bt) (h : ordered_bt t) :
    ordered_bt (insert_bt k t) := by
  induction t with
  | nil => simp [insert_bt, ordered_bt, keys_bt]
  | mk l key r ihl ihr =>
    obtain ⟨h1, h2, h3, h4⟩ := h
    simp only [insert_bt]
    by_cases hk : strcmp k key < 0
    · simp only [hk, if_true, ordered_bt]
      refine ⟨?_, h2, ihl h3, h4⟩
      intro x hx
      rcases (keys_insert_bt k l x).mp hx with rfl | hx
      · exact hk
      · exact h1 x hx
    · simp only [hk, if_false, ordered_bt]
      refine ⟨h1, ?_, h3, ihr h4⟩
      intro x hx
      rcases (keys_insert_bt k r x).mp hx with rfl | hx
      · rw [strcmp_swap]
        omega
      · exact h2 x hx

theorem ordered_insert_all (ks : List cstring) (t : bt) (h : ordered_bt t) :
    ordered_bt (insert_all ks t) := by
  induction ks generalizing t with
  | nil => exact h
  | cons k ks ih => exact ih (insert_bt k t) (ordered_insert_bt k t h)

theorem keys_sorted (t : bt) (h : ordered_bt t) :
    (keys_bt t).Pairwise (fun a b => strcmp a b ≤ 0) := by
  induction t with
  | nil => simp [keys_bt]
  | mk l key r ihl ihr =>
    obtain ⟨h1, h2, h3, h4⟩ := h
    simp only [keys_bt]
    rw [List.pairwise_append]
    refine ⟨ihl h3, ?_, ?_⟩
    · rw [List.pairwise_cons]
      exact ⟨h2, ihr h4⟩
    · intro a ha b hb
      rcases List.mem_cons.mp hb with rfl | hb
      · exact le_of_lt (h1 a ha)
      · exact le_of_lt (strcmp_lt_le_trans a key b (h1 a ha) (h2 b hb))

theorem paths_of_print_bt (t : bt) : paths_of (print_bt t) = keys_bt t := by
  induction t with
  | nil => rfl
  | mk l k r ihl ihr =>
    simp only [print_bt, keys_bt]
    have happ : ∀ (xs ys : List reply), paths_of (xs ++ ys) = paths_of xs ++ paths_of ys := by
      intro xs ys
      induction xs with
      | nil => rfl
      | cons x xs ih => cases x <;> simp [paths_of, ih]
    rw [happ, ihl]
    simp only [paths_of, ihr]

theorem paths_of_find (name : cstring) (s : node) (out : List reply)
    (h : find name s = some out) :
    paths_of out = keys_bt (insert_all (found_node name s []) bt.nil) := by
  unfold find at h
  cases hr : find_recursive name s [] bt.nil with
  | none =>
    rw [hr] at h
    cases h
  | some t =>
    rw [hr] at h
    rw [← find_recursive_some name s [] bt.nil t hr]
    cases t with
    | nil =>
      cases h
      rfl
    | mk l k r =>
      simp only [Option.some.injEq] at h
      rw [← h]
      exact paths_of_print_bt _

/-- In a tree with no dead node, `find` reads no released block and prints. -/
theorem find_alive (name : cstring) (s : node) (h : all_alive s) :
    ∃ out, find name s = some out := by
  obtain ⟨t, ht⟩ := find_recursive_alive name s [] bt.nil h
  unfold find
  rw [ht]
  cases t with
  | nil => exact ⟨_, rfl⟩
  | mk l k r => exact ⟨_, rfl⟩

/-- Claim C5.  For every tree and every name, the paths that `find` prints are in
non-decreasing order for `strcmp`, and `find` does print on every tree that holds
no dead node; more generally the walk `print_bt` of the tree built by `insert_bt`
from any list of keys, in any order, is sorted.  On the initial tree, after the
files `/z/name`, `/a/name`, `/m/name` are created in this order, `find name`
prints `/a/name`, `/m/name`, `/z/name`. -/
theorem C5_find_ordering (s : node) (name : cstring) :
    (∀ out, find name s = some out →
      (paths_of out).Pairwise (fun a b => strcmp a b ≤ 0)) ∧
    (all_alive s → ∃ out, find name s = some out ∧
      (paths_of out).Pairwise (fun a b => strcmp a b ≤ 0)) ∧
    (∀ ks : List cstring,
      (paths_of (print_bt (insert_all ks bt.nil))).Pairwise (fun a b => strcmp a b ≤ 0)) ∧
    (run [command.create_dir (cstr "/z"), command.create_dir (cstr "/a"),
        command.create_dir (cstr "/m"), command.create (cstr "/z/name"),
        command.create (cstr "/a/name"), command.create (cstr "/m/name"),
        command.find (cstr "name")] root0).map Prod.snd =
      some [reply.ok, reply.ok, reply.ok, reply.ok, reply.ok, reply.ok,
        reply.ok_path (cstr "/a/name"), reply.ok_path (cstr "/m/name"),
        reply.ok_path (cstr "/z/name")] := by
  have hsorted : ∀ out, find name s = some out →
      (paths_of out).Pairwise (fun a b => strcmp a b ≤ 0) := by
    intro out h
    rw [paths_of_find name s out h]
    exact keys_sorted _ (ordered_insert_all _ bt.nil trivial)
  refine ⟨hsorted, ?_, ?_, by decide⟩
  · intro h
    obtain ⟨out, hout⟩ := find_alive name s h
    exact ⟨out, hout, hsorted out hout⟩
  · intro ks
    rw [paths_of_print_bt]
    exact keys_sorted _ (ordered_insert_all _ bt.nil trivial)

/-! ## Completeness of `find` -/

theorem keys_insert_bt_perm (k : cstring) (t : bt) :
    (keys_bt (insert_bt k t)).Perm (k :: keys_bt t) := by
  induction t with
  | nil => simp [insert_bt, keys_bt]
  | mk l key r ihl ihr =>
    simp only [insert_bt]
    by_cases h : strcmp k key < 0
    · simp only [h, if_true, keys_bt]
      exact (ihl.append_right _)
    · simp only [h, if_false, keys_bt]
      have h1 : (keys_bt l ++ key :: keys_bt (insert_bt k r)).Perm
          (keys_bt l ++ key :: k :: keys_bt r) :=
        List.Perm.append_left _ (List.Perm.cons _ ihr)
      refine h1.trans ?_
      have h2 : (keys_bt l ++ key :: k :: keys_bt r).Perm
          (keys_bt l ++ k :: key :: keys_bt r) :=
        List.Perm.append_left _ (List.Perm.swap _ _ _)
      exact h2.trans List.perm_middle

theorem keys_insert_all_perm (ks : List cstring) (t : bt) :
    (keys_bt (insert_all ks t)).Perm (ks ++ keys_bt t) := by
  induction ks generalizing t with
  | nil => exact List.Perm.refl _
  | cons k ks ih =>
    simp only [insert_all]
    refine (ih (insert_bt k t)).trans ?_
    refine (List.Perm.append_left ks (keys_insert_bt_perm k t)).trans ?_
    exact List.perm_middle

theorem full_path_append (xs ys : List cstring) :
    full_path (xs ++ ys) = full_path xs ++ full_path ys := by
  induction xs with
  | nil => rfl
  | cons x xs ih => simp [full_path, ih]

theorem climb_eq (chain : List cstring) (path : cstring) :
    climb chain path = full_path chain.reverse ++ path := by
  induction chain generalizing path with
  | nil => rfl
  | cons m chain ih =>
    simp only [climb, ih, List.reverse_cons, full_path_append, full_path, List.append_assoc,
      List.cons_append, List.append_nil]

theorem below_slots_none (ns : List (Option node)) (h : ∀ s ∈ ns, s = none) :
    below_slots ns = [] := by
  induction ns with
  | nil => rfl
  | cons x xs ih =>
    have hx := h x (List.mem_cons_self x xs)
    subst hx
    rw [below_slots]
    exact ih (fun s hs => h s (List.mem_cons_of_mem _ hs))

theorem below_file (c : node) (hw : wf c) (hc : c.type = kind.FILE) : below c = [] := by
  cases c with
  | mk t tb nm d ns =>
    rw [below]
    exact below_slots_none ns (((wf_iff _).mp hw).2.1 hc)

mutual
theorem found_node_eq (name : cstring) :
    ∀ (c : node) (chain : List cstring), wf c →
      found_node name c chain =
        ((below c).filter (fun e => decide (e.2 = name))).map
          (fun e => full_path (chain.reverse ++ (e.1 ++ [e.2])))
  | node.mk _ _ _ _ ns, chain, hw => by
    rw [found_node, below]
    exact found_slots_eq name ns chain hw.2.2
theorem found_slots_eq (name : cstring) :
    ∀ (ns : List (Option node)) (chain : List cstring), wf_slots ns →
      found_slots name ns chain =
        ((below_slots ns).filter (fun e => decide (e.2 = name))).map
          (fun e => full_path (chain.reverse ++ (e.1 ++ [e.2])))
  | [], chain, _ => by
    rw [found_slots, below_slots]
    rfl
  | none :: rest, chain, hw => by
    rw [found_slots, below_slots]
    exact found_slots_eq name rest chain hw
  | some c :: rest, chain, hw => by
    rw [found_slots, below_slots, found_slots_eq name rest chain hw.2]
    have hsub : (match c.type with
        | kind.DIR => found_node name c (c.name :: chain)
        | kind.FILE => []) =
        ((below c).filter (fun e => decide (e.2 = name))).map
          (fun e => full_path (chain.reverse ++ (c.name :: (e.1 ++ [e.2])))) := by
      cases hc : c.type with
      | FILE =>
        rw [below_file c hw.1 hc]
        rfl
      | DIR =>
        simp only
        rw [found_node_eq name c (c.name :: chain) hw.1]
        simp
    rw [hsub]
    by_cases h : c.name = name
    · subst h
      simp [List.filter_append, List.filter_map, List.map_map, Function.comp_def, strcmp_self,
        climb_eq, full_path_append, full_path]
    · have h2 : ¬ strcmp name c.name = 0 := fun e => h ((strcmp_eq_zero _ _).mp e).symm
      simp [List.filter_append, List.filter_map, List.map_map, Function.comp_def, h, h2]
end

theorem print_bt_eq (t : bt) : print_bt t = (keys_bt t).map reply.ok_path := by
  induction t with
  | nil => rfl
  | mk l k r ihl ihr => simp [print_bt, keys_bt, ihl, ihr]

theorem insert_bt_ne_nil (k : cstring) (t : bt) : insert_bt k t ≠ bt.nil := by
  cases t with
  | nil => simp [insert_bt]
  | mk l key r =>
    simp only [insert_bt]
    split <;> simp

theorem insert_all_ne_nil (ks : List cstring) (t : bt) (h : t ≠ bt.nil) :
    insert_all ks t ≠ bt.nil := by
  induction ks generalizing t with
  | nil => exact h
  | cons k ks ih => exact ih (insert_bt k t) (insert_bt_ne_nil k t)

theorem insert_all_eq_nil (ks : List cstring) : insert_all ks bt.nil = bt.nil ↔ ks = [] := by
  cases ks with
  | nil => simp [insert_all]
  | cons k ks =>
    simp only [insert_all, reduceCtorEq, iff_false]
    exact insert_all_ne_nil ks _ (insert_bt_ne_nil k bt.nil)

theorem find_eq_no (name : cstring) (s : node) (out : List reply)
    (h : find name s = some out) :
    out = [reply.no] ↔ found_node name s [] = [] := by
  unfold find at h
  cases hr : find_recursive name s [] bt.nil with
  | none =>
    rw [hr] at h
    cases h
  | some t =>
    rw [hr] at h
    have ht := find_recursive_some name s [] bt.nil t hr
    rw [← insert_all_eq_nil, ← ht]
    cases t with
    | nil =>
      cases h
      simp
    | mk l k r =>
      simp only [Option.some.injEq] at h
      simp only [reduceCtorEq, iff_false]
      rw [← h, print_bt_eq]
      intro e
      have h2 := congrArg paths_of e
      rw [← print_bt_eq, paths_of_print_bt] at h2
      simp [keys_bt, paths_of] at h2

theorem find_shape (name : cstring) (s : node) (out : List reply)
    (h : find name s = some out) :
    out = [reply.no] ∨ out = (paths_of out).map reply.ok_path := by
  unfold find at h
  cases hr : find_recursive name s [] bt.nil with
  | none =>
    rw [hr] at h
    cases h
  | some t =>
    rw [hr] at h
    cases t with
    | nil =>
      cases h
      exact Or.inl rfl
    | mk l k r =>
      simp only [Option.some.injEq] at h
      right
      rw [← h, paths_of_print_bt, print_bt_eq]

theorem found_node_root (name : cstring) (s : node) (hw : wf s) :
    found_node name s [] = paths_named name s := by
  rw [found_node_eq name s [] hw]
  simp [paths_named]

theorem reachable_of_no_delete (s : node) (h : ReachableNoDelete s) : Reachable s := by
  induction h with
  | init => exact Reachable.init
  | create t p s s' r _ hc ih => exact Reachable.create t p s s' r ih hc
  | write p d s s' r _ hc ih => exact Reachable.write p d s s' r ih hc
  | delete_r p s s' r _ hc ih => exact Reachable.delete_r p s s' r ih hc

theorem all_alive_slots_iff (ns : List (Option node)) :
    all_alive_slots ns ↔ ∀ c, some c ∈ ns → all_alive c := by
  induction ns with
  | nil => simp [all_alive_slots]
  | cons s ns ih =>
    cases s with
    | none => simp [all_alive_slots, ih]
    | some d =>
      simp only [all_alive_slots, ih, List.mem_cons, Option.some.injEq]
      constructor
      · rintro ⟨h1, h2⟩ c (rfl | hc)
        · exact h1
        · exact h2 c hc
      · intro h
        exact ⟨h d (Or.inl rfl), fun c hc => h c (Or.inr hc)⟩

theorem all_alive_iff (n : node) :
    all_alive n ↔ n.tombstone = mark.ALIVE ∧ ∀ c, some c ∈ n.nodes → all_alive c := by
  cases n with
  | mk t tb nm d ns => simp only [all_alive, all_alive_slots_iff, node.nodes, node.tombstone]

theorem all_alive_init_node (t : kind) (name : cstring) : all_alive (init_node t name) := by
  rw [all_alive_iff]
  refine ⟨rfl, ?_⟩
  intro c hc
  simp only [init_node, node.nodes] at hc
  cases List.eq_of_mem_replicate hc

theorem all_alive_set_slot (n : node) (i : Nat) (v : Option node) (hn : all_alive n)
    (hv : ∀ c, v = some c → all_alive c) : all_alive (set_slot n i v) := by
  rw [all_alive_iff] at hn ⊢
  refine ⟨hn.1, ?_⟩
  intro c hc
  rw [set_slot_nodes] at hc
  rcases List.mem_or_eq_of_mem_set hc with hc | hc
  · exact hn.2 c hc
  · exact hv c hc.symm

theorem all_alive_set_data (n : node) (d : cstring) (hn : all_alive n) :
    all_alive (set_data n d) := by
  rw [all_alive_iff] at hn ⊢
  exact hn

theorem all_alive_slot (n : node) (i : Nat) (c : node) (hn : all_alive n)
    (h : slot n i = some c) : all_alive c :=
  ((all_alive_iff n).mp hn).2 c (slot_mem n i c h)

theorem all_alive_deref (ptr : List Nat) (n c : node) (hn : all_alive n)
    (h : deref ptr n = some c) : all_alive c := by
  induction ptr generalizing n with
  | nil =>
    simp only [deref, Option.some.injEq] at h
    subst h
    exact hn
  | cons i is ih =>
    simp only [deref] at h
    cases h1 : slot n i with
    | none => simp [h1] at h
    | some d =>
      simp only [h1] at h
      exact ih d (all_alive_slot n i d hn h1) h

theorem all_alive_store (f : node → node) (ptr : List Nat) (n c : node) (hn : all_alive n)
    (h : deref ptr n = some c) (hf : all_alive (f c)) : all_alive (store f ptr n) := by
  induction ptr generalizing n with
  | nil =>
    simp only [deref, Option.some.injEq] at h
    subst h
    exact hf
  | cons i is ih =>
    simp only [deref] at h
    simp only [store]
    cases h1 : slot n i with
    | none => simp [h1] at h
    | some d =>
      simp only [h1] at h ⊢
      refine all_alive_set_slot n i _ hn ?_
      intro c' hc'
      simp only [Option.some.injEq] at hc'
      subst hc'
      exact ih d (all_alive_slot n i d hn h1) h

/-- The commands `create`, `write` and `delete_r` leave no dead node. -/
theorem no_delete_all_alive (s : node) (h : ReachableNoDelete s) : all_alive s := by
  induction h with
  | init => exact all_alive_init_node _ _
  | create t p s s' r _ hc ih =>
    rcases create_cases t p s s' r hc with ⟨rfl, _⟩ | ⟨pre, name, ptr, cur, i, _, hr, _, _, rfl, _⟩
    · exact ih
    · have hd := reach_loop_deref _ s ptr cur hr
      refine all_alive_store _ ptr s cur ih hd ?_
      refine all_alive_set_slot cur i _ (all_alive_deref ptr s cur ih hd) ?_
      intro c hc
      simp only [Option.some.injEq] at hc
      subst hc
      exact all_alive_init_node _ _
  | write p d s s' r _ hc ih =>
    rcases write_cases p d s s' r hc with ⟨rfl, _⟩ | ⟨pre, name, ptr, cur, i, _, hr, _, rfl, _⟩
    · exact ih
    · have hd := reach_loop_deref _ s ptr cur hr
      have hcur := all_alive_deref ptr s cur ih hd
      refine all_alive_store _ ptr s cur ih hd ?_
      refine all_alive_set_slot cur i _ hcur ?_
      intro c hc
      cases h1 : slot cur i with
      | none => simp [h1] at hc
      | some f =>
        simp only [h1, Option.map_some', Option.some.injEq] at hc
        subst hc
        exact all_alive_set_data f d (all_alive_slot cur i f hcur h1)
  | delete_r p s s' r _ hc ih =>
    rcases delete_r_cases p s s' r hc with ⟨rfl, _⟩ | ⟨pre, name, ptr, cur, i, _, hr, _, rfl, _⟩
    · exact ih
    · have hd := reach_loop_deref _ s ptr cur hr
      refine all_alive_store _ ptr s cur ih hd ?_
      refine all_alive_set_slot cur i _ (all_alive_deref ptr s cur ih hd) ?_
      intro c hc
      cases hc

/-- Claim C6.  In every state reached with `create`, `write` and `delete_r` only,
no node is dead, and for every name `find` prints, and the paths that it prints
are, up to their order, the full paths of the nodes below the root that have this
name, each node once; the output is either the single line `no` or nothing but
lines `ok <path>`; and it is the single line `no` if and only if no node below the
root has this name. -/
theorem C6_find_completeness (s : node) (name : cstring) (hs : ReachableNoDelete s) :
    all_alive s ∧
    ∃ out, find name s = some out ∧
      (paths_of out).Perm (paths_named name s) ∧
      (out = [reply.no] ∨ out = (paths_of out).map reply.ok_path) ∧
      (out = [reply.no] ↔ ∀ e ∈ below s, e.2 ≠ name) := by
  have hw := (reachable_inv s (reachable_of_no_delete s hs)).1
  have ha := no_delete_all_alive s hs
  obtain ⟨out, hout⟩ := find_alive name s ha
  refine ⟨ha, out, hout, ?_, find_shape name s out hout, ?_⟩
  · rw [paths_of_find name s out hout, found_node_root name s hw]
    have := keys_insert_all_perm (paths_named name s) bt.nil
    simpa [keys_bt] using this
  · rw [find_eq_no name s out hout, found_node_root name s hw]
    simp [paths_named, List.filter_eq_nil_iff]

/-- A concrete instance of C6: after `create_dir /a` and `create /a/f`, the nodes
below the root are `/a` and `/a/f`, and `find f` prints `ok /a/f`. -/
theorem C6_find_completeness_witness :
    ReachableNoDelete sample_a_f ∧
    below sample_a_f = [([], cstr "a"), ([cstr "a"], cstr "f")] ∧
    find (cstr "f") sample_a_f = some [reply.ok_path (cstr "/a/f")] ∧
    paths_named (cstr "f") sample_a_f = [cstr "/a/f"] ∧
    (all_alive sample_a_f ∧
      ∃ out, find (cstr "f") sample_a_f = some out ∧
        (paths_of out).Perm (paths_named (cstr "f") sample_a_f) ∧
        (out = [reply.no] ∨ out = (paths_of out).map reply.ok_path) ∧
        (out = [reply.no] ↔ ∀ e ∈ below sample_a_f, e.2 ≠ cstr "f")) :=
  ⟨ReachableNoDelete.create kind.FILE (cstr "/a/f")
      (set_slot root0 888 (some (init_node kind.DIR (cstr "a")))) sample_a_f reply.ok
      (ReachableNoDelete.create kind.DIR (cstr "/a") root0 _ reply.ok ReachableNoDelete.init
        (by rfl)) (by rfl),
    by decide, by decide, by decide,
    C6_find_completeness sample_a_f (cstr "f")
      (ReachableNoDelete.create kind.FILE (cstr "/a/f")
        (set_slot root0 888 (some (init_node kind.DIR (cstr "a")))) sample_a_f reply.ok
        (ReachableNoDelete.create kind.DIR (cstr "/a") root0 _ reply.ok ReachableNoDelete.init
          (by rfl)) (by rfl))⟩

theorem sample_a_f_alive : all_alive sample_a_f :=
  no_delete_all_alive _
    (ReachableNoDelete.create kind.FILE (cstr "/a/f")
      (set_slot root0 888 (some (init_node kind.DIR (cstr "a")))) sample_a_f reply.ok
      (ReachableNoDelete.create kind.DIR (cstr "/a") root0 _ reply.ok ReachableNoDelete.init
        (by rfl)) (by rfl))

/-- A concrete instance of C5: the tree after `create_dir /a` and `create /a/f`
holds no dead node, and `find f` prints the single path `/a/f`. -/
theorem C5_find_ordering_witness :
    all_alive sample_a_f ∧
    find (cstr "f") sample_a_f = some [reply.ok_path (cstr "/a/f")] ∧
    (paths_of [reply.ok_path (cstr "/a/f")]).Pairwise (fun a b => strcmp a b ≤ 0) ∧
    ∃ out, find (cstr "f") sample_a_f = some out ∧
      (paths_of out).Pairwise (fun a b => strcmp a b ≤ 0) :=
  ⟨sample_a_f_alive, by decide,
    (C5_find_ordering sample_a_f (cstr "f")).1 _ (by decide),
    (C5_find_ordering sample_a_f (cstr "f")).2.1 sample_a_f_alive⟩

/-! ## Failing commands -/

/-- Claim C9.  In every state: a `write` to a path whose final name `pick_file`
does not find (or whose prefix does not resolve) answers `no` and returns the
same tree; and every `write`, `create`, `delete` or `delete_r` that answers `no`
returns the tree it was given. -/
theorem C9_failure_leaves_tree_unchanged (s : node) :
    (∀ p data pre name, split_last p = some (pre, name) →
      (∀ ptr cur, reach_node s pre = some (ptr, cur) → pick_file cur name = none) →
      write p data s = some (s, reply.no)) ∧
    (∀ p data s1, write p data s = some (s1, reply.no) → s1 = s) ∧
    (∀ t p s1, create t p s = some (s1, reply.no) → s1 = s) ∧
    (∀ p s1, delete p s = some (s1, reply.no) → s1 = s) ∧
    (∀ p s1, delete_r p s = some (s1, reply.no) → s1 = s) ∧
    write (cstr "/nope") (cstr "x") root0 = some (root0, reply.no) := by
  refine ⟨?_, ?_, ?_, ?_, ?_, by rfl⟩
  · intro p data pre name h1 h2
    unfold write
    simp only [h1]
    cases h3 : reach_node s pre with
    | none => rfl
    | some x =>
      obtain ⟨ptr, cur⟩ := x
      simp only [h2 ptr cur h3]
  · intro p data s1 h
    rcases write_cases p data s s1 _ h with ⟨h1, _⟩ | ⟨_, _, _, _, _, _, _, _, _, h2⟩
    · exact h1
    · cases h2
  · intro t p s1 h
    rcases create_cases t p s s1 _ h with ⟨h1, _⟩ | ⟨_, _, _, _, _, _, _, _, _, _, h2⟩
    · exact h1
    · cases h2
  · intro p s1 h
    rcases delete_cases p s s1 _ h with ⟨h1, _⟩ | ⟨_, _, _, _, _, _, _, _, _, _, _, _, h2⟩
    · exact h1
    · cases h2
  · intro p s1 h
    rcases delete_r_cases p s s1 _ h with ⟨h1, _⟩ | ⟨_, _, _, _, _, _, _, _, _, h2⟩
    · exact h1
    · cases h2

/-! ## Capacity of a directory -/

theorem occupied_le (ns : List (Option node)) : occupied ns ≤ ns.length := by
  induction ns with
  | nil => simp [occupied]
  | cons x xs ih =>
    cases x with
    | none => simp only [occupied, List.length_cons]; omega
    | some c => simp only [occupied, List.length_cons]; omega

theorem occupied_set (ns : List (Option node)) (i : Nat) (c : node)
    (h : ns[i]? = some none) : occupied (ns.set i (some c)) = occupied ns + 1 := by
  induction ns generalizing i with
  | nil => simp at h
  | cons x xs ih =>
    cases i with
    | zero =>
      simp only [List.getElem?_cons_zero, Option.some.injEq] at h
      subst h
      simp [occupied]
    | succ i =>
      simp only [List.getElem?_cons_succ] at h
      cases x with
      | none => simp only [List.set_cons_succ, occupied, ih i h]
      | some d => simp only [List.set_cons_succ, occupied, ih i h]

theorem occupied_lt_exists (ns : List (Option node)) (h : occupied ns < ns.length) :
    ∃ j : Nat, ns[j]? = some none := by
  induction ns with
  | nil => simp [occupied] at h
  | cons x xs ih =>
    cases x with
    | none => exact ⟨0, by simp⟩
    | some c =>
      simp only [occupied, List.length_cons, Nat.add_lt_add_iff_right] at h
      obtain ⟨j, hj⟩ := ih h
      exact ⟨j + 1, by simpa using hj⟩

theorem occupied_full (ns : List (Option node)) (h : occupied ns = ns.length) (j : Nat)
    (hj : j < ns.length) : ∃ c, ns[j]? = some (some c) := by
  induction ns generalizing j with
  | nil => simp at hj
  | cons x xs ih =>
    cases x with
    | none =>
      simp only [occupied, List.length_cons] at h
      have := occupied_le xs
      omega
    | some c =>
      simp only [occupied, List.length_cons, Nat.add_right_cancel_iff] at h
      cases j with
      | zero => exact ⟨c, by simp⟩
      | succ j =>
        simp only [List.length_cons, Nat.add_lt_add_iff_right] at hj
        simpa using ih h j hj

theorem occupied_zero (ns : List (Option node)) (h : ∀ s ∈ ns, s = none) : occupied ns = 0 := by
  induction ns with
  | nil => rfl
  | cons x xs ih =>
    have hx := h x (List.mem_cons_self x xs)
    subst hx
    simp only [occupied]
    exact ih (fun s hs => h s (List.mem_cons_of_mem _ hs))

theorem free_list_eq_none (cur : node) (xs : List Nat)
    (h : ∀ k ∈ xs, is_free (slot cur k) = false) : free_list cur xs = none := by
  cases hf : free_list cur xs with
  | none => rfl
  | some i =>
    obtain ⟨hi, hfree⟩ := free_list_some cur xs i hf
    rw [h i hi] at hfree
    cases hfree

theorem hit_kind_name (t : kind) (name : cstring) (n : node) (h : hit_kind t name n = true) :
    n.name = name := by
  cases t <;>
    simp only [hit_kind, hit_dir, hit_file, Bool.and_eq_true, decide_eq_true_eq] at h <;>
    exact (strcmp_eq_zero _ _).mp h.2

/-- In a filled directory no lookup finds a name that is not in the list. -/
theorem filled_lookup_none (cur : node) (names : List cstring) (t : kind) (name : cstring)
    (hf : filled cur names) (hn : name ∉ names) :
    lookup (hit_kind t name) cur name = none := by
  rw [lookup_eq]
  apply scan_list_no_hit
  intro k _ n hk
  cases hh : hit_kind t name n with
  | false => rfl
  | true =>
    have := hit_kind_name t name n hh
    rw [← this] at hn
    exact absurd (hf.2.1 k n hk).2 hn

/-- A filled directory with fewer than `MAX_DIRS` names has a free slot, and the
slot `pick_free_index` returns is `NULL`. -/
theorem filled_pick_free (cur : node) (names : List cstring) (name : cstring)
    (hf : filled cur names) (hlt : names.length < MAX_DIRS) :
    ∃ i, pick_free_index cur name = some i ∧ cur.nodes[i]? = some none := by
  obtain ⟨hlen, halive, hocc⟩ := hf
  have h1 : occupied cur.nodes < cur.nodes.length := by omega
  obtain ⟨j, hj⟩ := occupied_lt_exists cur.nodes h1
  have hjlt : j < MAX_DIRS := by
    rw [← hlen]
    by_contra hn
    rw [List.getElem?_eq_none (Nat.le_of_not_lt hn)] at hj
    cases hj
  have hjfree : is_free (slot cur j) = true := by simp [slot, hj, is_free]
  obtain ⟨i, hi⟩ := free_list_of_mem cur (probe (hash name)) j
    ((mem_probe _ j (hash_lt name)).mpr hjlt) hjfree
  refine ⟨i, by rw [pick_free_index_eq]; exact hi, ?_⟩
  obtain ⟨himem, hifree⟩ := free_list_some cur _ i hi
  have hilt : i < cur.nodes.length := by
    rw [hlen]
    exact (mem_probe _ i (hash_lt name)).mp himem
  cases hs : cur.nodes[i]? with
  | none => rw [List.getElem?_eq_none_iff] at hs; omega
  | some v =>
    cases v with
    | none => rfl
    | some n =>
      have hsl : slot cur i = some n := by simp [slot, hs]
      rw [hsl] at hifree
      simp only [is_free, decide_eq_true_eq] at hifree
      rw [(halive i n hsl).1] at hifree
      cases hifree

/-- A filled directory with `MAX_DIRS` names has no free slot. -/
theorem filled_full (cur : node) (names : List cstring) (name : cstring)
    (hf : filled cur names) (hlen : names.length = MAX_DIRS) :
    pick_free_index cur name = none := by
  obtain ⟨hl, halive, hocc⟩ := hf
  rw [pick_free_index_eq]
  apply free_list_eq_none
  intro k hk
  have hklt : k < cur.nodes.length := by
    rw [hl]
    exact (mem_probe _ k (hash_lt name)).mp hk
  obtain ⟨c, hc⟩ := occupied_full cur.nodes (by omega) k hklt
  have hsl : slot cur k = some c := by simp [slot, hc]
  rw [hsl]
  simp [is_free, (halive k c hsl).1]

/-- A new node stored in a `NULL` slot of a filled directory. -/
theorem filled_install (cur : node) (names : List cstring) (t : kind) (name : cstring) (i : Nat)
    (hf : filled cur names) (hi : cur.nodes[i]? = some none) :
    filled (set_slot cur i (some (init_node t name))) (names ++ [name]) := by
  obtain ⟨hl, halive, hocc⟩ := hf
  have hilt : i < cur.nodes.length := by
    by_contra hn
    rw [List.getElem?_eq_none (Nat.le_of_not_lt hn)] at hi
    cases hi
  refine ⟨by simp [hl], ?_, ?_⟩
  · intro j n hj
    by_cases hji : j = i
    · subst hji
      rw [slot_set_slot_eq cur j _ hilt] at hj
      cases hj
      exact ⟨rfl, by simp [init_node, node.name]⟩
    · rw [slot_set_slot_ne cur i j _ hji] at hj
      exact ⟨(halive j n hj).1, List.mem_append_left _ (halive j n hj).2⟩
  · rw [set_slot_nodes, occupied_set cur.nodes i _ hi, hocc]
    simp

theorem split_last_in (pre name : cstring) (h : SLASH ∉ name) :
    split_last (pre ++ SLASH :: name) = some (pre, name) := by
  rw [split_last_append, split_last_of_not_mem name h]

theorem step_create_in (pre : cstring) (t : kind) (name : cstring) (s : node) :
    step (create_in pre (t, name)) s =
      (create t (pre ++ SLASH :: name) s).map (fun x => (x.1, [x.2])) := by
  cases t <;> rfl

/-- One `create` of a new name in a directory that is not full. -/
theorem create_in_ok (pre : cstring) (t : kind) (name : cstring) (s : node) (ptr : List Nat)
    (cur : node) (names : List cstring) (hr : reach_node s pre = some (ptr, cur))
    (hf : filled cur names) (hn : name ∉ names) (hsl : SLASH ∉ name)
    (hlt : names.length < MAX_DIRS) :
    ∃ i, step (create_in pre (t, name)) s =
        some (store (fun c => set_slot c i (some (init_node t name))) ptr s, [reply.ok]) ∧
      cur.nodes[i]? = some none := by
  obtain ⟨i, hi, hnone⟩ := filled_pick_free cur names name hf hlt
  refine ⟨i, ?_, hnone⟩
  rw [step_create_in]
  unfold create
  simp only [split_last_in pre name hsl, hr, create_lookup,
    filled_lookup_none cur names t name hf hn, hi, Option.map_some']

/-- One `create` of a new name in a directory that is full. -/
theorem create_in_full (pre : cstring) (t : kind) (name : cstring) (s : node) (ptr : List Nat)
    (cur : node) (names : List cstring) (hr : reach_node s pre = some (ptr, cur))
    (hf : filled cur names) (hn : name ∉ names) (hsl : SLASH ∉ name)
    (hlen : names.length = MAX_DIRS) :
    step (create_in pre (t, name)) s = some (s, [reply.no]) := by
  rw [step_create_in]
  unfold create
  simp only [split_last_in pre name hsl, hr, create_lookup,
    filled_lookup_none cur names t name hf hn, filled_full cur names name hf hlen,
    Option.map_some']

theorem run_cons_some (c : command) (cs : List command) (s s1 s2 : node)
    (o1 o2 : List reply) (h1 : step c s = some (s1, o1)) (h2 : run cs s1 = some (s2, o2)) :
    run (c :: cs) s = some (s2, o1 ++ o2) := by
  simp only [run, h1, h2]

/-- Creating new nodes with distinct names in one directory, as long as there is
room: every `create` answers `ok`. -/
theorem creates_in_dir (pre : cstring) (ptr : List Nat) (cs : List (kind × cstring)) :
    ∀ (s cur : node) (names : List cstring), reach_node s pre = some (ptr, cur) →
      filled cur names → (names ++ cs.map Prod.snd).Nodup → (∀ c ∈ cs, SLASH ∉ c.2) →
      names.length + cs.length ≤ MAX_DIRS →
      ∃ s1 cur1, run (cs.map (create_in pre)) s = some (s1, List.replicate cs.length reply.ok) ∧
        reach_node s1 pre = some (ptr, cur1) ∧ filled cur1 (names ++ cs.map Prod.snd) := by
  induction cs with
  | nil =>
    intro s cur names hr hf _ _ _
    exact ⟨s, cur, rfl, hr, by simpa using hf⟩
  | cons c cs ih =>
    intro s cur names hr hf hnd hsl hlen
    obtain ⟨t, name⟩ := c
    simp only [List.map_cons, List.length_cons] at hnd hlen ⊢
    have hn : name ∉ names := by
      intro hmem
      have := List.nodup_append.mp hnd
      exact this.2.2 hmem (List.mem_cons_self _ _)
    obtain ⟨i, hstep, hnone⟩ := create_in_ok pre t name s ptr cur names hr hf hn
      (hsl (t, name) (List.mem_cons_self _ _)) (by omega)
    have hr1 := reach_node_store (fun c => set_slot c i (some (init_node t name)))
      (fun n => head_eq_set_slot n i _) s pre ptr cur hr
    have hf1 := filled_install cur names t name i hf hnone
    have hnd1 : ((names ++ [name]) ++ cs.map Prod.snd).Nodup := by
      simpa using hnd
    obtain ⟨s1, cur1, hrun, hr2, hf2⟩ := ih _ _ (names ++ [name]) hr1 hf1 hnd1
      (fun c hc => hsl c (List.mem_cons_of_mem _ hc)) (by simp; omega)
    refine ⟨s1, cur1, ?_, hr2, by simpa using hf2⟩
    rw [run_cons_some _ _ s _ s1 _ _ hstep hrun]
    rfl

/-- Creating new names in a directory that is full: every `create` answers `no`
and the tree stays the same. -/
theorem creates_full (pre : cstring) (ptr : List Nat) (s cur : node) (names : List cstring)
    (hr : reach_node s pre = some (ptr, cur)) (hf : filled cur names)
    (hlen : names.length = MAX_DIRS) (more : List (kind × cstring))
    (hnew : ∀ c ∈ more, c.2 ∉ names ∧ SLASH ∉ c.2) :
    run (more.map (create_in pre)) s = some (s, List.replicate more.length reply.no) := by
  induction more with
  | nil => rfl
  | cons c more ih =>
    obtain ⟨t, name⟩ := c
    have h1 := create_in_full pre t name s ptr cur names hr hf
      (hnew (t, name) (List.mem_cons_self _ _)).1 (hnew (t, name) (List.mem_cons_self _ _)).2 hlen
    have h2 := ih (fun c hc => hnew c (List.mem_cons_of_mem _ hc))
    rw [List.map_cons, run_cons_some _ _ s s s _ _ h1 h2]
    rfl

theorem filled_empty (cur : node) (hlen : cur.nodes.length = MAX_DIRS)
    (h : ∀ j, j < MAX_DIRS → slot cur j = none) : filled cur [] := by
  have hall : ∀ j n, slot cur j = some n → False := by
    intro j n hj
    have hlt := slot_lt cur j n hj
    rw [hlen] at hlt
    rw [h j hlt] at hj
    cases hj
  refine ⟨hlen, fun j n hj => (hall j n hj).elim, ?_⟩
  apply occupied_zero
  intro x hx
  cases x with
  | none => rfl
  | some c =>
    obtain ⟨j, hj⟩ := List.mem_iff_getElem?.mp hx
    exact (hall j c (by simp [slot, hj])).elim

/-- Claim C7.  From a reachable tree in which the path `pre` resolves to a
directory whose `MAX_DIRS = 1024` slots are all empty, any `MAX_DIRS` creates in
that directory, of either kind, with pairwise distinct names, all answer `ok`,
and every create of a further new name in that directory answers `no` and leaves
the tree as it is. -/
theorem C7_capacity_boundary (s : node) (pre : cstring) (ptr : List Nat) (cur : node)
    (cs : List (kind × cstring)) (hs : Reachable s)
    (hr : reach_node s pre = some (ptr, cur))
    (hempty : ∀ j, j < MAX_DIRS → slot cur j = none)
    (hlen : cs.length = MAX_DIRS) (hnodup : (cs.map Prod.snd).Nodup)
    (hslash : ∀ c ∈ cs, SLASH ∉ c.2) :
    ∃ s1, run (cs.map (create_in pre)) s = some (s1, List.replicate MAX_DIRS reply.ok) ∧
      ∀ more : List (kind × cstring),
        (∀ c ∈ more, c.2 ∉ cs.map Prod.snd ∧ SLASH ∉ c.2) →
        run (more.map (create_in pre)) s1 = some (s1, List.replicate more.length reply.no) := by
  have hw := reach_node_wf s pre ptr cur (reachable_inv s hs).1 hr
  have hf := filled_empty cur (wf_length cur hw) hempty
  obtain ⟨s1, cur1, hrun, hr1, hf1⟩ := creates_in_dir pre ptr cs s cur [] hr hf
    (by simpa using hnodup) hslash (by simp [hlen])
  rw [hlen] at hrun
  refine ⟨s1, hrun, ?_⟩
  intro more hmore
  simp only [List.nil_append] at hf1
  exact creates_full pre ptr s1 cur1 _ hr1 hf1 (by simp [hlen]) more hmore

theorem sample_names_length : sample_names.length = MAX_DIRS := by
  simp [sample_names]

theorem sample_names_nodup : (sample_names.map Prod.snd).Nodup := by
  unfold sample_names
  rw [List.map_map]
  refine List.Nodup.map_on ?_ (List.nodup_range _)
  intro a _ b _ hab
  simp only [Function.comp_apply, List.cons.injEq, and_true] at hab
  omega

theorem sample_names_slash : ∀ c ∈ sample_names, SLASH ∉ c.2 := by
  intro c hc
  unfold sample_names at hc
  obtain ⟨i, hi, rfl⟩ := List.mem_map.mp hc
  have hlt : i < 1024 := List.mem_range.mp hi
  simp only [SLASH, List.mem_cons, List.mem_singleton, not_or, List.not_mem_nil, or_false]
  omega

/-- A concrete instance of C7: the root of the initial tree and the `MAX_DIRS`
file names of `sample_names`; then the file `/zzz` is refused. -/
theorem C7_capacity_boundary_witness :
    Reachable root0 ∧ reach_node root0 [] = some ([], root0) ∧
    (∀ j, j < MAX_DIRS → slot root0 j = none) ∧
    sample_names.length = MAX_DIRS ∧ (sample_names.map Prod.snd).Nodup ∧
    (∀ c ∈ sample_names, SLASH ∉ c.2) ∧
    ∃ s1, run (sample_names.map (create_in [])) root0 =
        some (s1, List.replicate MAX_DIRS reply.ok) ∧
      ∀ more : List (kind × cstring),
        (∀ c ∈ more, c.2 ∉ sample_names.map Prod.snd ∧ SLASH ∉ c.2) →
        run (more.map (create_in [])) s1 = some (s1, List.replicate more.length reply.no) :=
  have hempty : ∀ j, j < MAX_DIRS → slot root0 j = none := by
    intro j hj
    simp [slot, root0, init_node, node.nodes, List.getElem?_replicate, hj]
  ⟨Reachable.init, by rfl, hempty, sample_names_length, sample_names_nodup, sample_names_slash,
    C7_capacity_boundary root0 [] [] root0 sample_names Reachable.init (by rfl) hempty
      sample_names_length sample_names_nodup sample_names_slash⟩

/-! ## Reuse of a tombstone -/

theorem scan_list_none_mono (hit hit' : node → Bool) (cur : node) (xs : List Nat)
    (himp : ∀ n, hit' n = true → hit n = true)
    (h : (scan_list hit cur xs).getD none = none) :
    (scan_list hit' cur xs).getD none = none := by
  induction xs with
  | nil => rfl
  | cons x xs ih =>
    simp only [scan_list] at h ⊢
    cases h1 : slot cur x with
    | none => rfl
    | some n =>
      simp only [h1] at h ⊢
      cases hh : hit n with
      | true => simp [hh] at h
      | false =>
        have hh' : hit' n = false := by
          cases h3 : hit' n with
          | false => rfl
          | true => rw [himp n h3] at hh; cases hh
        simp only [hh, hh', Bool.false_eq_true, if_false] at h ⊢
        exact ih h

theorem lookup_none_mono (hit hit' : node → Bool) (cur : node) (d : cstring)
    (himp : ∀ n, hit' n = true → hit n = true) (h : lookup hit cur d = none) :
    lookup hit' cur d = none := by
  rw [lookup_eq] at h ⊢
  exact scan_list_none_mono hit hit' cur _ himp h

theorem set_slot_set_slot (c : node) (i : Nat) (a b : Option node) :
    set_slot (set_slot c i a) i b = set_slot c i b := by
  simp [set_slot, node.type, node.tombstone, node.name, node.data, node.nodes, List.set_set]

theorem hit_node_init (t : kind) (name : cstring) : hit_node name (init_node t name) = true := by
  simp [hit_node, init_node, node.tombstone, node.name, strcmp_self]

/-- The failures of C8 as it is stated.  First, after `create /ab`,
`create_dir /ba` and `delete_r /ab`, the name `ba` is not found by `pick_node`
(its scan stops at the empty slot 360), `create /ba` and `delete /ba` answer `ok`,
and `create_dir /ba` answers `no`, because `enter_node` goes past the dead file
and finds the directory in slot 361.  Second, in the root filled by the
`MAX_DIRS` creates of `sample_names`, the name `zzz` is not found by `pick_node`
and `create /zzz` answers `no`. -/
theorem C8_counterexample :
    (run [command.create (cstr "/ab"), command.create_dir (cstr "/ba"),
        command.delete_r (cstr "/ab")] root0 =
        some (sample_hidden, [reply.ok, reply.ok, reply.ok]) ∧
      split_last (cstr "/ba") = some ([], cstr "ba") ∧
      reach_node sample_hidden [] = some ([], sample_hidden) ∧
      pick_node sample_hidden (cstr "ba") = none ∧
      (run [command.create (cstr "/ba"), command.delete (cstr "/ba"),
          command.create_dir (cstr "/ba")] sample_hidden).map Prod.snd =
        some [reply.ok, reply.ok, reply.no]) ∧
    (∃ s, run (sample_names.map (create_in [])) root0 =
        some (s, List.replicate MAX_DIRS reply.ok) ∧
      split_last (cstr "/zzz") = some ([], cstr "zzz") ∧
      reach_node s [] = some ([], s) ∧
      pick_node s (cstr "zzz") = none ∧
      create kind.FILE (cstr "/zzz") s = some (s, reply.no)) := by
  refine ⟨⟨by rfl, by rfl, by rfl, by decide, by decide⟩, ?_⟩
  have hempty : ∀ j, j < MAX_DIRS → slot root0 j = none := by
    intro j hj
    simp [slot, root0, init_node, node.nodes, List.getElem?_replicate, hj]
  have hf0 := filled_empty root0 (by simp [root0, init_node, node.nodes]) hempty
  obtain ⟨s1, cur1, hrun, hr1, hf1⟩ := creates_in_dir [] [] sample_names root0 root0 []
    (by rfl) hf0 (by simpa using sample_names_nodup) sample_names_slash
    (by simp [sample_names_length])
  have hcur : cur1 = s1 := by
    have : reach_node s1 [] = some ([], s1) := rfl
    rw [this] at hr1
    simp only [Option.some.injEq, Prod.mk.injEq, true_and] at hr1
    exact hr1.symm
  subst hcur
  simp only [List.nil_append] at hf1
  rw [sample_names_length] at hrun
  have hnew : cstr "zzz" ∉ sample_names.map Prod.snd := by
    intro hmem
    obtain ⟨c, hc, hc2⟩ := List.mem_map.mp hmem
    unfold sample_names at hc
    obtain ⟨i, _, rfl⟩ := List.mem_map.mp hc
    have := congrArg List.length hc2
    simp [cstr] at this
  have hfile := filled_lookup_none cur1 _ kind.FILE (cstr "zzz") hf1 hnew
  refine ⟨cur1, hrun, by rfl, rfl, ?_, ?_⟩
  · unfold pick_node
    rw [lookup_eq]
    apply scan_list_no_hit
    intro k _ n hk
    cases hh : hit_node (cstr "zzz") n with
    | false => rfl
    | true =>
      simp only [hit_node, Bool.and_eq_true, decide_eq_true_eq] at hh
      have hname := (strcmp_eq_zero _ _).mp hh.2
      rw [← hname] at hnew
      exact absurd (hf1.2.1 k n hk).2 hnew
  · have h := create_in_full [] kind.FILE (cstr "zzz") cur1 [] cur1 _ rfl hf1 hnew
      (by decide) (by simp [sample_names_length])
    rw [step_create_in] at h
    have h2 : create kind.FILE ([] ++ SLASH :: cstr "zzz") cur1 =
        create kind.FILE (cstr "/zzz") cur1 := by
      have : ([] : cstring) ++ SLASH :: cstr "zzz" = cstr "/zzz" := by decide
      rw [this]
    rw [h2] at h
    cases hc : create kind.FILE (cstr "/zzz") cur1 with
    | none => rw [hc] at h; cases h
    | some x =>
      obtain ⟨a, b⟩ := x
      rw [hc] at h
      simp only [Option.map_some', Option.some.injEq, Prod.mk.injEq, List.cons.injEq,
        and_true] at h
      rw [h.1, h.2]

/-- Claim C8, amended.  In every reachable state, when the prefix of `p` resolves
to a directory `cur` in which `pick_node` does not find the final name, some slot
of `cur` is empty or dead, and no slot of `cur` holds an alive directory with
that name: `create` of a file at `p` answers `ok`, the `delete` of `p` that follows
answers `ok`, and the `create` of a directory at `p` that follows answers `ok` and
installs the directory in the slot `i` that held the file. -/
theorem C8_tombstone_reuse (s : node) (p pre name : cstring) (ptr : List Nat) (cur : node)
    (hs : Reachable s) (h1 : split_last p = some (pre, name))
    (h2 : reach_node s pre = some (ptr, cur)) (h3 : pick_node cur name = none)
    (h4 : ∃ j, j < MAX_DIRS ∧ is_free (slot cur j) = true)
    (h5 : ∀ j n, slot cur j = some n → n.tombstone = mark.ALIVE → n.type = kind.DIR →
      n.name ≠ name) :
    ∃ i s1 s2 s3 cur1 cur2 cur3,
      create kind.FILE p s = some (s1, reply.ok) ∧
      reach_node s1 pre = some (ptr, cur1) ∧ slot cur1 i = some (init_node kind.FILE name) ∧
      delete p s1 = some (s2, reply.ok) ∧
      reach_node s2 pre = some (ptr, cur2) ∧
      slot cur2 i = some (set_dead (init_node kind.FILE name)) ∧
      create kind.DIR p s2 = some (s3, reply.ok) ∧
      reach_node s3 pre = some (ptr, cur3) ∧ slot cur3 i = some (init_node kind.DIR name) := by
  have hw := reach_node_wf s pre ptr cur (reachable_inv s hs).1 h2
  obtain ⟨j, hj, hjfree⟩ := h4
  obtain ⟨i, hi⟩ := free_list_of_mem cur (probe (hash name)) j
    ((mem_probe _ j (hash_lt name)).mpr hj) hjfree
  have hpick : pick_free_index cur name = some i := by rw [pick_free_index_eq]; exact hi
  have hilt : i < cur.nodes.length := by
    rw [wf_length cur hw]
    exact pick_free_index_lt cur name i hpick
  have hfile : pick_file cur name = none :=
    lookup_none_mono (hit_node name) (hit_file name) cur name (hit_file_node name) h3
  -- the file is created in slot `i`
  have hc1 : create kind.FILE p s =
      some (store (fun c => set_slot c i (some (init_node kind.FILE name))) ptr s, reply.ok) := by
    unfold create
    simp only [h1, h2, hfile, hpick]
  have hr1 := reach_node_store (fun c => set_slot c i (some (init_node kind.FILE name)))
    (fun n => head_eq_set_slot n i _) s pre ptr cur h2
  have hs1 : slot (set_slot cur i (some (init_node kind.FILE name))) i =
      some (init_node kind.FILE name) := slot_set_slot_eq cur i _ hilt
  -- `delete` finds it there and marks it dead
  have hn1 : pick_node (set_slot cur i (some (init_node kind.FILE name))) name = some i :=
    lookup_install (hit_node name) cur name i _ hw hpick h3 (hit_node_init kind.FILE name)
  have hd : delete p (store (fun c => set_slot c i (some (init_node kind.FILE name))) ptr s) =
      some (store (fun c => set_slot c i ((slot c i).map set_dead)) ptr
        (store (fun c => set_slot c i (some (init_node kind.FILE name))) ptr s), reply.ok) := by
    unfold delete
    simp only [h1, hr1, hn1, hs1]
    rfl
  have hr2 := reach_node_store (fun c => set_slot c i ((slot c i).map set_dead))
    (fun n => head_eq_set_slot n i _) _ pre ptr _ hr1
  have hcur2 : set_slot (set_slot cur i (some (init_node kind.FILE name))) i
      ((slot (set_slot cur i (some (init_node kind.FILE name))) i).map set_dead) =
      set_slot cur i (some (set_dead (init_node kind.FILE name))) := by
    rw [hs1, set_slot_set_slot]
    rfl
  simp only [hcur2] at hr2
  have hs2 : slot (set_slot cur i (some (set_dead (init_node kind.FILE name)))) i =
      some (set_dead (init_node kind.FILE name)) := slot_set_slot_eq cur i _ hilt
  -- no alive directory has the name, and slot `i` is again the first free slot
  have he : enter_node (set_slot cur i (some (set_dead (init_node kind.FILE name)))) name
      = none := by
    unfold enter_node
    rw [lookup_eq]
    apply scan_list_no_hit
    intro k _ n hk
    cases hh : hit_dir name n with
    | false => rfl
    | true =>
      simp only [hit_dir, Bool.and_eq_true, decide_eq_true_eq] at hh
      by_cases hki : k = i
      · subst hki
        rw [hs2] at hk
        cases hk
        have := hh.1.1
        simp [set_dead, node.tombstone] at this
      · rw [slot_set_slot_ne cur i k _ hki] at hk
        exact absurd ((strcmp_eq_zero _ _).mp hh.2) (h5 k n hk hh.1.1 hh.1.2)
  have hp2 : pick_free_index (set_slot cur i (some (set_dead (init_node kind.FILE name)))) name
      = some i := by
    rw [pick_free_index_eq]
    exact free_list_again cur _ i _ hi hilt (by simp [is_free, set_dead, node.tombstone])
  have hc3 : create kind.DIR p (store (fun c => set_slot c i ((slot c i).map set_dead)) ptr
        (store (fun c => set_slot c i (some (init_node kind.FILE name))) ptr s)) =
      some (store (fun c => set_slot c i (some (init_node kind.DIR name))) ptr
        (store (fun c => set_slot c i ((slot c i).map set_dead)) ptr
          (store (fun c => set_slot c i (some (init_node kind.FILE name))) ptr s)),
        reply.ok) := by
    unfold create
    simp only [h1, hr2, he, hp2]
  have hr3 := reach_node_store (fun c => set_slot c i (some (init_node kind.DIR name)))
    (fun n => head_eq_set_slot n i _) _ pre ptr _ hr2
  refine ⟨i, _, _, _, _, _, _, hc1, hr1, hs1, hd, hr2, hs2, hc3, hr3, ?_⟩
  refine slot_set_slot_eq _ i _ ?_
  simpa using hilt

/-- A concrete instance of C8: the path `/a` on the initial tree. -/
theorem C8_tombstone_reuse_witness :
    Reachable root0 ∧ split_last (cstr "/a") = some ([], cstr "a") ∧
    reach_node root0 [] = some ([], root0) ∧ pick_node root0 (cstr "a") = none ∧
    (∃ j, j < MAX_DIRS ∧ is_free (slot root0 j) = true) ∧
    (run [command.create (cstr "/a"), command.delete (cstr "/a"),
        command.create_dir (cstr "/a")] root0).map Prod.snd =
      some [reply.ok, reply.ok, reply.ok] ∧
    ∃ i s1 s2 s3 cur1 cur2 cur3,
      create kind.FILE (cstr "/a") root0 = some (s1, reply.ok) ∧
      reach_node s1 [] = some ([], cur1) ∧
      slot cur1 i = some (init_node kind.FILE (cstr "a")) ∧
      delete (cstr "/a") s1 = some (s2, reply.ok) ∧
      reach_node s2 [] = some ([], cur2) ∧
      slot cur2 i = some (set_dead (init_node kind.FILE (cstr "a"))) ∧
      create kind.DIR (cstr "/a") s2 = some (s3, reply.ok) ∧
      reach_node s3 [] = some ([], cur3) ∧
      slot cur3 i = some (init_node kind.DIR (cstr "a")) :=
  have hempty : ∀ j (n : node), slot root0 j = some n → False := by
    intro j n hj
    have hmem := slot_mem root0 j n hj
    simp [root0, init_node, node.nodes] at hmem
  ⟨Reachable.init, by rfl, by rfl, by decide, ⟨0, by decide, by rfl⟩, by decide,
    C8_tombstone_reuse root0 (cstr "/a") [] (cstr "a") [] root0 Reachable.init (by rfl) (by rfl)
      (by decide) ⟨0, by decide, by rfl⟩ (fun j n hj _ _ => (hempty j n hj).elim)⟩

/-! ## The value of the hash function -/

theorem hash_sum_mod (str : cstring) (h : Int) :
    hash_sum str h % 4294967296 = (h + char_sum str) % 4294967296 := by
  induction str generalizing h with
  | nil => simp [hash_sum, char_sum]
  | cons c cs ih =>
    simp only [hash_sum, char_sum, ih]
    unfold wrap_int
    omega

/-- The hash of a name is the sum of its characters times 632, modulo 1024. -/
theorem hash_eq_sum (str : cstring) : (hash str : Int) = (char_sum str * 632) % 1024 := by
  have h := hash_sum_mod str 0
  rw [Int.zero_add] at h
  unfold hash
  rw [HASH_CONST_eq]
  simp only [MAX_DIRS]
  have h0 : 0 ≤ hash_sum str 0 % 4294967296 := Int.emod_nonneg _ (by decide)
  have h1 : ((hash_sum str 0 % 4294967296).toNat : Int) = hash_sum str 0 % 4294967296 :=
    Int.toNat_of_nonneg h0
  push_cast
  rw [h1, h]
  omega

theorem char_sum_perm (a b : cstring) (h : a.Perm b) : char_sum a = char_sum b := by
  induction h with
  | nil => rfl
  | cons x _ ih => simp [char_sum, ih]
  | swap x y l => simp only [char_sum]; omega
  | trans _ _ ih1 ih2 => exact ih1.trans ih2

/-- The failure of C17 as it is stated: for the name `a`, whose sum of characters
is 97, the formula of the specification gives `floor(97 × 632.866...) mod 1024 =
972`, and `hash` returns `97 × 632 mod 1024 = 888`. -/
theorem C17_counterexample :
    char_sum (cstr "a") = 97 ∧ hash_formula_spec (cstr "a") = 972 ∧ hash (cstr "a") = 888 ∧
      (hash (cstr "a") : Int) ≠ hash_formula_spec (cstr "a") := by
  refine ⟨by decide, by decide, by decide, by decide⟩

/-- Claim C17, amended.  The constant `HASH_CONST` is `0.618033989 × 1024`
truncated to the integer 632 before any multiplication, and for every name
`hash` is the sum of the characters of the name times 632, modulo 1024 (the
reduction of the sum and of the product to 32 bits does not change this
value). -/
theorem C17_hash_formula (name : cstring) :
    HASH_CONST = 618033989 * 1024 / 1000000000 ∧ HASH_CONST = 632 ∧
      (hash name : Int) = (char_sum name * (HASH_CONST : Int)) % (MAX_DIRS : Int) := by
  refine ⟨rfl, HASH_CONST_eq, ?_⟩
  rw [hash_eq_sum, HASH_CONST_eq]
  rfl

/-- Claim C20.  For every name, `hash` is a multiple of 8, so it is one of the 128
values `8 * k` with `k < 128`; it depends on the sum of the characters only; and
two names that are permutations of each other, such as `ab` and `ba`, have the
same hash. -/
theorem C20_hash_coarse (name : cstring) :
    (∃ k, k < 128 ∧ hash name = 8 * k) ∧
    (∀ other : cstring, char_sum other = char_sum name → hash other = hash name) ∧
    (∀ other : cstring, other.Perm name → hash other = hash name) ∧
    hash (cstr "ab") = hash (cstr "ba") := by
  have hsum : ∀ other : cstring, char_sum other = char_sum name → hash other = hash name := by
    intro other h
    have h1 := hash_eq_sum other
    have h2 := hash_eq_sum name
    rw [h] at h1
    omega
  refine ⟨?_, hsum, fun other h => hsum other (char_sum_perm other name h), by decide⟩
  have h2 := hash_eq_sum name
  have h3 := hash_lt name
  simp only [MAX_DIRS] at h3
  refine ⟨hash name / 8, by omega, ?_⟩
  omega

/-! ## The scan policies -/

theorem takeWhile_ne_cons_self (i : Nat) (xs : List Nat) :
    (i :: xs).takeWhile (fun k => decide (k ≠ i)) = [] := by
  simp [List.takeWhile]

theorem takeWhile_ne_cons_ne (x i : Nat) (xs : List Nat) (h : x ≠ i) :
    (x :: xs).takeWhile (fun k => decide (k ≠ i)) =
      x :: xs.takeWhile (fun k => decide (k ≠ i)) := by
  simp [List.takeWhile, h]

theorem first_fit_iff (cur : node) (xs : List Nat) (r : Option Nat) :
    free_list cur xs = r ↔ first_fit cur xs r := by
  induction xs with
  | nil =>
    cases r with
    | none => simp [free_list, first_fit]
    | some i => simp [free_list, first_fit]
  | cons x xs ih =>
    cases hx : is_free (slot cur x) with
    | true =>
      simp only [free_list, hx, if_true]
      cases r with
      | none =>
        simp only [reduceCtorEq, first_fit, false_iff, not_forall]
        exact ⟨x, List.mem_cons_self _ _, by simp [hx]⟩
      | some i =>
        simp only [Option.some.injEq, first_fit]
        constructor
        · rintro rfl
          refine ⟨List.mem_cons_self _ _, hx, ?_⟩
          rw [takeWhile_ne_cons_self]
          intro k hk
          cases hk
        · rintro ⟨_, _, h3⟩
          by_contra hne
          rw [takeWhile_ne_cons_ne x i xs hne] at h3
          rw [h3 x (List.mem_cons_self _ _)] at hx
          cases hx
    | false =>
      simp only [free_list, hx, Bool.false_eq_true, if_false, ih]
      cases r with
      | none =>
        simp only [first_fit, List.mem_cons, forall_eq_or_imp, hx, true_and]
      | some i =>
        simp only [first_fit]
        have hne : ∀ (_ : is_free (slot cur i) = true), x ≠ i := by
          intro hi e
          rw [e, hi] at hx
          cases hx
        constructor
        · rintro ⟨h1, h2, h3⟩
          refine ⟨List.mem_cons_of_mem _ h1, h2, ?_⟩
          rw [takeWhile_ne_cons_ne x i xs (hne h2)]
          intro k hk
          rcases List.mem_cons.mp hk with rfl | hk
          · exact hx
          · exact h3 k hk
        · rintro ⟨h1, h2, h3⟩
          rw [takeWhile_ne_cons_ne x i xs (hne h2)] at h3
          refine ⟨?_, h2, fun k hk => h3 k (List.mem_cons_of_mem _ hk)⟩
          rcases List.mem_cons.mp h1 with rfl | h1
          · exact absurd rfl (hne h2)
          · exact h1

theorem is_free_false_iff (s : Option node) :
    is_free s = false ↔ ∃ n, s = some n ∧ n.tombstone = mark.ALIVE := by
  cases s with
  | none => simp [is_free]
  | some n =>
    simp only [is_free, decide_eq_false_iff_not, Option.some.injEq, exists_eq_left']
    cases n.tombstone <;> simp

theorem is_free_true_iff (s : Option node) :
    is_free s = true ↔ s = none ∨ ∃ n, s = some n ∧ n.tombstone = mark.DEAD := by
  cases s with
  | none => simp [is_free]
  | some n => simp [is_free]

/-- Claim C15.  For every node and name, `pick_free_index` returns the first index
in the order `hash(name), ..., MAX_DIRS - 1, 0, ..., hash(name) - 1` whose slot is
empty or holds a dead node, and it returns `-1` (here `none`) if and only if all
`MAX_DIRS` slots hold alive nodes. -/
theorem C15_first_fit (cur : node) (name : cstring) :
    probe (hash name) =
      List.range' (hash name) (MAX_DIRS - hash name) ++ List.range' 0 (hash name) ∧
    (∀ r, pick_free_index cur name = r ↔ first_fit cur (probe (hash name)) r) ∧
    (∀ s, is_free s = true ↔ s = none ∨ ∃ n, s = some n ∧ n.tombstone = mark.DEAD) ∧
    (pick_free_index cur name = none ↔
      ∀ k, k < MAX_DIRS → ∃ n, slot cur k = some n ∧ n.tombstone = mark.ALIVE) := by
  refine ⟨rfl, ?_, is_free_true_iff, ?_⟩
  · intro r
    rw [pick_free_index_eq]
    exact first_fit_iff cur _ r
  · rw [pick_free_index_eq, first_fit_iff]
    simp only [first_fit, mem_probe _ _ (hash_lt name), is_free_false_iff]

theorem scan_policy_iff (hit : node → Bool) (cur : node) (xs : List Nat) (r : Option Nat) :
    (scan_list hit cur xs).getD none = r ↔ scan_policy hit cur xs r := by
  induction xs with
  | nil =>
    cases r with
    | none => simp [scan_list, scan_policy]
    | some i => simp [scan_list, scan_policy]
  | cons x xs ih =>
    cases hs : slot cur x with
    | none =>
      simp only [scan_list, hs, Option.getD_some]
      cases r with
      | none =>
        simp only [scan_policy, true_iff]
        left
        refine ⟨x, List.mem_cons_self _ _, hs, ?_⟩
        rw [takeWhile_ne_cons_self]
        intro k hk
        cases hk
      | some i =>
        simp only [reduceCtorEq, scan_policy, false_iff, not_and]
        intro _ hi h3
        obtain ⟨n, hn, _⟩ := hi
        have hne : x ≠ i := by
          intro e
          rw [e, hn] at hs
          cases hs
        rw [takeWhile_ne_cons_ne x i xs hne] at h3
        obtain ⟨m, hm, _⟩ := h3 x (List.mem_cons_self _ _)
        rw [hs] at hm
        cases hm
    | some n =>
      cases hh : hit n with
      | true =>
        simp only [scan_list, hs, hh, if_true, Option.getD_some]
        cases r with
        | none =>
          simp only [reduceCtorEq, scan_policy, false_iff, not_or, not_exists, not_and,
            not_forall]
          constructor
          · intro z _ hz
            have hne : x ≠ z := by
              intro e
              rw [e, hz] at hs
              cases hs
            rw [takeWhile_ne_cons_ne x z xs hne]
            refine ⟨x, List.mem_cons_self _ _, ?_⟩
            intro m hm
            rw [hs] at hm
            cases hm
            simp [hh]
          · refine ⟨x, List.mem_cons_self _ _, ?_⟩
            intro m hm
            rw [hs] at hm
            cases hm
            simp [hh]
        | some i =>
          simp only [Option.some.injEq, scan_policy]
          constructor
          · rintro rfl
            refine ⟨List.mem_cons_self _ _, ⟨n, hs, hh⟩, ?_⟩
            rw [takeWhile_ne_cons_self]
            intro k hk
            cases hk
          · rintro ⟨_, _, h3⟩
            by_contra hne
            rw [takeWhile_ne_cons_ne x i xs hne] at h3
            obtain ⟨m, hm, hmh⟩ := h3 x (List.mem_cons_self _ _)
            rw [hs] at hm
            cases hm
            rw [hh] at hmh
            cases hmh
      | false =>
        simp only [scan_list, hs, hh, Bool.false_eq_true, if_false, ih]
        cases r with
        | none =>
          simp only [scan_policy]
          constructor
          · rintro (⟨z, hz, hzn, h3⟩ | h)
            · left
              have hne : x ≠ z := by
                intro e
                rw [e, hzn] at hs
                cases hs
              refine ⟨z, List.mem_cons_of_mem _ hz, hzn, ?_⟩
              rw [takeWhile_ne_cons_ne x z xs hne]
              intro k hk
              rcases List.mem_cons.mp hk with rfl | hk
              · exact ⟨n, hs, hh⟩
              · exact h3 k hk
            · right
              intro k hk
              rcases List.mem_cons.mp hk with rfl | hk
              · exact ⟨n, hs, hh⟩
              · exact h k hk
          · rintro (⟨z, hz, hzn, h3⟩ | h)
            · left
              have hne : x ≠ z := by
                intro e
                rw [e, hzn] at hs
                cases hs
              rw [takeWhile_ne_cons_ne x z xs hne] at h3
              refine ⟨z, ?_, hzn, fun k hk => h3 k (List.mem_cons_of_mem _ hk)⟩
              rcases List.mem_cons.mp hz with rfl | hz
              · exact absurd rfl hne
              · exact hz
            · right
              exact fun k hk => h k (List.mem_cons_of_mem _ hk)
        | some i =>
          simp only [scan_policy]
          have hne : ∀ (_ : ∃ m, slot cur i = some m ∧ hit m = true), x ≠ i := by
            rintro ⟨m, hm, hmh⟩ e
            rw [e, hm] at hs
            cases hs
            rw [hh] at hmh
            cases hmh
          constructor
          · rintro ⟨h1, h2, h3⟩
            refine ⟨List.mem_cons_of_mem _ h1, h2, ?_⟩
            rw [takeWhile_ne_cons_ne x i xs (hne h2)]
            intro k hk
            rcases List.mem_cons.mp hk with rfl | hk
            · exact ⟨n, hs, hh⟩
            · exact h3 k hk
          · rintro ⟨h1, h2, h3⟩
            rw [takeWhile_ne_cons_ne x i xs (hne h2)] at h3
            refine ⟨?_, h2, fun k hk => h3 k (List.mem_cons_of_mem _ hk)⟩
            rcases List.mem_cons.mp h1 with rfl | h1
            · exact absurd rfl (hne h2)
            · exact h1

theorem hit_dir_iff (name : cstring) (n : node) :
    hit_dir name n = true ↔
      n.tombstone = mark.ALIVE ∧ n.type = kind.DIR ∧ n.name = name := by
  simp only [hit_dir, Bool.and_eq_true, decide_eq_true_eq, strcmp_eq_zero, and_assoc]

theorem hit_file_iff (name : cstring) (n : node) :
    hit_file name n = true ↔
      n.tombstone = mark.ALIVE ∧ n.type = kind.FILE ∧ n.name = name := by
  simp only [hit_file, Bool.and_eq_true, decide_eq_true_eq, strcmp_eq_zero, and_assoc]

theorem hit_node_iff (name : cstring) (n : node) :
    hit_node name n = true ↔ n.tombstone = mark.ALIVE ∧ n.name = name := by
  simp only [hit_node, Bool.and_eq_true, decide_eq_true_eq, strcmp_eq_zero]

/-- Claim C16.  For every node and name, `enter_node`, `pick_file` and `pick_node`
return the first slot, in the order `hash(name), ..., MAX_DIRS - 1, 0, ...,
hash(name) - 1`, that holds an alive node of the required kind with exactly the
name, when no empty slot comes before it; dead nodes and other alive nodes are
skipped; the result is `none` when an empty slot comes first or the whole order
holds no match.  The node returned is alive, of the required kind, with the
name. -/
theorem C16_lookup_policy (cur : node) (name : cstring) :
    (∀ r, enter_node cur name = r ↔ scan_policy (hit_dir name) cur (probe (hash name)) r) ∧
    (∀ r, pick_file cur name = r ↔ scan_policy (hit_file name) cur (probe (hash name)) r) ∧
    (∀ r, pick_node cur name = r ↔ scan_policy (hit_node name) cur (probe (hash name)) r) ∧
    (∀ n, hit_dir name n = true ↔
      n.tombstone = mark.ALIVE ∧ n.type = kind.DIR ∧ n.name = name) ∧
    (∀ n, hit_file name n = true ↔
      n.tombstone = mark.ALIVE ∧ n.type = kind.FILE ∧ n.name = name) ∧
    (∀ n, hit_node name n = true ↔ n.tombstone = mark.ALIVE ∧ n.name = name) ∧
    (∀ i, enter_node cur name = some i → ∃ n, slot cur i = some n ∧
      n.tombstone = mark.ALIVE ∧ n.type = kind.DIR ∧ n.name = name) ∧
    (∀ i, pick_file cur name = some i → ∃ n, slot cur i = some n ∧
      n.tombstone = mark.ALIVE ∧ n.type = kind.FILE ∧ n.name = name) ∧
    (∀ i, pick_node cur name = some i → ∃ n, slot cur i = some n ∧
      n.tombstone = mark.ALIVE ∧ n.name = name) := by
  refine ⟨?_, ?_, ?_, hit_dir_iff name, hit_file_iff name, hit_node_iff name, ?_, ?_, ?_⟩
  · intro r
    unfold enter_node
    rw [lookup_eq]
    exact scan_policy_iff _ cur _ r
  · intro r
    unfold pick_file
    rw [lookup_eq]
    exact scan_policy_iff _ cur _ r
  · intro r
    unfold pick_node
    rw [lookup_eq]
    exact scan_policy_iff _ cur _ r
  · intro i h
    obtain ⟨n, hn, hh⟩ := lookup_some _ cur name i h
    exact ⟨n, hn, (hit_dir_iff name n).mp hh⟩
  · intro i h
    obtain ⟨n, hn, hh⟩ := lookup_some _ cur name i h
    exact ⟨n, hn, (hit_file_iff name n).mp hh⟩
  · intro i h
    obtain ⟨n, hn, hh⟩ := lookup_some _ cur name i h
    exact ⟨n, hn, (hit_node_iff name n).mp hh⟩

/-! ## Path resolution and empty segments -/

theorem split_slash_ne_nil (p : cstring) : ∃ seg rest, split_slash p = seg :: rest := by
  induction p with
  | nil => exact ⟨[], [], rfl⟩
  | cons c cs ih =>
    obtain ⟨seg, rest, h⟩ := ih
    by_cases hc : c = SLASH
    · exact ⟨[], split_slash cs, by simp [split_slash, hc]⟩
    · exact ⟨c :: seg, rest, by simp [split_slash, hc, h]⟩

theorem strtok_from_eq (p tok : cstring) :
    strtok_from p tok =
      (match split_slash p with
        | seg :: rest => (tok ++ seg) :: rest
        | [] => [tok]).filter (fun seg => decide (seg ≠ [])) := by
  induction p generalizing tok with
  | nil =>
    simp only [strtok_from, split_slash, List.append_nil]
    by_cases ht : tok = [] <;> simp [ht]
  | cons c cs ih =>
    obtain ⟨seg, rest, h⟩ := split_slash_ne_nil cs
    rw [strtok_from_cons]
    by_cases hc : c = SLASH
    · have h0 := ih []
      rw [h] at h0
      simp only [List.nil_append] at h0
      simp only [hc, if_true, split_slash, List.append_nil, h0, h]
      by_cases ht : tok = [] <;> simp [ht]
    · have h1 := ih (tok ++ [c])
      rw [h] at h1
      simp only [hc, if_false, split_slash, h, h1, List.append_assoc, List.singleton_append]

theorem strtok_eq_segments (p : cstring) : strtok p = segments p := by
  obtain ⟨seg, rest, h⟩ := split_slash_ne_nil p
  unfold strtok segments
  rw [strtok_from_eq, h]
  simp

theorem reach_loop_resolve (toks : List cstring) (s : node) :
    (reach_loop toks s).map Prod.snd = resolve toks s := by
  induction toks generalizing s with
  | nil => rfl
  | cons t rest ih =>
    rw [reach_loop_cons]
    simp only [resolve]
    cases enter_node s t with
    | none => rfl
    | some i =>
      simp only
      cases slot s i with
      | none => rfl
      | some c =>
        simp only
        rw [← ih c]
        cases reach_loop rest c with
        | none => rfl
        | some x => rfl

/-- Claim C13.  In every state, two paths with the same non-empty segments give
the same result of `reach_node`; the node it returns is the one obtained by
entering the segments one after the other from the root with `enter_node`; the
result is `NULL` (here `none`) as soon as a segment is not found as an alive
directory; and it is the root when there is no non-empty segment.  The paths
`/a/b`, `a/b` and `//a///b` have the segments `a`, `b`. -/
theorem C13_empty_segments (s : node) (p q : cstring) (h : segments p = segments q) :
    reach_node s p = reach_node s q ∧
    (reach_node s p).map Prod.snd = resolve (segments p) s ∧
    (∀ (done rest : List cstring) (seg : cstring) (ptr : List Nat) (cur : node),
      segments p = done ++ seg :: rest → reach_loop done s = some (ptr, cur) →
      enter_node cur seg = none → reach_node s p = none) ∧
    (segments p = [] → reach_node s p = some ([], s)) ∧
    segments (cstr "/a/b") = [cstr "a", cstr "b"] ∧
    segments (cstr "a/b") = [cstr "a", cstr "b"] ∧
    segments (cstr "//a///b") = [cstr "a", cstr "b"] := by
  refine ⟨?_, ?_, ?_, ?_, by decide, by decide, by decide⟩
  · unfold reach_node
    rw [strtok_eq_segments, strtok_eq_segments, h]
  · unfold reach_node
    rw [strtok_eq_segments]
    exact reach_loop_resolve _ s
  · intro done rest seg ptr cur hp hr he
    unfold reach_node
    rw [strtok_eq_segments, hp]
    exact reach_loop_blocked done rest seg s ptr cur hr he
  · intro hp
    unfold reach_node
    rw [strtok_eq_segments, hp]
    rfl

/-- A concrete instance of C13: the paths `/a` and `//a/` in the tree that holds
the directory `/a`; both resolve to that directory. -/
theorem C13_empty_segments_witness :
    segments (cstr "/a") = segments (cstr "//a/") ∧
    reach_node sample_a_f (cstr "/a") = some ([888], sample_dir_a) ∧
    reach_node sample_a_f (cstr "/a") = reach_node sample_a_f (cstr "//a/") :=
  ⟨by decide, by rfl,
    (C13_empty_segments sample_a_f (cstr "/a") (cstr "//a/") (by decide)).1⟩

/-! ## The root -/

theorem store_data (f : node → node) (hf : ∀ n, (f n).data = n.data) (ptr : List Nat)
    (n : node) : (store f ptr n).data = n.data := by
  cases ptr with
  | nil => exact hf n
  | cons i is =>
    simp only [store]
    cases slot n i with
    | none => rfl
    | some c => rfl

theorem store_slot_root (s : node) (ptr : List Nat) (i : Nat) (v : node → Option node) :
    (store (fun c => set_slot c i (v c)) ptr s).type = s.type ∧
    (store (fun c => set_slot c i (v c)) ptr s).tombstone = s.tombstone ∧
    (store (fun c => set_slot c i (v c)) ptr s).name = s.name ∧
    (store (fun c => set_slot c i (v c)) ptr s).data = s.data := by
  obtain ⟨h1, h2, h3⟩ := head_eq_store (fun c => set_slot c i (v c))
    (fun n => head_eq_set_slot n i _) ptr s
  exact ⟨h1, h2, h3, store_data (fun c => set_slot c i (v c)) (fun n => rfl) ptr s⟩

/-- The four fields of the root are those that `init_node` gave it. -/
theorem reachable_root (s : node) (h : Reachable s) :
    s.type = kind.DIR ∧ s.tombstone = mark.ALIVE ∧ s.name = [] ∧ s.data = none := by
  induction h with
  | init => exact ⟨rfl, rfl, rfl, rfl⟩
  | create t p s s' r _ hc ih =>
    rcases create_cases t p s s' r hc with ⟨rfl, _⟩ | ⟨pre, name, ptr, cur, i, _, _, _, _, rfl, _⟩
    · exact ih
    · obtain ⟨h1, h2, h3, h4⟩ := store_slot_root s ptr i (fun _ => some (init_node t name))
      exact ⟨h1.trans ih.1, h2.trans ih.2.1, h3.trans ih.2.2.1, h4.trans ih.2.2.2⟩
  | write p d s s' r _ hc ih =>
    rcases write_cases p d s s' r hc with ⟨rfl, _⟩ | ⟨pre, name, ptr, cur, i, _, _, _, rfl, _⟩
    · exact ih
    · obtain ⟨h1, h2, h3, h4⟩ :=
        store_slot_root s ptr i (fun c => (slot c i).map (fun f => set_data f d))
      exact ⟨h1.trans ih.1, h2.trans ih.2.1, h3.trans ih.2.2.1, h4.trans ih.2.2.2⟩
  | delete p s s' r _ hc ih =>
    rcases delete_cases p s s' r hc with
      ⟨rfl, _⟩ | ⟨pre, name, ptr, cur, i, t, _, _, _, _, _, rfl, _⟩
    · exact ih
    · obtain ⟨h1, h2, h3, h4⟩ := store_slot_root s ptr i (fun c => (slot c i).map set_dead)
      exact ⟨h1.trans ih.1, h2.trans ih.2.1, h3.trans ih.2.2.1, h4.trans ih.2.2.2⟩
  | delete_r p s s' r _ hc ih =>
    rcases delete_r_cases p s s' r hc with ⟨rfl, _⟩ | ⟨pre, name, ptr, cur, i, _, _, _, rfl, _⟩
    · exact ih
    · obtain ⟨h1, h2, h3, h4⟩ := store_slot_root s ptr i (fun _ => none)
      exact ⟨h1.trans ih.1, h2.trans ih.2.1, h3.trans ih.2.2.1, h4.trans ih.2.2.2⟩

/-- Claim C12.  After any sequence of commands (`create`, `create_dir`, `read`,
`write`, `delete`, `delete_r`, `find`, on any paths) that the program runs from
its initial state, the root is a directory, alive, with the empty name and no
data, and it is still the node that the empty path and the path `/` resolve to.
On the initial tree `delete /` and `delete_r /` answer `no` and change nothing,
and a command on the empty path does not return. -/
theorem C12_root_invariant (cs : List command) (s : node) (out : List reply)
    (h : run cs root0 = some (s, out)) :
    s.type = kind.DIR ∧ s.tombstone = mark.ALIVE ∧ s.name = [] ∧ s.data = none ∧
    reach_node s [] = some ([], s) ∧ reach_node s (cstr "/") = some ([], s) ∧
    delete (cstr "/") root0 = some (root0, reply.no) ∧
    delete_r (cstr "/") root0 = some (root0, reply.no) ∧
    delete [] root0 = none ∧ delete_r [] root0 = none ∧
    create kind.FILE [] root0 = none ∧ write [] [] root0 = none := by
  obtain ⟨h1, h2, h3, h4⟩ := reachable_root s (reachable_run cs root0 s out Reachable.init h)
  exact ⟨h1, h2, h3, h4, rfl, rfl, by rfl, by rfl, rfl, rfl, rfl, rfl⟩

/-- A concrete instance of C12: `create_dir /a`, `delete /`, `delete_r /` and
`find a` on the initial tree. -/
theorem C12_root_invariant_witness :
    run [command.create_dir (cstr "/a"), command.delete (cstr "/"),
        command.delete_r (cstr "/"), command.find (cstr "a")] root0 =
      some (set_slot root0 888 (some (init_node kind.DIR (cstr "a"))),
        [reply.ok, reply.no, reply.no, reply.ok_path (cstr "/a")]) ∧
    (set_slot root0 888 (some (init_node kind.DIR (cstr "a")))).type = kind.DIR ∧
    (set_slot root0 888 (some (init_node kind.DIR (cstr "a")))).tombstone = mark.ALIVE ∧
    (set_slot root0 888 (some (init_node kind.DIR (cstr "a")))).name = [] :=
  ⟨by rfl,
    (C12_root_invariant _ _ _
      (show run [command.create_dir (cstr "/a"), command.delete (cstr "/"),
          command.delete_r (cstr "/"), command.find (cstr "a")] root0 =
        some (set_slot root0 888 (some (init_node kind.DIR (cstr "a"))),
          [reply.ok, reply.no, reply.no, reply.ok_path (cstr "/a")]) by rfl)).1,
    (C12_root_invariant _ _ _
      (show run [command.create_dir (cstr "/a"), command.delete (cstr "/"),
          command.delete_r (cstr "/"), command.find (cstr "a")] root0 =
        some (set_slot root0 888 (some (init_node kind.DIR (cstr "a"))),
          [reply.ok, reply.no, reply.no, reply.ok_path (cstr "/a")]) by rfl)).2.1,
    (C12_root_invariant _ _ _
      (show run [command.create_dir (cstr "/a"), command.delete (cstr "/"),
          command.delete_r (cstr "/"), command.find (cstr "a")] root0 =
        some (set_slot root0 888 (some (init_node kind.DIR (cstr "a"))),
          [reply.ok, reply.no, reply.no, reply.ok_path (cstr "/a")]) by rfl)).2.2.1⟩

/-! ## `find` and dead nodes -/

/-- The loop of `find_recursive` reads the name of every child, so it reads a
released block as soon as one of the children is dead. -/
theorem find_slots_dead (name : cstring) (c : node) (hc : c.tombstone = mark.DEAD) :
    ∀ (ns : List (Option node)) (chain : List cstring) (t : bt), some c ∈ ns →
      find_slots name ns chain t = none := by
  intro ns
  induction ns with
  | nil =>
    intro chain t h
    cases h
  | cons x xs ih =>
    intro chain t h
    cases x with
    | none =>
      rw [find_slots]
      rcases List.mem_cons.mp h with h | h
      · cases h
      · exact ih chain t h
    | some d =>
      rw [find_slots]
      cases hd : d.tombstone with
      | DEAD => rfl
      | ALIVE =>
        have hx : some c ∈ xs := by
          rcases List.mem_cons.mp h with h | h
          · simp only [Option.some.injEq] at h
            rw [h, hd] at hc
            cases hc
          · exact h
        cases d.type with
        | FILE => exact ih chain _ hx
        | DIR =>
          simp only
          cases find_recursive name d (d.name :: chain)
              (if strcmp name d.name = 0 then insert_bt (climb chain (SLASH :: name)) t
               else t) with
          | none => rfl
          | some t1 => exact ih chain t1 hx

/-- The command `find` has no defined output on a tree whose root has a dead
child, whatever the name. -/
theorem find_dead_child (name : cstring) (s c : node) (i : Nat) (h : slot s i = some c)
    (hc : c.tombstone = mark.DEAD) : find name s = none := by
  have hm := slot_mem s i c h
  unfold find
  cases s with
  | mk ty tb nm d ns =>
    rw [find_recursive, find_slots_dead name c hc ns [] bt.nil hm]

theorem sample_dead_f_run :
    run [command.create (cstr "/f"), command.delete (cstr "/f")] root0 =
      some (sample_dead_f, [reply.ok, reply.ok]) := by rfl

/-- Claim C19, evaluated where the code departs from it: on the initial tree,
`create /f` and `delete /f` answer `ok` and lead to the tree whose slot 976 holds
the file `f` with the tombstone `DEAD`, its name released by `delete`; on this
tree `find_recursive` compares the released name with the name it looks for, so
`find f`, and `find` of any other name, has no defined output, where the claim
has `find f` print `ok /f`. -/
theorem C19_find_reads_released_name :
    run [command.create (cstr "/f"), command.delete (cstr "/f")] root0 =
      some (sample_dead_f, [reply.ok, reply.ok]) ∧
    (slot sample_dead_f 976).map node.type = some kind.FILE ∧
    (slot sample_dead_f 976).map node.tombstone = some mark.DEAD ∧
    find (cstr "f") sample_dead_f = none ∧
    (∀ name, find name sample_dead_f = none) ∧
    (run [command.create (cstr "/f"), command.delete (cstr "/f"),
        command.find (cstr "f")] root0).map Prod.snd = none := by
  refine ⟨by rfl, by decide, by decide, by decide, ?_, by decide⟩
  intro name
  exact find_dead_child name sample_dead_f (set_dead (init_node kind.FILE (cstr "f"))) 976
    (by rfl) (by rfl)

/-! ## Two defects -/

/-- Claim C18, evaluated where the code departs from it: on the initial tree,
`create_dir /d`, `create /d/f`, `delete /d/f` answer `ok` and lead to a tree in
which slot 736 of the root holds the alive directory `d` and slot 976 of `d`
holds the dead file `f`, whose name and data `delete /d/f` has released.  On
`delete /d` the first loop of `delete` finds no alive child and counts one dead
child, and the second loop releases the name of `f` a second time: the command
has no defined result, the directory is not marked dead and slot 976 is not set
to `NULL`, where the claim has the command answer `ok` and leave every slot
empty. -/
theorem C18_dead_children_released_twice :
    (run [command.create_dir (cstr "/d"), command.create (cstr "/d/f"),
        command.delete (cstr "/d/f")] root0).map Prod.snd =
      some [reply.ok, reply.ok, reply.ok] ∧
    (run [command.create_dir (cstr "/d"), command.create (cstr "/d/f"),
        command.delete (cstr "/d/f")] root0).map
      (fun x => (slot x.1 736).map (fun d => (d.type, d.tombstone, d.name))) =
      some (some (kind.DIR, mark.ALIVE, cstr "d")) ∧
    (run [command.create_dir (cstr "/d"), command.create (cstr "/d/f"),
        command.delete (cstr "/d/f")] root0).map
      (fun x => ((slot x.1 736).bind (fun d => slot d 976)).map
        (fun f => (f.type, f.tombstone))) = some (some (kind.FILE, mark.DEAD)) ∧
    (run [command.create_dir (cstr "/d"), command.create (cstr "/d/f"),
        command.delete (cstr "/d/f")] root0).map
      (fun x => (slot x.1 736).map (fun d => count_loop d.nodes true 0)) =
      some (some (true, 1)) ∧
    (run [command.create_dir (cstr "/d"), command.create (cstr "/d/f"),
        command.delete (cstr "/d/f")] root0).map
      (fun x => (delete (cstr "/d") x.1).map Prod.snd) = some none ∧
    (run [command.create_dir (cstr "/d"), command.create (cstr "/d/f"),
        command.delete (cstr "/d/f"), command.delete (cstr "/d")] root0).map Prod.snd =
      none := by
  refine ⟨by decide, by decide, by decide, by decide, by decide, by decide⟩

/-- Claim C14, evaluated where the code departs from it: after `create /ab`,
`create /ba` and `delete_r /ab`, the alive file `ba`, whose hash is 360, is in
slot 361 and slot 360 is empty, because `delete_r` stores `NULL` where `delete`
leaves a tombstone; the lookup of `ba` stops at slot 360, and `read /ba` answers
`no` although `/ba` was created and never deleted. -/
theorem C14_probe_chain_broken :
    run [command.create (cstr "/ab"), command.create (cstr "/ba"),
        command.delete_r (cstr "/ab")] root0 =
      some (sample_cut, [reply.ok, reply.ok, reply.ok]) ∧
    hash (cstr "ba") = 360 ∧ slot sample_cut 360 = none ∧
    slot sample_cut 361 = some (init_node kind.FILE (cstr "ba")) ∧
    (init_node kind.FILE (cstr "ba")).tombstone = mark.ALIVE ∧
    pick_file sample_cut (cstr "ba") = none ∧
    read (cstr "/ba") sample_cut = some reply.no := by
  refine ⟨by rfl, by decide, by rfl, by rfl, rfl, by decide, by decide⟩

/-! ## Properties of every node of a tree -/

theorem every_slots_iff (Q : node → Prop) (ns : List (Option node)) :
    every_slots Q ns ↔ ∀ c, some c ∈ ns → every Q c := by
  induction ns with
  | nil => simp [every_slots]
  | cons s ns ih =>
    cases s with
    | none => simp [every_slots, ih]
    | some d =>
      simp only [every_slots, ih, List.mem_cons, Option.some.injEq]
      constructor
      · rintro ⟨h1, h2⟩ c (rfl | hc)
        · exact h1
        · exact h2 c hc
      · intro h
        exact ⟨h d (Or.inl rfl), fun c hc => h c (Or.inr hc)⟩

theorem every_iff (Q : node → Prop) (n : node) :
    every Q n ↔ Q n ∧ ∀ c, some c ∈ n.nodes → every Q c := by
  cases n with
  | mk t tb nm d ns => simp only [every, every_slots_iff, node.nodes]

theorem every_slot (Q : node → Prop) (n : node) (i : Nat) (c : node) (hn : every Q n)
    (h : slot n i = some c) : every Q c :=
  ((every_iff Q n).mp hn).2 c (slot_mem n i c h)

theorem every_deref (Q : node → Prop) (ptr : List Nat) (n c : node) (hn : every Q n)
    (h : deref ptr n = some c) : every Q c := by
  induction ptr generalizing n with
  | nil =>
    simp only [deref, Option.some.injEq] at h
    subst h
    exact hn
  | cons i is ih =>
    simp only [deref] at h
    cases h1 : slot n i with
    | none => simp [h1] at h
    | some d =>
      simp only [h1] at h
      exact ih d (every_slot Q n i d hn h1) h

theorem every_set_slot (Q : node → Prop) (n : node) (i : Nat) (v : Option node)
    (hn : every Q n) (hq : Q (set_slot n i v)) (hv : ∀ c, v = some c → every Q c) :
    every Q (set_slot n i v) := by
  rw [every_iff] at hn ⊢
  refine ⟨hq, ?_⟩
  intro c hc
  rw [set_slot_nodes] at hc
  rcases List.mem_or_eq_of_mem_set hc with hc | hc
  · exact hn.2 c hc
  · exact hv c hc.symm

theorem every_store (Q : node → Prop)
    (hQ : ∀ n i c c', Q n → slot n i = some c → head_eq c' c → Q (set_slot n i (some c')))
    (f : node → node) (hf : ∀ n, head_eq (f n) n) (ptr : List Nat) (n c : node)
    (hn : every Q n) (h : deref ptr n = some c) (hfc : every Q (f c)) :
    every Q (store f ptr n) := by
  induction ptr generalizing n with
  | nil =>
    simp only [deref, Option.some.injEq] at h
    subst h
    exact hfc
  | cons i is ih =>
    simp only [deref] at h
    simp only [store]
    cases h1 : slot n i with
    | none => simp [h1] at h
    | some d =>
      simp only [h1] at h ⊢
      refine every_set_slot Q n i _ hn ?_ ?_
      · exact hQ n i d _ ((every_iff Q n).mp hn).1 h1 (head_eq_store f hf is d)
      · intro c' hc'
        simp only [Option.some.injEq] at hc'
        subst hc'
        exact ih d (every_slot Q n i d hn h1) h

/-! ## The invariants of the directory table -/

theorem slot_set_slot_some (n : node) (i k : Nat) (v x : node)
    (h : slot (set_slot n i (some v)) k = some x) :
    (k = i ∧ x = v) ∨ (k ≠ i ∧ slot n k = some x) := by
  by_cases hk : k = i
  · subst hk
    left
    have hlt : k < n.nodes.length := by
      have := slot_lt _ k x h
      simpa using this
    rw [slot_set_slot_eq n k _ hlt] at h
    cases h
    exact ⟨rfl, rfl⟩
  · right
    rw [slot_set_slot_ne n i k _ hk] at h
    exact ⟨hk, h⟩

theorem slot_set_slot_ne_none (n : node) (i k : Nat) (v : node)
    (hi : i < n.nodes.length) (h : slot n k ≠ none) :
    slot (set_slot n i (some v)) k ≠ none := by
  by_cases hk : k = i
  · subst hk
    rw [slot_set_slot_eq n k _ hi]
    simp
  · rw [slot_set_slot_ne n i k _ hk]
    exact h

/-- The invariants see only the heads of the children. -/
theorem table_ok_head (n : node) (i : Nat) (c c' : node) (hn : table_ok n)
    (hc : slot n i = some c) (hh : head_eq c' c) : table_ok (set_slot n i (some c')) := by
  obtain ⟨hchain, huniq⟩ := hn
  obtain ⟨h1, h2, h3⟩ := hh
  have hi := slot_lt n i c hc
  have old : ∀ k x, slot (set_slot n i (some c')) k = some x →
      ∃ y, slot n k = some y ∧ y.type = x.type ∧ y.tombstone = x.tombstone ∧
        y.name = x.name := by
    intro k x hx
    rcases slot_set_slot_some n i k c' x hx with ⟨rfl, rfl⟩ | ⟨_, hk⟩
    · exact ⟨c, hc, h1.symm, h2.symm, h3.symm⟩
    · exact ⟨x, hk, rfl, rfl, rfl⟩
  constructor
  · intro s x hx hal k hk
    obtain ⟨y, hy, _, hyt, hyn⟩ := old s x hx
    rw [← hyn] at hk
    exact slot_set_slot_ne_none n i k c' hi (hchain s y hy (hyt.trans hal) k hk)
  · intro a b x y hx hy hxa hya hty hnm
    obtain ⟨x', hx', hx1, hx2, hx3⟩ := old a x hx
    obtain ⟨y', hy', hy1, hy2, hy3⟩ := old b y hy
    exact huniq a b x' y' hx' hy' (hx2.trans hxa) (hy2.trans hya)
      (hx1.trans (hty.trans hy1.symm)) (hx3.trans (hnm.trans hy3.symm))

theorem table_ok_init (t : kind) (name : cstring) : table_ok (init_node t name) := by
  have hnone : ∀ k x, slot (init_node t name) k = some x → False := by
    intro k x hx
    have hmem := slot_mem _ k x hx
    simp [init_node, node.nodes] at hmem
  exact ⟨fun s c hc => (hnone s c hc).elim, fun i j a b ha => (hnone i a ha).elim⟩

theorem every_table_ok_init (t : kind) (name : cstring) :
    every table_ok (init_node t name) := by
  rw [every_iff]
  refine ⟨table_ok_init t name, ?_⟩
  intro c hc
  simp [init_node, node.nodes] at hc

theorem every_table_ok_set_dead (x : node) (h : every table_ok x) :
    every table_ok (set_dead x) := by
  rw [every_iff] at h ⊢
  exact ⟨h.1, h.2⟩

theorem every_table_ok_set_data (x : node) (d : cstring) (h : every table_ok x) :
    every table_ok (set_data x d) := by
  rw [every_iff] at h ⊢
  exact ⟨h.1, h.2⟩

/-- A scan reaches a node that satisfies `hit` when no slot before it is empty. -/
theorem scan_list_reaches (hit : node → Bool) (cur : node) (xs : List Nat) (j : Nat) (b : node)
    (hj : j ∈ xs) (hb : slot cur j = some b) (hh : hit b = true)
    (hchain : ∀ k ∈ xs.takeWhile (fun k => decide (k ≠ j)), slot cur k ≠ none) :
    (scan_list hit cur xs).getD none ≠ none := by
  induction xs with
  | nil => cases hj
  | cons x xs ih =>
    simp only [scan_list]
    by_cases hx : x = j
    · subst hx
      simp [hb, hh]
    · rw [takeWhile_ne_cons_ne x j xs hx] at hchain
      cases h1 : slot cur x with
      | none => exact absurd h1 (hchain x (List.mem_cons_self _ _))
      | some m =>
        simp only
        cases hm : hit m with
        | true => simp
        | false =>
          simp only [Bool.false_eq_true, if_false]
          refine ih ?_ (fun k hk => hchain k (List.mem_cons_of_mem _ hk))
          rcases List.mem_cons.mp hj with e | hj
          · exact absurd e.symm hx
          · exact hj

/-- The invariants after `create` has stored a new node. -/
theorem table_ok_create (cur : node) (t : kind) (name : cstring) (i : Nat)
    (hn : table_ok cur) (hlen : cur.nodes.length = MAX_DIRS)
    (hnone : lookup (hit_kind t name) cur name = none)
    (hfree : pick_free_index cur name = some i) :
    table_ok (set_slot cur i (some (init_node t name))) := by
  obtain ⟨hchain, huniq⟩ := hn
  have hi : i < cur.nodes.length := by
    rw [hlen]
    exact pick_free_index_lt cur name i hfree
  rw [pick_free_index_eq] at hfree
  have hfit := (first_fit_iff cur _ (some i)).mp hfree
  have hnew : ∀ j b, slot cur j = some b → b.tombstone = mark.ALIVE → b.type = t →
      b.name = name → False := by
    intro j b hb hal hty hnm
    have hhit : hit_kind t name b = true := by
      cases t
      · exact (hit_dir_iff name b).mpr ⟨hal, hty, hnm⟩
      · exact (hit_file_iff name b).mpr ⟨hal, hty, hnm⟩
    have hjlt : j < MAX_DIRS := by
      rw [← hlen]
      exact slot_lt cur j b hb
    have hc := hchain j b hb hal
    rw [hnm] at hc
    rw [lookup_eq] at hnone
    exact scan_list_reaches _ cur _ j b ((mem_probe _ j (hash_lt name)).mpr hjlt) hb hhit hc
      hnone
  constructor
  · intro s x hx hal k hk
    rcases slot_set_slot_some cur i s _ x hx with ⟨rfl, rfl⟩ | ⟨_, hs⟩
    · have hk' : k ∈ (probe (hash name)).takeWhile (fun k => decide (k ≠ s)) := hk
      have hfalse := hfit.2.2 k hk'
      refine slot_set_slot_ne_none cur s k _ hi ?_
      intro e
      rw [e] at hfalse
      simp [is_free] at hfalse
    · exact slot_set_slot_ne_none cur i k _ hi (hchain s x hs hal k hk)
  · intro a b x y hx hy hxa hya hty hnm
    rcases slot_set_slot_some cur i a _ x hx with ⟨rfl, rfl⟩ | ⟨_, hx'⟩
    · rcases slot_set_slot_some cur a b _ y hy with ⟨rfl, _⟩ | ⟨_, hy'⟩
      · rfl
      · exact (hnew b y hy' hya hty.symm hnm.symm).elim
    · rcases slot_set_slot_some cur i b _ y hy with ⟨rfl, rfl⟩ | ⟨_, hy'⟩
      · exact (hnew a x hx' hxa hty hnm).elim
      · exact huniq a b x y hx' hy' hxa hya hty hnm

/-- The invariants after `delete` has marked a child dead. -/
theorem table_ok_delete (cur : node) (i : Nat) (t : node) (hn : table_ok cur)
    (ht : slot cur i = some t) : table_ok (set_slot cur i (some (set_dead t))) := by
  obtain ⟨hchain, huniq⟩ := hn
  have hi := slot_lt cur i t ht
  have old : ∀ k x, slot (set_slot cur i (some (set_dead t))) k = some x →
      x.tombstone = mark.ALIVE → slot cur k = some x := by
    intro k x hx hal
    rcases slot_set_slot_some cur i k _ x hx with ⟨_, rfl⟩ | ⟨_, hk⟩
    · cases hal
    · exact hk
  constructor
  · intro s x hx hal k hk
    exact slot_set_slot_ne_none cur i k _ hi (hchain s x (old s x hx hal) hal k hk)
  · intro a b x y hx hy hxa hya hty hnm
    exact huniq a b x y (old a x hx hxa) (old b y hy hya) hxa hya hty hnm

theorem reachable_of_no_delete_r (s : node) (h : ReachableNoDeleteR s) : Reachable s := by
  induction h with
  | init => exact Reachable.init
  | create t p s s' r _ hc ih => exact Reachable.create t p s s' r ih hc
  | write p d s s' r _ hc ih => exact Reachable.write p d s s' r ih hc
  | delete p s s' r _ hc ih => exact Reachable.delete p s s' r ih hc

/-- Without `delete_r`, every array of the tree keeps both invariants. -/
theorem no_delete_r_table_ok (s : node) (h : ReachableNoDeleteR s) : every table_ok s := by
  induction h with
  | init => exact every_table_ok_init _ _
  | create t p s s' r hreach hc ih =>
    rcases create_cases t p s s' r hc with
      ⟨rfl, _⟩ | ⟨pre, name, ptr, cur, i, _, hr, hnone, hfree, rfl, _⟩
    · exact ih
    · have hd := reach_loop_deref _ s ptr cur hr
      have hcur := every_deref table_ok ptr s cur ih hd
      have hw := reach_node_wf s pre ptr cur
        (reachable_inv s (reachable_of_no_delete_r s hreach)).1 hr
      refine every_store table_ok table_ok_head _ (fun n => head_eq_set_slot n i _) ptr s cur
        ih hd ?_
      refine every_set_slot table_ok cur i _ hcur ?_ ?_
      · exact table_ok_create cur t name i ((every_iff _ cur).mp hcur).1 (wf_length cur hw)
          hnone hfree
      · intro c hc
        simp only [Option.some.injEq] at hc
        subst hc
        exact every_table_ok_init t name
  | write p d s s' r _ hc ih =>
    rcases write_cases p d s s' r hc with ⟨rfl, _⟩ | ⟨pre, name, ptr, cur, i, _, hr, hp, rfl, _⟩
    · exact ih
    · have hd := reach_loop_deref _ s ptr cur hr
      have hcur := every_deref table_ok ptr s cur ih hd
      obtain ⟨f, hf, _⟩ := lookup_some _ cur name i hp
      refine every_store table_ok table_ok_head _ (fun n => head_eq_set_slot n i _) ptr s cur
        ih hd ?_
      simp only [hf, Option.map_some']
      refine every_set_slot table_ok cur i _ hcur ?_ ?_
      · exact table_ok_head cur i f _ ((every_iff _ cur).mp hcur).1 hf (head_eq_set_data f d)
      · intro c hc
        simp only [Option.some.injEq] at hc
        subst hc
        exact every_table_ok_set_data f d (every_slot table_ok cur i f hcur hf)
  | delete p s s' r _ hc ih =>
    rcases delete_cases p s s' r hc with
      ⟨rfl, _⟩ | ⟨pre, name, ptr, cur, i, t, _, hr, _, ht, _, rfl, _⟩
    · exact ih
    · have hd := reach_loop_deref _ s ptr cur hr
      have hcur := every_deref table_ok ptr s cur ih hd
      refine every_store table_ok table_ok_head _ (fun n => head_eq_set_slot n i _) ptr s cur
        ih hd ?_
      simp only [ht, Option.map_some']
      refine every_set_slot table_ok cur i _ hcur ?_ ?_
      · exact table_ok_delete cur i t ((every_iff _ cur).mp hcur).1 ht
      · intro c hc
        simp only [Option.some.injEq] at hc
        subst hc
        exact every_table_ok_set_dead t (every_slot table_ok cur i t hcur ht)

/-- The failures of C11 as it is stated.  First, `create` looks only for a node of
the kind it creates: after `create /a` and `create_dir /a` the root holds the
alive file `a` in slot 888 and the alive directory `a` in slot 889.  Second, after
`create /ab`, `create_dir /ba`, `delete_r /ab` and again `create_dir /ba`, all
answered `ok`, the root holds two alive directories `ba`, in the slots 360 and
361. -/
theorem C11_counterexample :
    (run [command.create (cstr "/a"), command.create_dir (cstr "/a")] root0 =
        some (sample_file_dir, [reply.ok, reply.ok]) ∧
      slot sample_file_dir 888 = some (init_node kind.FILE (cstr "a")) ∧
      slot sample_file_dir 889 = some (init_node kind.DIR (cstr "a")) ∧
      (init_node kind.FILE (cstr "a")).tombstone = mark.ALIVE ∧
      (init_node kind.DIR (cstr "a")).tombstone = mark.ALIVE ∧
      (init_node kind.FILE (cstr "a")).name = (init_node kind.DIR (cstr "a")).name) ∧
    (run [command.create (cstr "/ab"), command.create_dir (cstr "/ba"),
        command.delete_r (cstr "/ab"), command.create_dir (cstr "/ba")] root0 =
        some (sample_twice, [reply.ok, reply.ok, reply.ok, reply.ok]) ∧
      slot sample_twice 360 = some (init_node kind.DIR (cstr "ba")) ∧
      slot sample_twice 361 = some (init_node kind.DIR (cstr "ba")) ∧
      (init_node kind.DIR (cstr "ba")).tombstone = mark.ALIVE ∧
      ¬ unique_ok sample_twice) := by
  refine ⟨⟨by rfl, by rfl, by rfl, rfl, rfl, rfl⟩, by rfl, by rfl, by rfl, rfl, ?_⟩
  intro h
  have := h 360 361 _ _ (show slot sample_twice 360 = some (init_node kind.DIR (cstr "ba"))
    by rfl) (show slot sample_twice 361 = some (init_node kind.DIR (cstr "ba")) by rfl)
    rfl rfl rfl rfl
  cases this

/-- Claim C11, amended.  In every state reached from the initial tree with
`create`, `write` and `delete` only, no node of the tree has two slots that hold
alive children of the same kind with the same name. -/
theorem C11_sibling_uniqueness (s : node) (ptr : List Nat) (d : node)
    (hs : ReachableNoDeleteR s) (hd : deref ptr s = some d) :
    ∀ i j a b, slot d i = some a → slot d j = some b →
      a.tombstone = mark.ALIVE → b.tombstone = mark.ALIVE →
      a.type = b.type → a.name = b.name → i = j :=
  ((every_iff table_ok d).mp (every_deref table_ok ptr s d (no_delete_r_table_ok s hs) hd)).1.2

/-- A concrete instance of C11: the root of the tree after `create /a` and
`create_dir /a`, which holds a file and a directory with the same name. -/
theorem C11_sibling_uniqueness_witness :
    ReachableNoDeleteR sample_file_dir ∧ deref [] sample_file_dir = some sample_file_dir ∧
    ∀ i j a b, slot sample_file_dir i = some a → slot sample_file_dir j = some b →
      a.tombstone = mark.ALIVE → b.tombstone = mark.ALIVE →
      a.type = b.type → a.name = b.name → i = j :=
  ⟨ReachableNoDeleteR.create kind.DIR (cstr "/a")
      (set_slot root0 888 (some (init_node kind.FILE (cstr "a")))) sample_file_dir reply.ok
      (ReachableNoDeleteR.create kind.FILE (cstr "/a") root0 _ reply.ok ReachableNoDeleteR.init
        (by rfl)) (by rfl),
    rfl,
    C11_sibling_uniqueness sample_file_dir [] sample_file_dir
      (ReachableNoDeleteR.create kind.DIR (cstr "/a")
        (set_slot root0 888 (some (init_node kind.FILE (cstr "a")))) sample_file_dir reply.ok
        (ReachableNoDeleteR.create kind.FILE (cstr "/a") root0 _ reply.ok
          ReachableNoDeleteR.init (by rfl)) (by rfl))
      rfl⟩

/-! ## Deleting what holds dead nodes -/

theorem occupied_pos (ns : List (Option node)) (c : node) (h : some c ∈ ns) :
    0 < occupied ns := by
  induction ns with
  | nil => cases h
  | cons x xs ih =>
    cases x with
    | none =>
      rw [occupied]
      rcases List.mem_cons.mp h with h | h
      · cases h
      · exact ih h
    | some d =>
      rw [occupied]
      omega

/-- The three results of `delete` when the name is found as a directory `t`: `no`
and the same state when a child of `t` is alive; `ok` and `t` marked dead when
every slot of `t` is `NULL`; and no defined result when no child is alive and
some child is dead, because the second loop releases the name of a dead child a
second time. -/
theorem delete_dir_outcome (p pre name : cstring) (s : node) (ptr : List Nat) (cur t : node)
    (i : Nat)
    (h1 : split_last p = some (pre, name)) (h2 : reach_node s pre = some (ptr, cur))
    (h3 : pick_node cur name = some i) (h4 : slot cur i = some t) (h5 : t.type = kind.DIR) :
    ((∃ c, some c ∈ t.nodes ∧ c.tombstone = mark.ALIVE) → delete p s = some (s, reply.no)) ∧
    ((∀ x ∈ t.nodes, x = none) →
      delete p s =
        some (store (fun c => set_slot c i ((slot c i).map set_dead)) ptr s, reply.ok)) ∧
    ((∀ c, some c ∈ t.nodes → c.tombstone = mark.DEAD) → (∃ c, some c ∈ t.nodes) →
      delete p s = none) := by
  have hd := delete_dir p pre name s ptr cur t i h1 h2 h3 h4 h5
  refine ⟨?_, ?_, ?_⟩
  · rintro ⟨c, hc, ha⟩
    have hf : (count_loop t.nodes true 0).1 = false := by
      cases hv : (count_loop t.nodes true 0).1 with
      | false => rfl
      | true =>
        have := (count_loop_true t.nodes 0).mp hv c hc
        rw [ha] at this
        cases this
    rw [hd, hf]
    simp
  · intro hn
    have ht : (count_loop t.nodes true 0).1 = true := by
      rw [count_loop_true]
      intro c hc
      cases hn _ hc
    have h0 := count_loop_snd t.nodes 0 ht
    rw [occupied_zero t.nodes hn] at h0
    rw [hd, ht, h0]
    simp
  · rintro hdead ⟨c, hc⟩
    have ht : (count_loop t.nodes true 0).1 = true := (count_loop_true t.nodes 0).mpr hdead
    have h0 := count_loop_snd t.nodes 0 ht
    have hp := occupied_pos t.nodes c hc
    have hne : ¬ (count_loop t.nodes true 0).2 = 0 := by omega
    rw [hd, ht]
    simp only [if_true, hne, if_false]

/-- Claim C3, evaluated where the code departs from it: on the initial tree,
`create_dir /a`, `create /a/f`, `delete /a`, `delete /a/f` answer `ok`, `ok`,
`no`, `ok` and lead to a tree in which slot 888 of the root holds the alive
directory `a` and slot 976 of `a` holds the dead file `f`, whose name and data
`delete /a/f` has released.  On the last `delete /a` the first loop of `delete`
finds no alive child and counts one dead child, and the second loop releases the
name of `f` a second time: the command has no defined result, where the claim has
it answer `ok`. -/
theorem C3_shallow_delete_releases_twice :
    (run [command.create_dir (cstr "/a"), command.create (cstr "/a/f"),
        command.delete (cstr "/a"), command.delete (cstr "/a/f")] root0).map Prod.snd =
      some [reply.ok, reply.ok, reply.no, reply.ok] ∧
    (run [command.create_dir (cstr "/a"), command.create (cstr "/a/f"),
        command.delete (cstr "/a"), command.delete (cstr "/a/f")] root0).map
      (fun x => (slot x.1 888).map (fun a => (a.type, a.tombstone, a.name))) =
      some (some (kind.DIR, mark.ALIVE, cstr "a")) ∧
    (run [command.create_dir (cstr "/a"), command.create (cstr "/a/f"),
        command.delete (cstr "/a"), command.delete (cstr "/a/f")] root0).map
      (fun x => ((slot x.1 888).bind (fun a => slot a 976)).map
        (fun f => (f.type, f.tombstone))) = some (some (kind.FILE, mark.DEAD)) ∧
    (run [command.create_dir (cstr "/a"), command.create (cstr "/a/f"),
        command.delete (cstr "/a"), command.delete (cstr "/a/f")] root0).map
      (fun x => (slot x.1 888).map (fun a => count_loop a.nodes true 0)) =
      some (some (true, 1)) ∧
    (run [command.create_dir (cstr "/a"), command.create (cstr "/a/f"),
        command.delete (cstr "/a"), command.delete (cstr "/a/f")] root0).map
      (fun x => (delete (cstr "/a") x.1).map Prod.snd) = some none ∧
    (run [command.create_dir (cstr "/a"), command.create (cstr "/a/f"),
        command.delete (cstr "/a"), command.delete (cstr "/a/f"),
        command.delete (cstr "/a")] root0).map Prod.snd = none := by
  refine ⟨by decide, by decide, by decide, by decide, by decide, by decide⟩

/-! ## Recursive delete, the claim -/

mutual
theorem delete_recursive_alive :
    ∀ (n : node), all_alive_slots n.nodes → delete_recursive n = true
  | node.mk _ _ _ _ ns, h => by
    rw [delete_recursive]
    exact delete_recursive_slots_alive ns h
theorem delete_recursive_slots_alive :
    ∀ (ns : List (Option node)), all_alive_slots ns → delete_recursive_slots ns = true
  | [], _ => by
    rw [delete_recursive_slots]
  | none :: rest, h => by
    rw [delete_recursive_slots]
    exact delete_recursive_slots_alive rest h
  | some c :: rest, h => by
    rw [delete_recursive_slots]
    have hc : all_alive c := h.1
    have htb : c.tombstone = mark.ALIVE := ((all_alive_iff c).mp hc).1
    have hch : all_alive_slots c.nodes := by
      cases c with
      | mk ty tb nm d cs => exact hc.2
    rw [delete_recursive_slots_alive rest h.2, htb, delete_recursive_alive c hch]
    cases c.type <;> rfl
end

/-- The failure of C4 as it is stated: when the final name of `p` is empty (here
`p` is `/`, in the tree after `create /x` and `create /`, where `pick_node` finds
the file with the empty name in slot 0), `delete_r` answers `ok`, and the path
`//x`, which extends `p` by `/x`, is still read. -/
theorem C4_counterexample :
    Reachable sample_x_empty ∧
    split_last (cstr "/") = some ([], []) ∧
    reach_node sample_x_empty [] = some ([], sample_x_empty) ∧
    pick_node sample_x_empty [] = some 0 ∧
    (run [command.delete_r (cstr "/"), command.read (cstr "/" ++ SLASH :: cstr "x")]
        sample_x_empty).map Prod.snd = some [reply.ok, reply.contenuto []] := by
  refine ⟨?_, by rfl, by rfl, by decide, by decide⟩
  have h : run [command.create (cstr "/x"), command.create (cstr "/")] root0 =
      some (sample_x_empty, [reply.ok, reply.ok]) := by rfl
  exact reachable_run _ root0 _ _ Reachable.init h

/-- Claim C4, amended.  In every reachable state, when the prefix of `p` resolves
to `cur`, `pick_node` finds the final name in slot `i`, which holds the node `t`,
and no node below `t` is dead, `delete_r` answers `ok` however many alive children
`t` has; afterwards the prefix resolves to the same directory with slot `i` empty,
`enter_node`, `pick_file` and `pick_node` of the name all fail there, `read` of
`p` answers `no`, and, when the final name is not empty, `read` of every path
`p/r` answers `no`.  On the initial tree, `create_dir /a`, `create /a/f`,
`delete_r /a`, `read /a/f` print `ok`, `ok`, `ok`, `no`; and after `create_dir /d`,
`create /d/f`, `delete /d/f`, where the dead file `f` is below `d`, the command
`delete_r /d` has no defined result, because `delete_recursive` releases the name
of `f` a second time. -/
theorem C4_recursive_delete (s : node) (p pre name : cstring) (ptr : List Nat) (cur t : node)
    (i : Nat) (hs : Reachable s)
    (h1 : split_last p = some (pre, name)) (h2 : reach_node s pre = some (ptr, cur))
    (h3 : pick_node cur name = some i) (h4 : slot cur i = some t)
    (h5 : all_alive_slots t.nodes) :
    t.tombstone = mark.ALIVE ∧
    ∃ s1 cur1, delete_r p s = some (s1, reply.ok) ∧
      reach_node s1 pre = some (ptr, cur1) ∧
      slot cur1 i = none ∧ (∀ k, k ≠ i → slot cur1 k = slot cur k) ∧
      enter_node cur1 name = none ∧ pick_file cur1 name = none ∧ pick_node cur1 name = none ∧
      read p s1 = some reply.no ∧
      (name ≠ [] → ∀ r, read (p ++ SLASH :: r) s1 = some reply.no) ∧
      (run [command.create_dir (cstr "/a"), command.create (cstr "/a/f"),
          command.delete_r (cstr "/a"), command.read (cstr "/a/f")] root0).map Prod.snd =
        some [reply.ok, reply.ok, reply.ok, reply.no] ∧
      (run [command.create_dir (cstr "/d"), command.create (cstr "/d/f"),
          command.delete (cstr "/d/f")] root0).map
        (fun x => (delete_r (cstr "/d") x.1).map Prod.snd) = some none := by
  have _hw := reachable_inv s hs
  have halive : t.tombstone = mark.ALIVE := by
    obtain ⟨n, hn, hh⟩ := lookup_some _ cur name i h3
    rw [h4] at hn
    cases hn
    simp only [hit_node, Bool.and_eq_true, decide_eq_true_eq] at hh
    exact hh.1
  obtain ⟨hd, hr, hslot, he, hf, hn⟩ :=
    delete_r_found p pre name s ptr cur t i h1 h2 h3 h4 (delete_recursive_alive t h5)
  refine ⟨halive, _, _, hd, hr, hslot, fun k hk => slot_set_slot_ne cur i k none hk, he, hf, hn,
    ?_, ?_, by decide, by decide⟩
  · unfold read
    simp only [h1, hr, hf]
  · intro hne r
    obtain ⟨hp, hnm⟩ := split_last_some p pre name h1
    have hslash := split_last_none name hnm
    have hsplit := split_last_append p r
    have hblock : ∀ rest, (rest = [] ∨ ∃ r1, rest = SLASH :: r1) →
        reach_node (store (fun c => set_slot c i none) ptr s) (p ++ rest) = none := by
      intro rest hrest
      obtain ⟨more, hmore⟩ := strtok_extend pre name rest hslash hne hrest
      unfold reach_node at hr ⊢
      rw [hp, hmore]
      exact reach_loop_blocked _ more name _ ptr _ hr he
    unfold read
    cases hsr : split_last r with
    | none =>
      rw [hsr] at hsplit
      have hb := hblock [] (Or.inl rfl)
      rw [List.append_nil] at hb
      simp only [hsplit, hb]
    | some x =>
      obtain ⟨pb, nb⟩ := x
      rw [hsr] at hsplit
      have hb := hblock (SLASH :: pb) (Or.inr ⟨pb, rfl⟩)
      simp only [hsplit, hb]

theorem sample_dir_a_alive : all_alive_slots sample_dir_a.nodes :=
  (all_alive_slots_iff _).mpr
    ((all_alive_iff sample_dir_a).mp
      (all_alive_slot sample_a_f 888 sample_dir_a sample_a_f_alive (by rfl))).2

/-- A concrete instance of C4: `delete_r /a` on the tree with the directory `/a`
holding the file `/a/f`; afterwards `read /a/f` answers `no`. -/
theorem C4_recursive_delete_witness :
    Reachable sample_a_f ∧
    split_last (cstr "/a") = some ([], cstr "a") ∧
    reach_node sample_a_f [] = some ([], sample_a_f) ∧
    pick_node sample_a_f (cstr "a") = some 888 ∧
    slot sample_a_f 888 = some sample_dir_a ∧
    all_alive_slots sample_dir_a.nodes ∧
    (sample_dir_a.tombstone = mark.ALIVE ∧
    ∃ s1 cur1, delete_r (cstr "/a") sample_a_f = some (s1, reply.ok) ∧
      reach_node s1 [] = some ([], cur1) ∧
      slot cur1 888 = none ∧ (∀ k, k ≠ 888 → slot cur1 k = slot sample_a_f k) ∧
      enter_node cur1 (cstr "a") = none ∧ pick_file cur1 (cstr "a") = none ∧
      pick_node cur1 (cstr "a") = none ∧
      read (cstr "/a") s1 = some reply.no ∧
      (cstr "a" ≠ [] → ∀ r, read (cstr "/a" ++ SLASH :: r) s1 = some reply.no) ∧
      (run [command.create_dir (cstr "/a"), command.create (cstr "/a/f"),
          command.delete_r (cstr "/a"), command.read (cstr "/a/f")] root0).map Prod.snd =
        some [reply.ok, reply.ok, reply.ok, reply.no] ∧
      (run [command.create_dir (cstr "/d"), command.create (cstr "/d/f"),
          command.delete (cstr "/d/f")] root0).map
        (fun x => (delete_r (cstr "/d") x.1).map Prod.snd) = some none) :=
  ⟨reachable_run _ root0 _ _ Reachable.init sample_a_f_run, by rfl, by rfl, by decide, by rfl,
    sample_dir_a_alive,
    C4_recursive_delete sample_a_f (cstr "/a") [] (cstr "a") [] sample_a_f sample_dir_a 888
      (reachable_run _ root0 _ _ Reachable.init sample_a_f_run) (by rfl) (by rfl) (by decide)
      (by rfl) sample_dir_a_alive⟩


end ApiProject
